import Mathlib

/-!
Verification of the linear space-allocation engine and the widget lifecycle
state machine of a split-panel UI toolkit, shallowly embedded in Lean.

Numeric quantities are modelled as rationals (`ℚ`); `maxSize` values are
assumed finite (the source allows an unbounded `Infinity` maximum, which is
outside this embedding).
-/

namespace SplitVerify

/-- A box sizer: one constrained resizable quantity, as consumed by the
split layout.  Fields follow the `BoxSizer` objects used by the source
(`sizeHint`, `minSize`, `maxSize`, `stretch`, `size`). -/
structure BoxSizer where
  sizeHint : ℚ
  minSize : ℚ
  maxSize : ℚ
  stretch : ℕ
  size : ℚ
deriving Repr, DecidableEq

/-- Default sizer used only as a `getD` fallback in statements. -/
def dfltSizer : BoxSizer := ⟨0, 0, 0, 0, 0⟩

/-- The absorption loop shared by `Private.growSizer` and
`Private.shrinkSizer` (the source's `grow` loops): the list is given in walk
order; while the remaining amount is positive, each sizer's `sizeHint` is set
to its `size` plus as much of the remaining amount as its `maxSize` headroom
`limit` allows, the overflow cascading to the next sizer.  Returns the
updated sizers and the leftover amount. -/
def growLoop : List BoxSizer → ℚ → List BoxSizer × ℚ
  | [], g => ([], g)
  | s :: rest, g =>
    if 0 < g then
      let limit := s.maxSize - s.size
      if g ≤ limit then
        ({ s with sizeHint := s.size + g } :: rest, 0)
      else
        let r := growLoop rest (g - limit)
        ({ s with sizeHint := s.size + limit } :: r.1, r.2)
    else (s :: rest, g)

/-- The release loop shared by `Private.growSizer` and `Private.shrinkSizer`
(the source's `shrink` loops): each sizer's `sizeHint` is set to its `size`
minus as much of the remaining amount as its `minSize` slack allows, the
overflow cascading to the next sizer. -/
def shrinkLoop : List BoxSizer → ℚ → List BoxSizer × ℚ
  | [], g => ([], g)
  | s :: rest, g =>
    if 0 < g then
      let limit := s.size - s.minSize
      if g ≤ limit then
        ({ s with sizeHint := s.size - g } :: rest, 0)
      else
        let r := shrinkLoop rest (g - limit)
        ({ s with sizeHint := s.size - limit } :: r.1, r.2)
    else (s :: rest, g)

/-- `Σ_{j ≤ index} (maxSize_j − size_j)`: how much the items up to and
including `index` can expand (the source's `growLimit` in `growSizer`). -/
def growLimitAt (sizers : List BoxSizer) (index : ℕ) : ℚ :=
  ((sizers.take (index + 1)).map fun s => s.maxSize - s.size).sum

/-- `Σ_{j > index} (size_j − minSize_j)`: how much the items after `index`
can shrink (the source's `shrinkLimit` in `growSizer`). -/
def shrinkLimitAt (sizers : List BoxSizer) (index : ℕ) : ℚ :=
  ((sizers.drop (index + 1)).map fun s => s.size - s.minSize).sum

/-- `Σ_{j > index} (maxSize_j − size_j)`: how much the items after `index`
can expand (the source's `growLimit` in `shrinkSizer`). -/
def growLimitAfter (sizers : List BoxSizer) (index : ℕ) : ℚ :=
  ((sizers.drop (index + 1)).map fun s => s.maxSize - s.size).sum

/-- `Σ_{j ≤ index} (size_j − minSize_j)`: how much the items up to and
including `index` can shrink (the source's `shrinkLimit` in `shrinkSizer`). -/
def shrinkLimitUpTo (sizers : List BoxSizer) (index : ℕ) : ℚ :=
  ((sizers.take (index + 1)).map fun s => s.size - s.minSize).sum

/-- `Private.growSizer`: grow the sizer at `index` to the right by a positive
`delta` and adjust the neighbors.  The delta is clamped to the growth limit
of the left group and the shrink limit of the right group; the left group is
walked backward from `index` (hence the `reverse`), the right group forward
from `index + 1`. -/
def growSizer (sizers : List BoxSizer) (index : ℕ) (delta : ℚ) : List BoxSizer :=
  let d := min delta (min (growLimitAt sizers index) (shrinkLimitAt sizers index))
  let left := ((growLoop ((sizers.take (index + 1)).reverse) d).1).reverse
  let right := (shrinkLoop (sizers.drop (index + 1)) d).1
  left ++ right

/-- `Private.shrinkSizer`: shrink the sizer at `index` to the left by a
positive `delta` and adjust the neighbors.  Mirror image of `growSizer`:
the right group grows walking forward from `index + 1`, the left group
shrinks walking backward from `index`. -/
def shrinkSizer (sizers : List BoxSizer) (index : ℕ) (delta : ℚ) : List BoxSizer :=
  let d := min delta (min (growLimitAfter sizers index) (shrinkLimitUpTo sizers index))
  let left := ((shrinkLoop ((sizers.take (index + 1)).reverse) d).1).reverse
  let right := (growLoop (sizers.drop (index + 1)) d).1
  left ++ right

/-- The sizer adjustment performed by `setHandlePosition` once a non-zero
delta is known: `growSizer` for positive delta, `shrinkSizer` (with the
negated delta) for negative delta. -/
def moveSizers (sizers : List BoxSizer) (index : ℕ) (delta : ℚ) : List BoxSizer :=
  if 0 < delta then growSizer sizers index delta
  else if delta < 0 then shrinkSizer sizers index (-delta)
  else sizers

/-- The hint-pinning pass of `setHandlePosition`: every sizer with a positive
current `size` has its `sizeHint` pinned to that size ("prevent widget
resizing unless needed"). -/
def pinSizers (sizers : List BoxSizer) : List BoxSizer :=
  sizers.map fun s => if 0 < s.size then { s with sizeHint := s.size } else s

/-- A split handle, reduced to the state `setHandlePosition` reads: whether
it carries the hidden class, and its offset position along the layout
orientation. -/
structure Handle where
  hidden : Bool
  offset : ℚ
deriving Repr, DecidableEq

/-- The sizer-relevant state of a `SplitLayout`: the parallel sizer and
handle sequences, whether a parent widget is installed, and whether an
update of the parent has been requested. -/
structure SplitState where
  sizers : List BoxSizer
  handles : List Handle
  hasParent : Bool
  updateRequested : Bool
deriving Repr, DecidableEq

/-- `SplitLayout.sizes`: the current sizes of the widgets in the layout,
read from the cached sizer `size` fields (no re-measurement). -/
def SplitState.sizes (st : SplitState) : List ℚ :=
  st.sizers.map fun s => s.size

/-- `SplitLayout.setHandlePosition`: bail if the handle index is out of
range or the handle is hidden; compute the delta from the handle's current
offset; bail if it is zero; otherwise pin the hints, adjust the sizers with
`growSizer`/`shrinkSizer`, and request an update of the parent. -/
def setHandlePosition (st : SplitState) (index : ℕ) (position : ℚ) : SplitState :=
  match st.handles[index]? with
  | none => st
  | some handle =>
    if handle.hidden then st
    else
      let delta := position - handle.offset
      if delta = 0 then st
      else
        let pinned := pinSizers st.sizers
        let adjusted :=
          if 0 < delta then growSizer pinned index delta
          else shrinkSizer pinned index (-delta)
        { st with sizers := adjusted,
                  updateRequested := st.updateRequested || st.hasParent }

/-! ### The allocation engine

Modelled from the spec: the `boxCalc` allocation engine (`boxengine`) is not
part of the sources here (only its call site in `SplitLayout._update` is), so
it is reconstructed from the spec's §4.1 algorithm: clamp, terminal min/max
saturation, then water-filling distribution of the residual proportionally to
`stretch`, with zero-stretch sizers absorbing the remainder equally once every
positive-stretch sizer is saturated. -/

/-- Modelled from the spec: step 4's starting point — each sizer's `size` is
its `sizeHint` clamped into `[minSize, maxSize]`. -/
def clampHint (s : BoxSizer) : BoxSizer :=
  { s with size := max s.minSize (min s.sizeHint s.maxSize) }

/-- Total stretch weight of the sizers eligible for surplus distribution
(positive stretch, not yet at `maxSize`). -/
def stretchSumGrow (l : List BoxSizer) : ℚ :=
  (l.map fun s =>
    if 0 < s.stretch ∧ s.size < s.maxSize then (s.stretch : ℚ) else 0).sum

/-- Modelled from the spec: one proportional distribution pass of the
surplus.  Every eligible sizer receives `surplus · stretch / ts` of the
surplus, saturating at `maxSize` (a saturating sizer only absorbs its
remaining headroom).  Returns the updated sizers and the amount absorbed. -/
def onePassGrow (surplus ts : ℚ) : List BoxSizer → List BoxSizer × ℚ
  | [] => ([], 0)
  | s :: rest =>
    let r := onePassGrow surplus ts rest
    if 0 < s.stretch ∧ s.size < s.maxSize then
      let share := surplus * s.stretch / ts
      if s.maxSize - s.size ≤ share then
        ({ s with size := s.maxSize } :: r.1, r.2 + (s.maxSize - s.size))
      else
        ({ s with size := s.size + share } :: r.1, r.2 + share)
    else (s :: r.1, r.2)

/-- Modelled from the spec: iterate proportional surplus passes until the
surplus is exhausted or no positive-stretch sizer has headroom.  The fuel
bounds the iteration; `length + 1` rounds always suffice. -/
def distGrow : ℕ → List BoxSizer → ℚ → List BoxSizer × ℚ
  | 0, l, surplus => (l, surplus)
  | fuel + 1, l, surplus =>
    if surplus ≤ 0 then (l, surplus)
    else
      let ts := stretchSumGrow l
      if ts = 0 then (l, surplus)
      else
        let r := onePassGrow surplus ts l
        distGrow fuel r.1 (surplus - r.2)

/-- Number of sizers that still have headroom below `maxSize`. -/
def countGrowRoom (l : List BoxSizer) : ℕ :=
  l.countP fun s => decide (s.size < s.maxSize)

/-- Modelled from the spec: one equal-distribution pass of the surplus among
the sizers with remaining headroom (the zero-stretch fallback of step 5). -/
def onePassGrowEq (surplus : ℚ) (cnt : ℕ) : List BoxSizer → List BoxSizer × ℚ
  | [] => ([], 0)
  | s :: rest =>
    let r := onePassGrowEq surplus cnt rest
    if s.size < s.maxSize then
      let share := surplus / cnt
      if s.maxSize - s.size ≤ share then
        ({ s with size := s.maxSize } :: r.1, r.2 + (s.maxSize - s.size))
      else
        ({ s with size := s.size + share } :: r.1, r.2 + share)
    else (s :: r.1, r.2)

/-- Modelled from the spec: iterate equal surplus passes until the surplus is
exhausted or no sizer has headroom. -/
def distGrowEq : ℕ → List BoxSizer → ℚ → List BoxSizer × ℚ
  | 0, l, surplus => (l, surplus)
  | fuel + 1, l, surplus =>
    if surplus ≤ 0 then (l, surplus)
    else
      let cnt := countGrowRoom l
      if cnt = 0 then (l, surplus)
      else
        let r := onePassGrowEq surplus cnt l
        distGrowEq fuel r.1 (surplus - r.2)

/-- Total stretch weight of the sizers eligible for deficit distribution
(positive stretch, not yet at `minSize`). -/
def stretchSumShrink (l : List BoxSizer) : ℚ :=
  (l.map fun s =>
    if 0 < s.stretch ∧ s.minSize < s.size then (s.stretch : ℚ) else 0).sum

/-- Modelled from the spec: one proportional distribution pass of the
deficit, the symmetric shrink counterpart of `onePassGrow`, saturating at
`minSize` floors. -/
def onePassShrink (deficit ts : ℚ) : List BoxSizer → List BoxSizer × ℚ
  | [] => ([], 0)
  | s :: rest =>
    let r := onePassShrink deficit ts rest
    if 0 < s.stretch ∧ s.minSize < s.size then
      let share := deficit * s.stretch / ts
      if s.size - s.minSize ≤ share then
        ({ s with size := s.minSize } :: r.1, r.2 + (s.size - s.minSize))
      else
        ({ s with size := s.size - share } :: r.1, r.2 + share)
    else (s :: r.1, r.2)

/-- Modelled from the spec: iterate proportional deficit passes. -/
def distShrink : ℕ → List BoxSizer → ℚ → List BoxSizer × ℚ
  | 0, l, deficit => (l, deficit)
  | fuel + 1, l, deficit =>
    if deficit ≤ 0 then (l, deficit)
    else
      let ts := stretchSumShrink l
      if ts = 0 then (l, deficit)
      else
        let r := onePassShrink deficit ts l
        distShrink fuel r.1 (deficit - r.2)

/-- Number of sizers that still have slack above `minSize`. -/
def countShrinkRoom (l : List BoxSizer) : ℕ :=
  l.countP fun s => decide (s.minSize < s.size)

/-- Modelled from the spec: one equal-distribution pass of the deficit among
the sizers with remaining slack. -/
def onePassShrinkEq (deficit : ℚ) (cnt : ℕ) : List BoxSizer → List BoxSizer × ℚ
  | [] => ([], 0)
  | s :: rest =>
    let r := onePassShrinkEq deficit cnt rest
    if s.minSize < s.size then
      let share := deficit / cnt
      if s.size - s.minSize ≤ share then
        ({ s with size := s.minSize } :: r.1, r.2 + (s.size - s.minSize))
      else
        ({ s with size := s.size - share } :: r.1, r.2 + share)
    else (s :: r.1, r.2)

/-- Modelled from the spec: iterate equal deficit passes. -/
def distShrinkEq : ℕ → List BoxSizer → ℚ → List BoxSizer × ℚ
  | 0, l, deficit => (l, deficit)
  | fuel + 1, l, deficit =>
    if deficit ≤ 0 then (l, deficit)
    else
      let cnt := countShrinkRoom l
      if cnt = 0 then (l, deficit)
      else
        let r := onePassShrinkEq deficit cnt l
        distShrinkEq fuel r.1 (deficit - r.2)

/-- Modelled from the spec: the allocation engine `boxCalc(sizers, space)`
(§4.1).  Saturate every size at `minSize` when the space is at most the
minimum total, at `maxSize` when it is at least the maximum total; otherwise
start from the clamped hints and distribute the residual by water-filling
(proportional-to-stretch passes, then equal passes among the remaining
headroom once every positive-stretch sizer is saturated). -/
def boxCalc (sizers : List BoxSizer) (space : ℚ) : List BoxSizer :=
  let totalMin := (sizers.map fun s => s.minSize).sum
  let totalMax := (sizers.map fun s => s.maxSize).sum
  if space ≤ totalMin then sizers.map fun s => { s with size := s.minSize }
  else if totalMax ≤ space then sizers.map fun s => { s with size := s.maxSize }
  else
    let clamped := sizers.map clampHint
    let totalSize := (clamped.map fun s => s.size).sum
    if space = totalSize then clamped
    else if totalSize < space then
      let r₁ := distGrow (sizers.length + 1) clamped (space - totalSize)
      (distGrowEq (sizers.length + 1) r₁.1 r₁.2).1
    else
      let r₁ := distShrink (sizers.length + 1) clamped (totalSize - space)
      (distShrinkEq (sizers.length + 1) r₁.1 r₁.2).1

/-- The allocation step of `SplitLayout._update`: the engine is invoked with
the available extent minus the fixed inter-element spacing, floored at 0. -/
def updateSizes (sizers : List BoxSizer) (available fixed : ℚ) : List BoxSizer :=
  boxCalc sizers (max 0 (available - fixed))

/-! ### Handle visibility after a fit pass -/

/-- The index of the last visible (not hidden) child, as tracked by the
`lastHandle` variable of the handle loop in `SplitLayout._fit`. -/
def lastVisibleIdx : List Bool → Option ℕ
  | [] => none
  | b :: rest =>
    match lastVisibleIdx rest with
    | some j => some (j + 1)
    | none => if b then none else some 0

/-- The handle-visibility computation of `SplitLayout._fit`: each handle is
hidden exactly when its child is hidden, and afterwards the handle of the
last visible child (if any) is hidden as well. -/
def fitHandleHidden (childHidden : List Bool) : List Bool :=
  match lastVisibleIdx childHidden with
  | none => childHidden
  | some j => childHidden.set j true

/-! ### The widget lifecycle state machine

Widgets are identified by natural numbers; a world maps each identifier to a
widget state.  The `layout` field models the optional single layout as its
ordered list of child widgets; `node` and `metaData` model the held node
reference and the attached signal/message/property data. -/

/-- The per-widget state: the four lifecycle flags, the optional parent
reference, the optional layout (as its ordered child list), and the held
node/metadata references. -/
structure WidgetSt where
  disposed : Bool
  attached : Bool
  hidden : Bool
  visible : Bool
  parent : Option ℕ
  layout : Option (List ℕ)
  node : Bool
  metaData : Bool
deriving Repr, DecidableEq

/-- A freshly constructed widget: all flags clear, no parent, no layout. -/
def initWidget : WidgetSt :=
  ⟨false, false, false, false, none, none, true, true⟩

/-- A world of widgets. -/
def World : Type := ℕ → WidgetSt

/-- Update the state of one widget in a world. -/
def updW (w : World) (x : ℕ) (f : WidgetSt → WidgetSt) : World :=
  fun y => if y = x then f (w y) else w y

/-- The world in which every widget is freshly constructed. -/
def initWorld : World := fun _ => initWidget

/-- The visibility-relevant lifecycle messages of `Widget.processMessage`. -/
inductive VisMsg
  | afterShow
  | beforeHide
  | afterAttach
  | beforeDetach
deriving Repr, DecidableEq

/-- The children reachable through a widget's layout. -/
def childrenOf (w : World) (x : ℕ) : List ℕ :=
  (w x).layout.getD []

/-- Whether the widget's parent, if any, is visible (the
`!this.parent || this.parent.isVisible` guard). -/
def parentVisible (w : World) (x : ℕ) : Bool :=
  match (w x).parent with
  | none => true
  | some p => (w p).visible

/-- Delivery of a visibility-relevant message, following
`Widget.processMessage`: `after-show` sets Visible and then forwards;
`before-hide` forwards and then clears Visible; `after-attach` sets Visible
iff not hidden and the parent (if any) is visible, sets Attached, then
forwards; `before-detach` forwards and then clears Visible and Attached.
Modelled from the spec: the forwarding of each message through the widget's
layout to its children (the layout class is not among the sources) sends
`after-show`/`before-hide` to every non-hidden child and
`after-attach`/`before-detach` to every child. -/
def deliver : ℕ → World → ℕ → VisMsg → World
  | 0, w, _, _ => w
  | fuel + 1, w, x, m =>
    match m with
    | .afterShow =>
      let w₁ := updW w x fun s => { s with visible := true }
      (childrenOf w₁ x).foldl
        (fun acc c =>
          if (acc c).hidden then acc else deliver fuel acc c .afterShow) w₁
    | .beforeHide =>
      let w₁ := (childrenOf w x).foldl
        (fun acc c =>
          if (acc c).hidden then acc else deliver fuel acc c .beforeHide) w
      updW w₁ x fun s => { s with visible := false }
    | .afterAttach =>
      let vis := !(w x).hidden && parentVisible w x
      let w₁ := updW w x fun s =>
        { s with visible := s.visible || vis, attached := true }
      (childrenOf w₁ x).foldl (fun acc c => deliver fuel acc c .afterAttach) w₁
    | .beforeDetach =>
      let w₁ := (childrenOf w x).foldl
        (fun acc c => deliver fuel acc c .beforeDetach) w
      updW w₁ x fun s => { s with visible := false, attached := false }

/-- `Widget.show`: a no-op when not explicitly hidden; otherwise clear the
Hidden flag and, when attached with a visible (or absent) parent, deliver
`after-show` (the `child-shown` notification to the parent carries no widget
state effect). -/
def showW (fuel : ℕ) (w : World) (x : ℕ) : World :=
  if (w x).hidden = false then w
  else
    let w₁ := updW w x fun s => { s with hidden := false }
    if (w₁ x).attached && parentVisible w₁ x then deliver fuel w₁ x .afterShow
    else w₁

/-- `Widget.hide`: a no-op when already hidden; otherwise deliver
`before-hide` when attached with a visible (or absent) parent, then set the
Hidden flag. -/
def hideW (fuel : ℕ) (w : World) (x : ℕ) : World :=
  if (w x).hidden = true then w
  else
    let w₁ :=
      if (w x).attached && parentVisible w x then deliver fuel w x .beforeHide
      else w
    updW w₁ x fun s => { s with hidden := true }

/-- `Widget.attach`: an error (no state change) unless the widget is an
unattached root; otherwise deliver `after-attach`. -/
def attachW (fuel : ℕ) (w : World) (x : ℕ) : World :=
  if (w x).parent ≠ none then w
  else if (w x).attached = true then w
  else deliver fuel w x .afterAttach

/-- `Widget.detach`: an error (no state change) unless the widget is an
attached root; otherwise deliver `before-detach`. -/
def detachW (fuel : ℕ) (w : World) (x : ℕ) : World :=
  if (w x).parent ≠ none then w
  else if (w x).attached = false then w
  else deliver fuel w x .beforeDetach

/-- `Widget.contains`: walk the parent chain of `widget` looking for
`this`.  The fuel bounds the walk (the source loop relies on the chains
being finite). -/
def containsW : ℕ → World → ℕ → ℕ → Bool
  | 0, _, _, _ => false
  | fuel + 1, w, this, widget =>
    if widget = this then true
    else
      match (w widget).parent with
      | none => false
      | some p => containsW fuel w this p

/-- The observable operations performed by the `Widget.parent` setter, in
order. -/
inductive WEvent
  | childRemoved (parent child : ℕ)
  | childAdded (parent child : ℕ)
  | reassigned (child : ℕ)
  | parentChanged (child : ℕ)
deriving Repr, DecidableEq

/-- The cycle check of the `Widget.parent` setter: the assigned value, when
present, must not be the widget itself or one of its descendants
(`this.contains(value)` in the source). -/
def cycleGuard (fuel : ℕ) (w : World) (x : ℕ) : Option ℕ → Bool
  | some u => containsW fuel w x u
  | none => false

/-- The `Widget.parent` setter: a no-op when the parent does not change; an
error (`true` flag, no state change) when the value is the widget itself or
a descendant; otherwise notify the old parent (`child-removed`) unless
disposed, reassign, notify the new parent (`child-added`) unless disposed,
and send `parent-changed` to the widget.  Returns the new world, the ordered
trace of observable operations, and the error flag.  The notifications carry
no widget-flag effects in the base widget class (layout reactions to them
live outside these sources). -/
def setParentR (fuel : ℕ) (w : World) (x : ℕ) (value : Option ℕ) :
    World × List WEvent × Bool :=
  if (w x).parent = value then (w, [], false)
  else if cycleGuard fuel w x value then (w, [], true)
  else
    let oldNotice :=
      match (w x).parent with
      | some p =>
        if (w p).disposed = false then [WEvent.childRemoved p x] else []
      | none => []
    let w₁ := updW w x fun s => { s with parent := value }
    let newNotice :=
      match value with
      | some u =>
        if (w₁ u).disposed = false then [WEvent.childAdded u x] else []
      | none => []
    (w₁, oldNotice ++ WEvent.reassigned x :: newNotice ++ [WEvent.parentChanged x],
      false)

/-- The state effect of the `Widget.parent` setter. -/
def setParentW (fuel : ℕ) (w : World) (x : ℕ) (value : Option ℕ) : World :=
  (setParentR fuel w x value).1

/-- `Widget.dispose`: a no-op when already disposed; otherwise set the
Disposed flag, unparent (when a parent exists — the notifications carry no
flag effects) or detach (when attached), dispose the layout, and release the
metadata and the node reference.  Modelled from the spec: disposing the
layout (the layout class is not among the sources) clears each child's
parent reference and cascades disposal to the child, then the layout
reference itself is cleared. -/
def disposeW : ℕ → World → ℕ → World
  | 0, w, _ => w
  | fuel + 1, w, x =>
    if (w x).disposed then w
    else
      let w₁ := updW w x fun s => { s with disposed := true }
      let w₂ :=
        match (w₁ x).parent with
        | some _ => updW w₁ x fun s => { s with parent := none }
        | none =>
          if (w₁ x).attached then deliver fuel w₁ x .beforeDetach else w₁
      let w₃ :=
        match (w₂ x).layout with
        | some cs =>
          let w₄ := cs.foldl
            (fun acc c =>
              disposeW fuel (updW acc c fun s => { s with parent := none }) c) w₂
          updW w₄ x fun s => { s with layout := none }
        | none => w₂
      updW w₃ x fun s => { s with node := false, metaData := false }

/-- The first stage of `disposeW`: set the Disposed flag. -/
def disposeFlag (w : World) (x : ℕ) : World :=
  updW w x fun s => { s with disposed := true }

/-- The second stage of `disposeW`: unparent (when a parent exists) or
detach (when attached). -/
def disposeDetach (fuel : ℕ) (w : World) (x : ℕ) : World :=
  match (w x).parent with
  | some _ => updW w x fun s => { s with parent := none }
  | none => if (w x).attached then deliver fuel w x .beforeDetach else w

/-- The third stage of `disposeW`: dispose the layout, clearing each child's
parent reference and cascading disposal to it, then drop the layout. -/
def disposeKids (fuel : ℕ) (w : World) (x : ℕ) : World :=
  match (w x).layout with
  | some cs =>
    updW (cs.foldl
      (fun acc c => disposeW fuel (updW acc c fun s => { s with parent := none }) c) w) x
      fun s => { s with layout := none }
  | none => w

/-- The final stage of `disposeW`: release the metadata and the node. -/
def disposeRelease (w : World) (x : ℕ) : World :=
  updW w x fun s => { s with node := false, metaData := false }

/-- The public widget operations of the lifecycle state machine. -/
inductive WidgetOp
  | attach (x : ℕ)
  | detach (x : ℕ)
  | showOp (x : ℕ)
  | hideOp (x : ℕ)
  | dispose (x : ℕ)
  | reparent (x : ℕ) (value : Option ℕ)
deriving Repr, DecidableEq

/-- Apply one public operation to the world. -/
def applyOp (fuel : ℕ) (w : World) : WidgetOp → World
  | .attach x => attachW fuel w x
  | .detach x => detachW fuel w x
  | .showOp x => showW fuel w x
  | .hideOp x => hideW fuel w x
  | .dispose x => disposeW fuel w x
  | .reparent x value => setParentW fuel w x value

/-- Run a sequence of public operations from a starting world. -/
def runOps (fuel : ℕ) (w : World) (ops : List WidgetOp) : World :=
  ops.foldl (applyOp fuel) w

/-- Whether an operation is a direct parent reassignment. -/
def WidgetOp.isReparent : WidgetOp → Bool
  | .reparent _ _ => true
  | _ => false

/-- Whether some ancestor of `x` (along parent references) is explicitly
hidden; the fuel bounds the walk up the chain. -/
def hasHiddenAncestor : ℕ → World → ℕ → Bool
  | 0, _, _ => false
  | fuel + 1, w, x =>
    match (w x).parent with
    | none => false
    | some p => (w p).hidden || hasHiddenAncestor fuel w p

/-! ### Auxiliary notions used by the statements and proofs -/

/-- The fields of a sizer other than `sizeHint`, bundled: the interactive
adjuster is expected to preserve all of them. -/
def sizerCore (s : BoxSizer) : ℚ × ℚ × ℕ × ℚ :=
  (s.minSize, s.maxSize, s.stretch, s.size)

/-- The fields of a sizer other than `size`, bundled: the allocation engine
is expected to preserve all of them. -/
def sizerConf (s : BoxSizer) : ℚ × ℚ × ℚ × ℕ :=
  (s.sizeHint, s.minSize, s.maxSize, s.stretch)

/-- Number of sizers eligible for proportional surplus distribution. -/
def activeGrowCount (l : List BoxSizer) : ℕ :=
  l.countP fun s => decide (0 < s.stretch ∧ s.size < s.maxSize)

/-- Number of sizers eligible for proportional deficit distribution. -/
def activeShrinkCount (l : List BoxSizer) : ℕ :=
  l.countP fun s => decide (0 < s.stretch ∧ s.minSize < s.size)

/-- Two worlds agreeing on everything except the Visible and Attached
flags (message delivery touches nothing else). -/
def agreeExceptVis (w w' : World) : Prop :=
  ∀ y, (w' y).parent = (w y).parent ∧ (w' y).layout = (w y).layout ∧
    (w' y).disposed = (w y).disposed ∧ (w' y).hidden = (w y).hidden ∧
    (w' y).node = (w y).node ∧ (w' y).metaData = (w y).metaData

/-- The monotone facts about a disposal step: parents are only ever cleared,
the Disposed flag is only ever set, the Attached flag is only ever cleared,
layouts are only ever cleared, and Hidden is untouched. -/
def disposeMono (w w' : World) : Prop :=
  ∀ y,
    ((w' y).parent = (w y).parent ∨ (w' y).parent = none) ∧
    ((w y).disposed = true → (w' y).disposed = true) ∧
    ((w' y).attached = true → (w y).attached = true) ∧
    ((w' y).layout = (w y).layout ∨ (w' y).layout = none) ∧
    (w' y).hidden = (w y).hidden ∧
    ((w' y).node = true → (w y).node = true) ∧
    ((w' y).metaData = true → (w y).metaData = true)

/-- The flag invariant of a world of root widgets: no parents, no layouts,
and Visible implies Attached and not Hidden. -/
def rootsInv (w : World) : Prop :=
  ∀ x, (w x).parent = none ∧ (w x).layout = none ∧
    ((w x).visible = true → (w x).attached = true ∧ (w x).hidden = false)

/-- The two sizers of the drag-clamp scenario: `minSize = 10`,
`maxSize = 100`, current size `50` (hints pinned to the sizes). -/
def sizerC3 : BoxSizer := ⟨50, 10, 100, 1, 50⟩

/-- The split-layout state of the drag-clamp scenario: two sizers of
`sizerC3` shape (with stale hints, as before a drag), the first handle at
offset 50. -/
def stC3 : SplitState :=
  ⟨[⟨0, 10, 100, 1, 50⟩, ⟨7, 10, 100, 1, 50⟩],
   [⟨false, 50⟩, ⟨true, 103⟩], true, false⟩

/-- A concrete world for the parent-setter scenario: widget 1 is a child of
widget 0, everything else is fresh. -/
def wC6 : World := fun i =>
  if i = 1 then { initWidget with parent := some 0 } else initWidget

/-- A concrete world for the disposal scenario: widget 0 has a layout with
children 1 and 2, which point back to it as their parent. -/
def wC7 : World := fun i =>
  if i = 0 then { initWidget with layout := some [1, 2] }
  else if i ≤ 2 then { initWidget with parent := some 0 }
  else initWidget

/-- The operation sequence of the visibility counterexample: hide widget 1,
attach widget 0 (making it visible), then reparent widget 0 under the hidden
widget 1. -/
def opsC5 : List WidgetOp :=
  [WidgetOp.hideOp 1, WidgetOp.attach 0, WidgetOp.reparent 0 (some 1)]

/-! ## Lemmas about the absorption and release loops -/

theorem getD_mem {α : Type} {l : List α} {j : ℕ} {d : α} (h : j < l.length) :
    l.getD j d ∈ l := by
  rw [List.getD_eq_getElem l d h]
  exact List.getElem_mem h

theorem growLoop_core (l : List BoxSizer) (g : ℚ) :
    ((growLoop l g).1).map sizerCore = l.map sizerCore := by
  induction l generalizing g with
  | nil => simp [growLoop]
  | cons s rest ih =>
    by_cases hg : 0 < g
    · by_cases hle : g ≤ s.maxSize - s.size
      · simp [growLoop, hg, hle, sizerCore]
      · simp [growLoop, hg, hle, sizerCore, ih]
    · simp [growLoop, hg]

theorem shrinkLoop_core (l : List BoxSizer) (g : ℚ) :
    ((shrinkLoop l g).1).map sizerCore = l.map sizerCore := by
  induction l generalizing g with
  | nil => simp [shrinkLoop]
  | cons s rest ih =>
    by_cases hg : 0 < g
    · by_cases hle : g ≤ s.size - s.minSize
      · simp [shrinkLoop, hg, hle, sizerCore]
      · simp [shrinkLoop, hg, hle, sizerCore, ih]
    · simp [shrinkLoop, hg]

theorem map_size_of_core {l₁ l₂ : List BoxSizer}
    (h : l₁.map sizerCore = l₂.map sizerCore) :
    l₁.map (fun s => s.size) = l₂.map (fun s => s.size) := by
  have h₂ := congrArg (List.map fun p : ℚ × ℚ × ℕ × ℚ => p.2.2.2) h
  simpa [List.map_map, Function.comp, sizerCore] using h₂

theorem mem_of_core {l₁ l₂ : List BoxSizer}
    (h : l₁.map sizerCore = l₂.map sizerCore) {s : BoxSizer} (hs : s ∈ l₁) :
    ∃ s₂ ∈ l₂, sizerCore s₂ = sizerCore s := by
  have : sizerCore s ∈ l₂.map sizerCore := h ▸ List.mem_map_of_mem sizerCore hs
  obtain ⟨s₂, hs₂, he⟩ := List.mem_map.mp this
  exact ⟨s₂, hs₂, he⟩

theorem growLoop_leftover (l : List BoxSizer) (g : ℚ)
    (hl : ∀ s ∈ l, s.size ≤ s.maxSize) (hg : 0 ≤ g) :
    (growLoop l g).2 = max 0 (g - ((l.map fun s => s.maxSize - s.size).sum)) := by
  induction l generalizing g with
  | nil => simp [growLoop, max_eq_right hg]
  | cons s rest ih =>
    have hrest : (0 : ℚ) ≤ ((rest.map fun s => s.maxSize - s.size).sum) := by
      apply List.sum_nonneg
      intro q hq
      obtain ⟨s', hs', rfl⟩ := List.mem_map.mp hq
      have := hl s' (List.mem_cons_of_mem _ hs')
      linarith
    have hhead : (0 : ℚ) ≤ s.maxSize - s.size := by
      have := hl s (List.mem_cons_self s rest)
      linarith
    by_cases hg0 : 0 < g
    · by_cases hle : g ≤ s.maxSize - s.size
      · have : g - (s.maxSize - s.size + (rest.map fun s => s.maxSize - s.size).sum) ≤ 0 := by
          linarith
        simp [growLoop, hg0, hle, max_eq_left this]
      · have hg' : (0 : ℚ) ≤ g - (s.maxSize - s.size) := by linarith
        have := ih (g - (s.maxSize - s.size))
          (fun s' hs' => hl s' (List.mem_cons_of_mem _ hs')) hg'
        simp only [growLoop, if_pos hg0, if_neg hle]
        rw [this, List.map_cons, List.sum_cons]
        congr 1
        ring
    · have hgz : g = 0 := le_antisymm (not_lt.mp hg0) hg
      subst hgz
      simp only [growLoop, if_neg hg0]
      rw [List.map_cons, List.sum_cons]
      exact (max_eq_left (by linarith)).symm

theorem shrinkLoop_leftover (l : List BoxSizer) (g : ℚ)
    (hl : ∀ s ∈ l, s.minSize ≤ s.size) (hg : 0 ≤ g) :
    (shrinkLoop l g).2 = max 0 (g - ((l.map fun s => s.size - s.minSize).sum)) := by
  induction l generalizing g with
  | nil => simp [shrinkLoop, max_eq_right hg]
  | cons s rest ih =>
    have hrest : (0 : ℚ) ≤ ((rest.map fun s => s.size - s.minSize).sum) := by
      apply List.sum_nonneg
      intro q hq
      obtain ⟨s', hs', rfl⟩ := List.mem_map.mp hq
      have := hl s' (List.mem_cons_of_mem _ hs')
      linarith
    have hhead : (0 : ℚ) ≤ s.size - s.minSize := by
      have := hl s (List.mem_cons_self s rest)
      linarith
    by_cases hg0 : 0 < g
    · by_cases hle : g ≤ s.size - s.minSize
      · have : g - (s.size - s.minSize + (rest.map fun s => s.size - s.minSize).sum) ≤ 0 := by
          linarith
        simp [shrinkLoop, hg0, hle, max_eq_left this]
      · have hg' : (0 : ℚ) ≤ g - (s.size - s.minSize) := by linarith
        have := ih (g - (s.size - s.minSize))
          (fun s' hs' => hl s' (List.mem_cons_of_mem _ hs')) hg'
        simp only [shrinkLoop, if_pos hg0, if_neg hle]
        rw [this, List.map_cons, List.sum_cons]
        congr 1
        ring
    · have hgz : g = 0 := le_antisymm (not_lt.mp hg0) hg
      subst hgz
      simp only [shrinkLoop, if_neg hg0]
      rw [List.map_cons, List.sum_cons]
      exact (max_eq_left (by linarith)).symm

theorem growLoop_hintSum (l : List BoxSizer) (g : ℚ)
    (hp : ∀ s ∈ l, s.sizeHint = s.size) (hg : 0 ≤ g) :
    (((growLoop l g).1).map fun s => s.sizeHint).sum
      = ((l.map fun s => s.size).sum) + g - (growLoop l g).2 := by
  induction l generalizing g with
  | nil => simp [growLoop]
  | cons s rest ih =>
    have hrest : (rest.map fun s => s.sizeHint) = (rest.map fun s => s.size) :=
      List.map_congr_left fun s' hs' => hp s' (List.mem_cons_of_mem _ hs')
    by_cases hg0 : 0 < g
    · by_cases hle : g ≤ s.maxSize - s.size
      · simp only [growLoop, if_pos hg0, if_pos hle, List.map_cons, List.sum_cons]
        rw [hrest]
        ring
      · have hg' : (0 : ℚ) ≤ g - (s.maxSize - s.size) := by
          have := not_le.mp hle
          linarith
        have := ih (g - (s.maxSize - s.size))
          (fun s' hs' => hp s' (List.mem_cons_of_mem _ hs')) hg'
        simp only [growLoop, if_pos hg0, if_neg hle, List.map_cons, List.sum_cons]
        rw [this]
        ring
    · simp only [growLoop, if_neg hg0, List.map_cons, List.sum_cons]
      rw [hp s (List.mem_cons_self s rest), hrest]
      ring

theorem shrinkLoop_hintSum (l : List BoxSizer) (g : ℚ)
    (hp : ∀ s ∈ l, s.sizeHint = s.size) (hg : 0 ≤ g) :
    (((shrinkLoop l g).1).map fun s => s.sizeHint).sum
      = ((l.map fun s => s.size).sum) - g + (shrinkLoop l g).2 := by
  induction l generalizing g with
  | nil => simp [shrinkLoop]
  | cons s rest ih =>
    have hrest : (rest.map fun s => s.sizeHint) = (rest.map fun s => s.size) :=
      List.map_congr_left fun s' hs' => hp s' (List.mem_cons_of_mem _ hs')
    by_cases hg0 : 0 < g
    · by_cases hle : g ≤ s.size - s.minSize
      · simp only [shrinkLoop, if_pos hg0, if_pos hle, List.map_cons, List.sum_cons]
        rw [hrest]
        ring
      · have hg' : (0 : ℚ) ≤ g - (s.size - s.minSize) := by
          have := not_le.mp hle
          linarith
        have := ih (g - (s.size - s.minSize))
          (fun s' hs' => hp s' (List.mem_cons_of_mem _ hs')) hg'
        simp only [shrinkLoop, if_pos hg0, if_neg hle, List.map_cons, List.sum_cons]
        rw [this]
        ring
    · simp only [shrinkLoop, if_neg hg0, List.map_cons, List.sum_cons]
      rw [hp s (List.mem_cons_self s rest), hrest]
      ring

theorem growLoop_bounds (l : List BoxSizer) (g : ℚ)
    (hp : ∀ s ∈ l, s.sizeHint = s.size) (hl : ∀ s ∈ l, s.size ≤ s.maxSize)
    (hg : 0 ≤ g) :
    ∀ s ∈ (growLoop l g).1, s.size ≤ s.sizeHint ∧ s.sizeHint ≤ s.maxSize := by
  induction l generalizing g with
  | nil => simp [growLoop]
  | cons s rest ih =>
    intro q hq
    by_cases hg0 : 0 < g
    · by_cases hle : g ≤ s.maxSize - s.size
      · simp only [growLoop, if_pos hg0, if_pos hle, List.mem_cons] at hq
        rcases hq with rfl | hq
        · constructor
          · simpa using le_of_lt hg0
          · simp only
            linarith
        · rw [hp q (List.mem_cons_of_mem _ hq)]
          exact ⟨le_refl _, hl q (List.mem_cons_of_mem _ hq)⟩
      · have hg' : (0 : ℚ) ≤ g - (s.maxSize - s.size) := by
          have := not_le.mp hle
          linarith
        simp only [growLoop, if_pos hg0, if_neg hle, List.mem_cons] at hq
        rcases hq with rfl | hq
        · have := hl s (List.mem_cons_self s rest)
          constructor
          · simpa using this
          · simp only
            linarith
        · exact ih (g - (s.maxSize - s.size)) (fun s' hs' => hp s' (List.mem_cons_of_mem _ hs'))
            (fun s' hs' => hl s' (List.mem_cons_of_mem _ hs')) hg' q hq
    · simp only [growLoop, if_neg hg0] at hq
      rw [hp q hq]
      exact ⟨le_refl _, hl q hq⟩

theorem shrinkLoop_bounds (l : List BoxSizer) (g : ℚ)
    (hp : ∀ s ∈ l, s.sizeHint = s.size) (hl : ∀ s ∈ l, s.minSize ≤ s.size)
    (hg : 0 ≤ g) :
    ∀ s ∈ (shrinkLoop l g).1, s.minSize ≤ s.sizeHint ∧ s.sizeHint ≤ s.size := by
  induction l generalizing g with
  | nil => simp [shrinkLoop]
  | cons s rest ih =>
    intro q hq
    by_cases hg0 : 0 < g
    · by_cases hle : g ≤ s.size - s.minSize
      · simp only [shrinkLoop, if_pos hg0, if_pos hle, List.mem_cons] at hq
        rcases hq with rfl | hq
        · constructor
          · simp only
            linarith
          · simpa using le_of_lt hg0
        · rw [hp q (List.mem_cons_of_mem _ hq)]
          exact ⟨hl q (List.mem_cons_of_mem _ hq), le_refl _⟩
      · have hg' : (0 : ℚ) ≤ g - (s.size - s.minSize) := by
          have := not_le.mp hle
          linarith
        simp only [shrinkLoop, if_pos hg0, if_neg hle, List.mem_cons] at hq
        rcases hq with rfl | hq
        · have := hl s (List.mem_cons_self s rest)
          constructor
          · simp only
            linarith
          · simpa using this
        · exact ih (g - (s.size - s.minSize)) (fun s' hs' => hp s' (List.mem_cons_of_mem _ hs'))
            (fun s' hs' => hl s' (List.mem_cons_of_mem _ hs')) hg' q hq
    · simp only [shrinkLoop, if_neg hg0] at hq
      rw [hp q hq]
      exact ⟨hl q hq, le_refl _⟩

theorem getD_append_left {α : Type} {l₁ l₂ : List α} {n : ℕ} {d : α} (h : n < l₁.length) :
    (l₁ ++ l₂).getD n d = l₁.getD n d := by
  rw [List.getD_eq_getElem _ d (by rw [List.length_append]; omega), List.getD_eq_getElem _ d h]
  exact List.getElem_append_left h

theorem getD_append_right {α : Type} {l₁ l₂ : List α} {n : ℕ} {d : α} (h : l₁.length ≤ n)
    (h₂ : n < l₁.length + l₂.length) :
    (l₁ ++ l₂).getD n d = l₂.getD (n - l₁.length) d := by
  rw [List.getD_eq_getElem _ d (by rw [List.length_append]; omega),
    List.getD_eq_getElem _ d (by omega)]
  exact List.getElem_append_right h

theorem getD_reverse {α : Type} {l : List α} {p : ℕ} {d : α} (h : p < l.length) :
    l.reverse.getD p d = l.getD (l.length - 1 - p) d := by
  rw [List.getD_eq_getElem _ d (by simpa using h), List.getD_eq_getElem _ d (by omega)]
  exact List.getElem_reverse ..

theorem getD_take {α : Type} {l : List α} {n j : ℕ} {d : α} (hj : j < n) (hl : j < l.length) :
    (l.take n).getD j d = l.getD j d := by
  rw [List.getD_eq_getElem _ d (by simp; omega), List.getD_eq_getElem _ d hl]
  exact List.getElem_take ..

theorem getD_drop {α : Type} {l : List α} {n j : ℕ} {d : α} (h : n + j < l.length) :
    (l.drop n).getD j d = l.getD (n + j) d := by
  rw [List.getD_eq_getElem _ d (by simp; omega), List.getD_eq_getElem _ d h]
  exact List.getElem_drop ..

theorem growLoop_cascade (l : List BoxSizer) (g : ℚ)
    (hp : ∀ s ∈ l, s.sizeHint = s.size) :
    ∀ j t : ℕ, t < j → j < l.length →
      (l.getD j dfltSizer).size < (((growLoop l g).1).getD j dfltSizer).sizeHint →
      (((growLoop l g).1).getD t dfltSizer).sizeHint = (l.getD t dfltSizer).maxSize := by
  induction l generalizing g with
  | nil =>
    intro j t htj hj hlt
    simp at hj
  | cons s rest ih =>
    intro j t htj hj hlt
    have hjr : ∀ jj : ℕ, j = jj + 1 → jj < rest.length := by
      intro jj he
      subst he
      simpa using Nat.lt_of_succ_lt_succ hj
    by_cases hg0 : 0 < g
    · by_cases hle : g ≤ s.maxSize - s.size
      · rcases j with _ | jj
        · omega
        · simp only [growLoop, if_pos hg0, if_pos hle, List.getD_cons_succ] at hlt
          rw [hp _ (List.mem_cons_of_mem _ (getD_mem (hjr jj rfl)))] at hlt
          exact absurd hlt (lt_irrefl _)
      · rcases j with _ | jj
        · omega
        · rcases t with _ | tt
          · simp only [growLoop, if_pos hg0, if_neg hle, List.getD_cons_zero]
            ring
          · have htt : tt < jj := Nat.lt_of_succ_lt_succ htj
            simp only [growLoop, if_pos hg0, if_neg hle, List.getD_cons_succ] at hlt ⊢
            exact ih (g - (s.maxSize - s.size))
              (fun s' hs' => hp s' (List.mem_cons_of_mem _ hs')) jj tt htt (hjr jj rfl) hlt
    · simp only [growLoop, if_neg hg0] at hlt
      rw [hp _ (getD_mem hj)] at hlt
      exact absurd hlt (lt_irrefl _)

theorem shrinkLoop_cascade (l : List BoxSizer) (g : ℚ)
    (hp : ∀ s ∈ l, s.sizeHint = s.size) :
    ∀ j t : ℕ, t < j → j < l.length →
      ((((shrinkLoop l g).1).getD j dfltSizer).sizeHint < (l.getD j dfltSizer).size) →
      (((shrinkLoop l g).1).getD t dfltSizer).sizeHint = (l.getD t dfltSizer).minSize := by
  induction l generalizing g with
  | nil =>
    intro j t htj hj hlt
    simp at hj
  | cons s rest ih =>
    intro j t htj hj hlt
    have hjr : ∀ jj : ℕ, j = jj + 1 → jj < rest.length := by
      intro jj he
      subst he
      simpa using Nat.lt_of_succ_lt_succ hj
    by_cases hg0 : 0 < g
    · by_cases hle : g ≤ s.size - s.minSize
      · rcases j with _ | jj
        · omega
        · simp only [shrinkLoop, if_pos hg0, if_pos hle, List.getD_cons_succ] at hlt
          rw [hp _ (List.mem_cons_of_mem _ (getD_mem (hjr jj rfl)))] at hlt
          exact absurd hlt (lt_irrefl _)
      · rcases j with _ | jj
        · omega
        · rcases t with _ | tt
          · simp only [shrinkLoop, if_pos hg0, if_neg hle, List.getD_cons_zero]
            ring
          · have htt : tt < jj := Nat.lt_of_succ_lt_succ htj
            simp only [shrinkLoop, if_pos hg0, if_neg hle, List.getD_cons_succ] at hlt ⊢
            exact ih (g - (s.size - s.minSize))
              (fun s' hs' => hp s' (List.mem_cons_of_mem _ hs')) jj tt htt (hjr jj rfl) hlt
    · simp only [shrinkLoop, if_neg hg0] at hlt
      rw [hp _ (getD_mem hj)] at hlt
      exact absurd hlt (lt_irrefl _)

/-! ## Lemmas about the interactive adjuster -/

theorem sumDiffMax_nonneg (l : List BoxSizer) (h : ∀ s ∈ l, s.size ≤ s.maxSize) :
    0 ≤ (l.map fun s => s.maxSize - s.size).sum := by
  apply List.sum_nonneg
  intro q hq
  obtain ⟨s, hs, rfl⟩ := List.mem_map.mp hq
  have := h s hs
  linarith

theorem sumDiffMin_nonneg (l : List BoxSizer) (h : ∀ s ∈ l, s.minSize ≤ s.size) :
    0 ≤ (l.map fun s => s.size - s.minSize).sum := by
  apply List.sum_nonneg
  intro q hq
  obtain ⟨s, hs, rfl⟩ := List.mem_map.mp hq
  have := h s hs
  linarith

theorem growSizer_core (l : List BoxSizer) (i : ℕ) (δ : ℚ) :
    (growSizer l i δ).map sizerCore = l.map sizerCore := by
  simp only [growSizer]
  rw [List.map_append, List.map_reverse, growLoop_core, shrinkLoop_core,
    ← List.map_reverse, List.reverse_reverse, ← List.map_append, List.take_append_drop]

theorem shrinkSizer_core (l : List BoxSizer) (i : ℕ) (δ : ℚ) :
    (shrinkSizer l i δ).map sizerCore = l.map sizerCore := by
  simp only [shrinkSizer]
  rw [List.map_append, List.map_reverse, shrinkLoop_core, growLoop_core,
    ← List.map_reverse, List.reverse_reverse, ← List.map_append, List.take_append_drop]

theorem moveSizers_core (l : List BoxSizer) (i : ℕ) (δ : ℚ) :
    (moveSizers l i δ).map sizerCore = l.map sizerCore := by
  unfold moveSizers
  by_cases h1 : 0 < δ
  · simp [h1, growSizer_core]
  · by_cases h2 : δ < 0
    · simp [h1, h2, shrinkSizer_core]
    · simp [h1, h2]

theorem growSizer_hintSum (l : List BoxSizer) (i : ℕ) (δ : ℚ)
    (hb : ∀ s ∈ l, s.minSize ≤ s.size ∧ s.size ≤ s.maxSize)
    (hp : ∀ s ∈ l, s.sizeHint = s.size) (hδ : 0 ≤ δ) :
    ((growSizer l i δ).map fun s => s.sizeHint).sum = (l.map fun s => s.size).sum := by
  have hpL : ∀ s ∈ (l.take (i + 1)).reverse, s.sizeHint = s.size := fun s hs =>
    hp s (List.take_subset _ _ (List.mem_reverse.mp hs))
  have hbL : ∀ s ∈ (l.take (i + 1)).reverse, s.size ≤ s.maxSize := fun s hs =>
    (hb s (List.take_subset _ _ (List.mem_reverse.mp hs))).2
  have hpR : ∀ s ∈ l.drop (i + 1), s.sizeHint = s.size := fun s hs =>
    hp s (List.drop_subset _ _ hs)
  have hbR : ∀ s ∈ l.drop (i + 1), s.minSize ≤ s.size := fun s hs =>
    (hb s (List.drop_subset _ _ hs)).1
  have hG : growLimitAt l i
      = (((l.take (i + 1)).reverse).map fun s => s.maxSize - s.size).sum := by
    rw [List.map_reverse, List.sum_reverse]
    rfl
  have hG0 : 0 ≤ growLimitAt l i := by
    rw [hG]
    exact sumDiffMax_nonneg _ hbL
  have hS0 : 0 ≤ shrinkLimitAt l i := sumDiffMin_nonneg _ hbR
  set d := min δ (min (growLimitAt l i) (shrinkLimitAt l i)) with hd
  have hd0 : 0 ≤ d := le_min hδ (le_min hG0 hS0)
  have hdG : d ≤ growLimitAt l i := le_trans (min_le_right _ _) (min_le_left _ _)
  have hdS : d ≤ shrinkLimitAt l i := le_trans (min_le_right _ _) (min_le_right _ _)
  have hLo : (growLoop ((l.take (i + 1)).reverse) d).2 = 0 := by
    rw [growLoop_leftover _ d hbL hd0, ← hG]
    exact max_eq_left (by linarith)
  have hRo : (shrinkLoop (l.drop (i + 1)) d).2 = 0 := by
    rw [shrinkLoop_leftover _ d hbR hd0]
    have : shrinkLimitAt l i = ((l.drop (i + 1)).map fun s => s.size - s.minSize).sum := rfl
    rw [← this]
    exact max_eq_left (by linarith)
  have hsumL := growLoop_hintSum ((l.take (i + 1)).reverse) d hpL hd0
  have hsumR := shrinkLoop_hintSum (l.drop (i + 1)) d hpR hd0
  rw [hLo] at hsumL
  rw [hRo] at hsumR
  simp only [growSizer, ← hd]
  rw [List.map_append, List.sum_append, List.map_reverse, List.sum_reverse, hsumL, hsumR,
    List.map_reverse, List.sum_reverse]
  have hsplit : ((l.take (i + 1)).map fun s => s.size).sum
      + ((l.drop (i + 1)).map fun s => s.size).sum = (l.map fun s => s.size).sum := by
    rw [← List.sum_append, ← List.map_append, List.take_append_drop]
  linarith

theorem shrinkSizer_hintSum (l : List BoxSizer) (i : ℕ) (δ : ℚ)
    (hb : ∀ s ∈ l, s.minSize ≤ s.size ∧ s.size ≤ s.maxSize)
    (hp : ∀ s ∈ l, s.sizeHint = s.size) (hδ : 0 ≤ δ) :
    ((shrinkSizer l i δ).map fun s => s.sizeHint).sum = (l.map fun s => s.size).sum := by
  have hpL : ∀ s ∈ (l.take (i + 1)).reverse, s.sizeHint = s.size := fun s hs =>
    hp s (List.take_subset _ _ (List.mem_reverse.mp hs))
  have hbL : ∀ s ∈ (l.take (i + 1)).reverse, s.minSize ≤ s.size := fun s hs =>
    (hb s (List.take_subset _ _ (List.mem_reverse.mp hs))).1
  have hpR : ∀ s ∈ l.drop (i + 1), s.sizeHint = s.size := fun s hs =>
    hp s (List.drop_subset _ _ hs)
  have hbR : ∀ s ∈ l.drop (i + 1), s.size ≤ s.maxSize := fun s hs =>
    (hb s (List.drop_subset _ _ hs)).2
  have hS : shrinkLimitUpTo l i
      = (((l.take (i + 1)).reverse).map fun s => s.size - s.minSize).sum := by
    rw [List.map_reverse, List.sum_reverse]
    rfl
  have hS0 : 0 ≤ shrinkLimitUpTo l i := by
    rw [hS]
    exact sumDiffMin_nonneg _ hbL
  have hG0 : 0 ≤ growLimitAfter l i := sumDiffMax_nonneg _ hbR
  set d := min δ (min (growLimitAfter l i) (shrinkLimitUpTo l i)) with hd
  have hd0 : 0 ≤ d := le_min hδ (le_min hG0 hS0)
  have hdG : d ≤ growLimitAfter l i := le_trans (min_le_right _ _) (min_le_left _ _)
  have hdS : d ≤ shrinkLimitUpTo l i := le_trans (min_le_right _ _) (min_le_right _ _)
  have hLo : (shrinkLoop ((l.take (i + 1)).reverse) d).2 = 0 := by
    rw [shrinkLoop_leftover _ d hbL hd0, ← hS]
    exact max_eq_left (by linarith)
  have hRo : (growLoop (l.drop (i + 1)) d).2 = 0 := by
    rw [growLoop_leftover _ d hbR hd0]
    have : growLimitAfter l i = ((l.drop (i + 1)).map fun s => s.maxSize - s.size).sum := rfl
    rw [← this]
    exact max_eq_left (by linarith)
  have hsumL := shrinkLoop_hintSum ((l.take (i + 1)).reverse) d hpL hd0
  have hsumR := growLoop_hintSum (l.drop (i + 1)) d hpR hd0
  rw [hLo] at hsumL
  rw [hRo] at hsumR
  simp only [shrinkSizer, ← hd]
  rw [List.map_append, List.sum_append, List.map_reverse, List.sum_reverse, hsumL, hsumR,
    List.map_reverse, List.sum_reverse]
  have hsplit : ((l.take (i + 1)).map fun s => s.size).sum
      + ((l.drop (i + 1)).map fun s => s.size).sum = (l.map fun s => s.size).sum := by
    rw [← List.sum_append, ← List.map_append, List.take_append_drop]
  linarith

theorem core_fields {s₂ s : BoxSizer} (h : sizerCore s₂ = sizerCore s) :
    s₂.minSize = s.minSize ∧ s₂.maxSize = s.maxSize ∧ s₂.stretch = s.stretch ∧
      s₂.size = s.size := by
  simp only [sizerCore, Prod.mk.injEq] at h
  exact ⟨h.1, h.2.1, h.2.2.1, h.2.2.2⟩

theorem growSizer_hint_bounds (l : List BoxSizer) (i : ℕ) (δ : ℚ)
    (hb : ∀ s ∈ l, s.minSize ≤ s.size ∧ s.size ≤ s.maxSize)
    (hp : ∀ s ∈ l, s.sizeHint = s.size) (hδ : 0 ≤ δ) :
    ∀ s ∈ growSizer l i δ, s.minSize ≤ s.sizeHint ∧ s.sizeHint ≤ s.maxSize := by
  have hpL : ∀ s ∈ (l.take (i + 1)).reverse, s.sizeHint = s.size := fun s hs =>
    hp s (List.take_subset _ _ (List.mem_reverse.mp hs))
  have hbL : ∀ s ∈ (l.take (i + 1)).reverse, s.size ≤ s.maxSize := fun s hs =>
    (hb s (List.take_subset _ _ (List.mem_reverse.mp hs))).2
  have hbLmin : ∀ s ∈ (l.take (i + 1)).reverse, s.minSize ≤ s.size := fun s hs =>
    (hb s (List.take_subset _ _ (List.mem_reverse.mp hs))).1
  have hpR : ∀ s ∈ l.drop (i + 1), s.sizeHint = s.size := fun s hs =>
    hp s (List.drop_subset _ _ hs)
  have hbR : ∀ s ∈ l.drop (i + 1), s.minSize ≤ s.size := fun s hs =>
    (hb s (List.drop_subset _ _ hs)).1
  have hbRmax : ∀ s ∈ l.drop (i + 1), s.size ≤ s.maxSize := fun s hs =>
    (hb s (List.drop_subset _ _ hs)).2
  have hG0 : 0 ≤ growLimitAt l i := by
    have : growLimitAt l i
        = (((l.take (i + 1)).reverse).map fun s => s.maxSize - s.size).sum := by
      rw [List.map_reverse, List.sum_reverse]
      rfl
    rw [this]
    exact sumDiffMax_nonneg _ hbL
  have hS0 : 0 ≤ shrinkLimitAt l i := sumDiffMin_nonneg _ hbR
  set d := min δ (min (growLimitAt l i) (shrinkLimitAt l i)) with hd
  have hd0 : 0 ≤ d := le_min hδ (le_min hG0 hS0)
  intro s hs
  simp only [growSizer, ← hd, List.mem_append, List.mem_reverse] at hs
  rcases hs with hs | hs
  · have hbd := growLoop_bounds ((l.take (i + 1)).reverse) d hpL hbL hd0 s hs
    obtain ⟨s₂, hs₂, hc⟩ := mem_of_core (growLoop_core ((l.take (i + 1)).reverse) d) hs
    have hf := core_fields hc
    have hmin : s.minSize ≤ s.size := by
      rw [← hf.1, ← hf.2.2.2]
      exact hbLmin s₂ hs₂
    exact ⟨le_trans hmin hbd.1, hbd.2⟩
  · have hbd := shrinkLoop_bounds (l.drop (i + 1)) d hpR hbR hd0 s hs
    obtain ⟨s₂, hs₂, hc⟩ := mem_of_core (shrinkLoop_core (l.drop (i + 1)) d) hs
    have hf := core_fields hc
    have hmax : s.size ≤ s.maxSize := by
      rw [← hf.2.1, ← hf.2.2.2]
      exact hbRmax s₂ hs₂
    exact ⟨hbd.1, le_trans hbd.2 hmax⟩

theorem shrinkSizer_hint_bounds (l : List BoxSizer) (i : ℕ) (δ : ℚ)
    (hb : ∀ s ∈ l, s.minSize ≤ s.size ∧ s.size ≤ s.maxSize)
    (hp : ∀ s ∈ l, s.sizeHint = s.size) (hδ : 0 ≤ δ) :
    ∀ s ∈ shrinkSizer l i δ, s.minSize ≤ s.sizeHint ∧ s.sizeHint ≤ s.maxSize := by
  have hpL : ∀ s ∈ (l.take (i + 1)).reverse, s.sizeHint = s.size := fun s hs =>
    hp s (List.take_subset _ _ (List.mem_reverse.mp hs))
  have hbL : ∀ s ∈ (l.take (i + 1)).reverse, s.minSize ≤ s.size := fun s hs =>
    (hb s (List.take_subset _ _ (List.mem_reverse.mp hs))).1
  have hbLmax : ∀ s ∈ (l.take (i + 1)).reverse, s.size ≤ s.maxSize := fun s hs =>
    (hb s (List.take_subset _ _ (List.mem_reverse.mp hs))).2
  have hpR : ∀ s ∈ l.drop (i + 1), s.sizeHint = s.size := fun s hs =>
    hp s (List.drop_subset _ _ hs)
  have hbR : ∀ s ∈ l.drop (i + 1), s.size ≤ s.maxSize := fun s hs =>
    (hb s (List.drop_subset _ _ hs)).2
  have hbRmin : ∀ s ∈ l.drop (i + 1), s.minSize ≤ s.size := fun s hs =>
    (hb s (List.drop_subset _ _ hs)).1
  have hS0 : 0 ≤ shrinkLimitUpTo l i := by
    have : shrinkLimitUpTo l i
        = (((l.take (i + 1)).reverse).map fun s => s.size - s.minSize).sum := by
      rw [List.map_reverse, List.sum_reverse]
      rfl
    rw [this]
    exact sumDiffMin_nonneg _ hbL
  have hG0 : 0 ≤ growLimitAfter l i := sumDiffMax_nonneg _ hbR
  set d := min δ (min (growLimitAfter l i) (shrinkLimitUpTo l i)) with hd
  have hd0 : 0 ≤ d := le_min hδ (le_min hG0 hS0)
  intro s hs
  simp only [shrinkSizer, ← hd, List.mem_append, List.mem_reverse] at hs
  rcases hs with hs | hs
  · have hbd := shrinkLoop_bounds ((l.take (i + 1)).reverse) d hpL hbL hd0 s hs
    obtain ⟨s₂, hs₂, hc⟩ := mem_of_core (shrinkLoop_core ((l.take (i + 1)).reverse) d) hs
    have hf := core_fields hc
    have hmax : s.size ≤ s.maxSize := by
      rw [← hf.2.1, ← hf.2.2.2]
      exact hbLmax s₂ hs₂
    exact ⟨hbd.1, le_trans hbd.2 hmax⟩
  · have hbd := growLoop_bounds (l.drop (i + 1)) d hpR hbR hd0 s hs
    obtain ⟨s₂, hs₂, hc⟩ := mem_of_core (growLoop_core (l.drop (i + 1)) d) hs
    have hf := core_fields hc
    have hmin : s.minSize ≤ s.size := by
      rw [← hf.1, ← hf.2.2.2]
      exact hbRmin s₂ hs₂
    exact ⟨le_trans hmin hbd.1, hbd.2⟩

theorem growLoop_length (l : List BoxSizer) (g : ℚ) :
    ((growLoop l g).1).length = l.length := by
  have := congrArg List.length (growLoop_core l g)
  simpa using this

theorem shrinkLoop_length (l : List BoxSizer) (g : ℚ) :
    ((shrinkLoop l g).1).length = l.length := by
  have := congrArg List.length (shrinkLoop_core l g)
  simpa using this

theorem growSizer_take_sum (l : List BoxSizer) (i : ℕ) (δ : ℚ)
    (hb : ∀ s ∈ l, s.minSize ≤ s.size ∧ s.size ≤ s.maxSize)
    (hp : ∀ s ∈ l, s.sizeHint = s.size) (hδ : 0 ≤ δ) (hi : i < l.length) :
    (((growSizer l i δ).take (i + 1)).map fun s => s.sizeHint).sum
      = ((l.take (i + 1)).map fun s => s.size).sum
        + min δ (min (growLimitAt l i) (shrinkLimitAt l i))
    ∧ (((growSizer l i δ).drop (i + 1)).map fun s => s.sizeHint).sum
      = ((l.drop (i + 1)).map fun s => s.size).sum
        - min δ (min (growLimitAt l i) (shrinkLimitAt l i)) := by
  have hpL : ∀ s ∈ (l.take (i + 1)).reverse, s.sizeHint = s.size := fun s hs =>
    hp s (List.take_subset _ _ (List.mem_reverse.mp hs))
  have hbL : ∀ s ∈ (l.take (i + 1)).reverse, s.size ≤ s.maxSize := fun s hs =>
    (hb s (List.take_subset _ _ (List.mem_reverse.mp hs))).2
  have hpR : ∀ s ∈ l.drop (i + 1), s.sizeHint = s.size := fun s hs =>
    hp s (List.drop_subset _ _ hs)
  have hbR : ∀ s ∈ l.drop (i + 1), s.minSize ≤ s.size := fun s hs =>
    (hb s (List.drop_subset _ _ hs)).1
  have hG : growLimitAt l i
      = (((l.take (i + 1)).reverse).map fun s => s.maxSize - s.size).sum := by
    rw [List.map_reverse, List.sum_reverse]
    rfl
  have hG0 : 0 ≤ growLimitAt l i := by
    rw [hG]
    exact sumDiffMax_nonneg _ hbL
  have hS0 : 0 ≤ shrinkLimitAt l i := sumDiffMin_nonneg _ hbR
  set d := min δ (min (growLimitAt l i) (shrinkLimitAt l i)) with hd
  have hd0 : 0 ≤ d := le_min hδ (le_min hG0 hS0)
  have hdG : d ≤ growLimitAt l i := le_trans (min_le_right _ _) (min_le_left _ _)
  have hdS : d ≤ shrinkLimitAt l i := le_trans (min_le_right _ _) (min_le_right _ _)
  have hLo : (growLoop ((l.take (i + 1)).reverse) d).2 = 0 := by
    rw [growLoop_leftover _ d hbL hd0, ← hG]
    exact max_eq_left (by linarith)
  have hRo : (shrinkLoop (l.drop (i + 1)) d).2 = 0 := by
    rw [shrinkLoop_leftover _ d hbR hd0]
    have : shrinkLimitAt l i = ((l.drop (i + 1)).map fun s => s.size - s.minSize).sum := rfl
    rw [← this]
    exact max_eq_left (by linarith)
  have hlen : (((growLoop ((l.take (i + 1)).reverse) d).1).reverse).length = i + 1 := by
    rw [List.length_reverse, growLoop_length, List.length_reverse, List.length_take]
    omega
  have hsumL := growLoop_hintSum ((l.take (i + 1)).reverse) d hpL hd0
  have hsumR := shrinkLoop_hintSum (l.drop (i + 1)) d hpR hd0
  rw [hLo] at hsumL
  rw [hRo] at hsumR
  constructor
  · simp only [growSizer, ← hd]
    rw [List.take_left' hlen, List.map_reverse, List.sum_reverse, hsumL,
      List.map_reverse, List.sum_reverse]
    ring
  · simp only [growSizer, ← hd]
    rw [List.drop_left' hlen, hsumR]
    ring

theorem shrinkSizer_take_sum (l : List BoxSizer) (i : ℕ) (δ : ℚ)
    (hb : ∀ s ∈ l, s.minSize ≤ s.size ∧ s.size ≤ s.maxSize)
    (hp : ∀ s ∈ l, s.sizeHint = s.size) (hδ : 0 ≤ δ) (hi : i < l.length) :
    (((shrinkSizer l i δ).take (i + 1)).map fun s => s.sizeHint).sum
      = ((l.take (i + 1)).map fun s => s.size).sum
        - min δ (min (growLimitAfter l i) (shrinkLimitUpTo l i))
    ∧ (((shrinkSizer l i δ).drop (i + 1)).map fun s => s.sizeHint).sum
      = ((l.drop (i + 1)).map fun s => s.size).sum
        + min δ (min (growLimitAfter l i) (shrinkLimitUpTo l i)) := by
  have hpL : ∀ s ∈ (l.take (i + 1)).reverse, s.sizeHint = s.size := fun s hs =>
    hp s (List.take_subset _ _ (List.mem_reverse.mp hs))
  have hbL : ∀ s ∈ (l.take (i + 1)).reverse, s.minSize ≤ s.size := fun s hs =>
    (hb s (List.take_subset _ _ (List.mem_reverse.mp hs))).1
  have hpR : ∀ s ∈ l.drop (i + 1), s.sizeHint = s.size := fun s hs =>
    hp s (List.drop_subset _ _ hs)
  have hbR : ∀ s ∈ l.drop (i + 1), s.size ≤ s.maxSize := fun s hs =>
    (hb s (List.drop_subset _ _ hs)).2
  have hS : shrinkLimitUpTo l i
      = (((l.take (i + 1)).reverse).map fun s => s.size - s.minSize).sum := by
    rw [List.map_reverse, List.sum_reverse]
    rfl
  have hS0 : 0 ≤ shrinkLimitUpTo l i := by
    rw [hS]
    exact sumDiffMin_nonneg _ hbL
  have hG0 : 0 ≤ growLimitAfter l i := sumDiffMax_nonneg _ hbR
  set d := min δ (min (growLimitAfter l i) (shrinkLimitUpTo l i)) with hd
  have hd0 : 0 ≤ d := le_min hδ (le_min hG0 hS0)
  have hdG : d ≤ growLimitAfter l i := le_trans (min_le_right _ _) (min_le_left _ _)
  have hdS : d ≤ shrinkLimitUpTo l i := le_trans (min_le_right _ _) (min_le_right _ _)
  have hLo : (shrinkLoop ((l.take (i + 1)).reverse) d).2 = 0 := by
    rw [shrinkLoop_leftover _ d hbL hd0, ← hS]
    exact max_eq_left (by linarith)
  have hRo : (growLoop (l.drop (i + 1)) d).2 = 0 := by
    rw [growLoop_leftover _ d hbR hd0]
    have : growLimitAfter l i = ((l.drop (i + 1)).map fun s => s.maxSize - s.size).sum := rfl
    rw [← this]
    exact max_eq_left (by linarith)
  have hlen : (((shrinkLoop ((l.take (i + 1)).reverse) d).1).reverse).length = i + 1 := by
    rw [List.length_reverse, shrinkLoop_length, List.length_reverse, List.length_take]
    omega
  have hsumL := shrinkLoop_hintSum ((l.take (i + 1)).reverse) d hpL hd0
  have hsumR := growLoop_hintSum (l.drop (i + 1)) d hpR hd0
  rw [hLo] at hsumL
  rw [hRo] at hsumR
  constructor
  · simp only [shrinkSizer, ← hd]
    rw [List.take_left' hlen, List.map_reverse, List.sum_reverse, hsumL,
      List.map_reverse, List.sum_reverse]
    ring
  · simp only [shrinkSizer, ← hd]
    rw [List.drop_left' hlen, hsumR]
    ring

theorem growSizer_left_cascade (l : List BoxSizer) (i : ℕ) (δ : ℚ)
    (hp : ∀ s ∈ l, s.sizeHint = s.size) (hi : i < l.length) :
    ∀ j t : ℕ, j < t → t ≤ i →
      (l.getD j dfltSizer).size < ((growSizer l i δ).getD j dfltSizer).sizeHint →
      ((growSizer l i δ).getD t dfltSizer).sizeHint = (l.getD t dfltSizer).maxSize := by
  intro j t hjt hti hlt
  set L := (l.take (i + 1)).reverse with hL
  set d := min δ (min (growLimitAt l i) (shrinkLimitAt l i)) with hd
  have hjle : j ≤ i := le_trans (le_of_lt hjt) hti
  have hLlen : L.length = i + 1 := by
    rw [hL, List.length_reverse, List.length_take]
    omega
  have hglen : ((growLoop L d).1).length = i + 1 := by rw [growLoop_length, hLlen]
  have hrevlen : (((growLoop L d).1).reverse).length = i + 1 := by
    rw [List.length_reverse, hglen]
  have hpL : ∀ s ∈ L, s.sizeHint = s.size := fun s hs =>
    hp s (List.take_subset _ _ (List.mem_reverse.mp (hL ▸ hs)))
  have hres : ∀ a : ℕ, a ≤ i →
      (growSizer l i δ).getD a dfltSizer = ((growLoop L d).1).getD (i - a) dfltSizer := by
    intro a ha
    simp only [growSizer]
    rw [← hL, ← hd, getD_append_left (by rw [hrevlen]; omega),
      getD_reverse (by rw [hglen]; omega), hglen]
    congr 1
  have hLa : ∀ a : ℕ, a ≤ i → L.getD (i - a) dfltSizer = l.getD a dfltSizer := by
    intro a ha
    rw [hL, getD_reverse (by rw [List.length_take]; omega)]
    have h1 : (l.take (i + 1)).length - 1 - (i - a) = a := by
      rw [List.length_take]
      omega
    rw [h1]
    exact getD_take (by omega) (by omega)
  have key := growLoop_cascade L d hpL (i - j) (i - t) (by omega) (by rw [hLlen]; omega)
    (by rw [hLa j hjle, ← hres j hjle]; exact hlt)
  rw [hres t hti, key, hLa t hti]

theorem growSizer_right_cascade (l : List BoxSizer) (i : ℕ) (δ : ℚ)
    (hp : ∀ s ∈ l, s.sizeHint = s.size) (hi : i < l.length) :
    ∀ j t : ℕ, i < t → t < j → j < l.length →
      ((growSizer l i δ).getD j dfltSizer).sizeHint < (l.getD j dfltSizer).size →
      ((growSizer l i δ).getD t dfltSizer).sizeHint = (l.getD t dfltSizer).minSize := by
  intro j t hit htj hj hlt
  set R := l.drop (i + 1) with hR
  set d := min δ (min (growLimitAt l i) (shrinkLimitAt l i)) with hd
  have hRlen : R.length = l.length - (i + 1) := by rw [hR, List.length_drop]
  have hslen : ((shrinkLoop R d).1).length = l.length - (i + 1) := by
    rw [shrinkLoop_length, hRlen]
  have hrevlen : ((((growLoop ((l.take (i + 1)).reverse) d).1)).reverse).length = i + 1 := by
    rw [List.length_reverse, growLoop_length, List.length_reverse, List.length_take]
    omega
  have hpR : ∀ s ∈ R, s.sizeHint = s.size := fun s hs =>
    hp s (List.drop_subset _ _ (hR ▸ hs))
  have hres : ∀ a : ℕ, i < a → a < l.length →
      (growSizer l i δ).getD a dfltSizer = ((shrinkLoop R d).1).getD (a - (i + 1)) dfltSizer := by
    intro a ha hal
    simp only [growSizer]
    rw [← hR, ← hd, getD_append_right (by rw [hrevlen]; omega)
      (by rw [hrevlen, hslen]; omega), hrevlen]
  have hRa : ∀ a : ℕ, i < a → a < l.length →
      R.getD (a - (i + 1)) dfltSizer = l.getD a dfltSizer := by
    intro a ha hal
    rw [hR, getD_drop (by omega)]
    congr 1
    omega
  have key := shrinkLoop_cascade R d hpR (j - (i + 1)) (t - (i + 1)) (by omega)
    (by rw [hRlen]; omega)
    (by rw [hRa j (hit.trans htj) hj, ← hres j (hit.trans htj) hj]; exact hlt)
  rw [hres t hit (by omega), key, hRa t hit (by omega)]

theorem shrinkSizer_left_cascade (l : List BoxSizer) (i : ℕ) (δ : ℚ)
    (hp : ∀ s ∈ l, s.sizeHint = s.size) (hi : i < l.length) :
    ∀ j t : ℕ, j < t → t ≤ i →
      ((shrinkSizer l i δ).getD j dfltSizer).sizeHint < (l.getD j dfltSizer).size →
      ((shrinkSizer l i δ).getD t dfltSizer).sizeHint = (l.getD t dfltSizer).minSize := by
  intro j t hjt hti hlt
  set L := (l.take (i + 1)).reverse with hL
  set d := min δ (min (growLimitAfter l i) (shrinkLimitUpTo l i)) with hd
  have hjle : j ≤ i := le_trans (le_of_lt hjt) hti
  have hLlen : L.length = i + 1 := by
    rw [hL, List.length_reverse, List.length_take]
    omega
  have hglen : ((shrinkLoop L d).1).length = i + 1 := by rw [shrinkLoop_length, hLlen]
  have hrevlen : (((shrinkLoop L d).1).reverse).length = i + 1 := by
    rw [List.length_reverse, hglen]
  have hpL : ∀ s ∈ L, s.sizeHint = s.size := fun s hs =>
    hp s (List.take_subset _ _ (List.mem_reverse.mp (hL ▸ hs)))
  have hres : ∀ a : ℕ, a ≤ i →
      (shrinkSizer l i δ).getD a dfltSizer = ((shrinkLoop L d).1).getD (i - a) dfltSizer := by
    intro a ha
    simp only [shrinkSizer]
    rw [← hL, ← hd, getD_append_left (by rw [hrevlen]; omega),
      getD_reverse (by rw [hglen]; omega), hglen]
    congr 1
  have hLa : ∀ a : ℕ, a ≤ i → L.getD (i - a) dfltSizer = l.getD a dfltSizer := by
    intro a ha
    rw [hL, getD_reverse (by rw [List.length_take]; omega)]
    have h1 : (l.take (i + 1)).length - 1 - (i - a) = a := by
      rw [List.length_take]
      omega
    rw [h1]
    exact getD_take (by omega) (by omega)
  have key := shrinkLoop_cascade L d hpL (i - j) (i - t) (by omega) (by rw [hLlen]; omega)
    (by rw [hLa j hjle, ← hres j hjle]; exact hlt)
  rw [hres t hti, key, hLa t hti]

theorem shrinkSizer_right_cascade (l : List BoxSizer) (i : ℕ) (δ : ℚ)
    (hp : ∀ s ∈ l, s.sizeHint = s.size) (hi : i < l.length) :
    ∀ j t : ℕ, i < t → t < j → j < l.length →
      (l.getD j dfltSizer).size < ((shrinkSizer l i δ).getD j dfltSizer).sizeHint →
      ((shrinkSizer l i δ).getD t dfltSizer).sizeHint = (l.getD t dfltSizer).maxSize := by
  intro j t hit htj hj hlt
  set R := l.drop (i + 1) with hR
  set d := min δ (min (growLimitAfter l i) (shrinkLimitUpTo l i)) with hd
  have hRlen : R.length = l.length - (i + 1) := by rw [hR, List.length_drop]
  have hslen : ((growLoop R d).1).length = l.length - (i + 1) := by
    rw [growLoop_length, hRlen]
  have hrevlen : ((((shrinkLoop ((l.take (i + 1)).reverse) d).1)).reverse).length = i + 1 := by
    rw [List.length_reverse, shrinkLoop_length, List.length_reverse, List.length_take]
    omega
  have hpR : ∀ s ∈ R, s.sizeHint = s.size := fun s hs =>
    hp s (List.drop_subset _ _ (hR ▸ hs))
  have hres : ∀ a : ℕ, i < a → a < l.length →
      (shrinkSizer l i δ).getD a dfltSizer = ((growLoop R d).1).getD (a - (i + 1)) dfltSizer := by
    intro a ha hal
    simp only [shrinkSizer]
    rw [← hR, ← hd, getD_append_right (by rw [hrevlen]; omega)
      (by rw [hrevlen, hslen]; omega), hrevlen]
  have hRa : ∀ a : ℕ, i < a → a < l.length →
      R.getD (a - (i + 1)) dfltSizer = l.getD a dfltSizer := by
    intro a ha hal
    rw [hR, getD_drop (by omega)]
    congr 1
    omega
  have key := growLoop_cascade R d hpR (j - (i + 1)) (t - (i + 1)) (by omega)
    (by rw [hRlen]; omega)
    (by rw [hRa j (hit.trans htj) hj, ← hres j (hit.trans htj) hj]; exact hlt)
  rw [hres t hit (by omega), key, hRa t hit (by omega)]

theorem pinSizers_core (l : List BoxSizer) :
    (pinSizers l).map sizerCore = l.map sizerCore := by
  unfold pinSizers
  rw [List.map_map]
  apply List.map_congr_left
  intro s _
  by_cases h : 0 < s.size <;> simp [h, sizerCore]

theorem pinSizers_size (l : List BoxSizer) :
    (pinSizers l).map (fun s => s.size) = l.map fun s => s.size :=
  map_size_of_core (pinSizers_core l)

/-! ## The claims about the interactive adjuster -/

/-- Claim C1: for every sequence of sizers, boundary index and signed delta,
a single interactive adjustment (`growSizer` for positive delta,
`shrinkSizer` for negative delta, as dispatched by `setHandlePosition`)
leaves every allocated size unchanged — hence the total allocated space
across all sizers — and no sizer's resulting value leaves its
`[minSize, maxSize]` interval, provided every sizer satisfied
`minSize ≤ size ≤ maxSize` before the call: the adjuster writes only the
`sizeHint` field, never `size`. -/
theorem claim1_move_preserves (l : List BoxSizer) (i : ℕ) (δ : ℚ)
    (hb : ∀ s ∈ l, s.minSize ≤ s.size ∧ s.size ≤ s.maxSize) :
    (moveSizers l i δ).map (fun s => s.size) = l.map (fun s => s.size)
    ∧ ((moveSizers l i δ).map fun s => s.size).sum = ((l.map fun s => s.size).sum)
    ∧ ∀ s ∈ moveSizers l i δ, s.minSize ≤ s.size ∧ s.size ≤ s.maxSize := by
  have hsize : (moveSizers l i δ).map (fun s => s.size) = l.map fun s => s.size :=
    map_size_of_core (moveSizers_core l i δ)
  refine ⟨hsize, congrArg List.sum hsize, ?_⟩
  intro s hs
  obtain ⟨s₂, hs₂, hc⟩ := mem_of_core (moveSizers_core l i δ) hs
  have hf := core_fields hc
  rw [← hf.1, ← hf.2.1, ← hf.2.2.2]
  exact hb s₂ hs₂

/-- Witness for claim C1 at a concrete two-sizer state and delta 15. -/
theorem claim1_witness :
    (∀ s ∈ [(⟨30, 0, 40, 1, 30⟩ : BoxSizer), ⟨20, 5, 50, 1, 20⟩],
        s.minSize ≤ s.size ∧ s.size ≤ s.maxSize)
    ∧ ((moveSizers [(⟨30, 0, 40, 1, 30⟩ : BoxSizer), ⟨20, 5, 50, 1, 20⟩] 0 15).map
        fun s => s.size).sum
      = (([(⟨30, 0, 40, 1, 30⟩ : BoxSizer), ⟨20, 5, 50, 1, 20⟩].map fun s => s.size).sum) :=
  ⟨by norm_num,
    (claim1_move_preserves [⟨30, 0, 40, 1, 30⟩, ⟨20, 5, 50, 1, 20⟩] 0 15
      (by norm_num)).2.1⟩

/-- Claim C3 counterexample: with two sizers of `minSize = 10`,
`maxSize = 100` and sizes `[50, 50]`, the move at boundary 0 with delta 1000
is clamped by the right-hand shrink limit (40), so sizer 0 ends with hint 90
(not its maximum 100) and the resulting hints sum to 100 (not 110). -/
theorem claim3_counterexample :
    (growSizer [sizerC3, sizerC3] 0 1000).map (fun s => s.sizeHint) = [90, 10]
    ∧ ((growSizer [sizerC3, sizerC3] 0 1000).map fun s => s.sizeHint).sum = 100
    ∧ ¬ (((growSizer [sizerC3, sizerC3] 0 1000).getD 0 dfltSizer).sizeHint = 100
        ∧ ((growSizer [sizerC3, sizerC3] 0 1000).getD 1 dfltSizer).sizeHint = 10
        ∧ ((growSizer [sizerC3, sizerC3] 0 1000).map fun s => s.sizeHint).sum = 110) := by
  refine ⟨?_, ?_, ?_⟩ <;>
    norm_num [growSizer, growLoop, shrinkLoop, growLimitAt, shrinkLimitAt, sizerC3, min_def]

/-- Claim C3 (amended): for two sizers with `minSize = [10, 10]`,
`maxSize = [100, 100]` and current sizes `[50, 50]`, the interactive move at
boundary index 0 with delta 1000 is clamped to the effective delta 40
(`min(1000, growLimit 50, shrinkLimit 40)`): sizer 1 ends at its minimum
(hint 10) and sizer 0 at hint 90, no hint leaves its bounds, the hints sum
to the unchanged total 100, and the allocated sizes stay `[50, 50]`. -/
theorem claim3_amended :
    ((setHandlePosition stC3 0 1050).sizers.map fun s => s.sizeHint) = [90, 10]
    ∧ (setHandlePosition stC3 0 1050).sizes = [50, 50]
    ∧ (((setHandlePosition stC3 0 1050).sizers.map fun s => s.sizeHint).sum = 100)
    ∧ ∀ s ∈ (setHandlePosition stC3 0 1050).sizers,
        s.minSize ≤ s.sizeHint ∧ s.sizeHint ≤ s.maxSize := by
  refine ⟨?_, ?_, ?_, ?_⟩ <;>
    norm_num [setHandlePosition, SplitState.sizes, stC3, pinSizers, growSizer, shrinkSizer,
      growLoop, shrinkLoop, growLimitAt, shrinkLimitAt, min_def]

/-- Claim C4: for a positive delta at a valid boundary index, the effective
delta equals `min(delta, growLimit, shrinkLimit)`; the left group (indices
`≤ i`) gains exactly the effective delta in its hints and the right group
(indices `> i`) gives up exactly the effective delta; a left sizer absorbs
something only once every sizer between it and the boundary is saturated at
its maximum, and a right sizer gives up something only once every sizer
between the boundary and it is saturated at its minimum; `shrinkSizer`
(the negative-delta case) is the exact mirror. -/
theorem claim4_effective_delta (l : List BoxSizer) (i : ℕ) (δ : ℚ)
    (hb : ∀ s ∈ l, s.minSize ≤ s.size ∧ s.size ≤ s.maxSize)
    (hp : ∀ s ∈ l, s.sizeHint = s.size) (hδ : 0 < δ) (hi : i < l.length) :
    ((((growSizer l i δ).take (i + 1)).map fun s => s.sizeHint).sum
        = ((l.take (i + 1)).map fun s => s.size).sum
          + min δ (min (growLimitAt l i) (shrinkLimitAt l i)))
    ∧ ((((growSizer l i δ).drop (i + 1)).map fun s => s.sizeHint).sum
        = ((l.drop (i + 1)).map fun s => s.size).sum
          - min δ (min (growLimitAt l i) (shrinkLimitAt l i)))
    ∧ (∀ j t : ℕ, j < t → t ≤ i →
        (l.getD j dfltSizer).size < ((growSizer l i δ).getD j dfltSizer).sizeHint →
        ((growSizer l i δ).getD t dfltSizer).sizeHint = (l.getD t dfltSizer).maxSize)
    ∧ (∀ j t : ℕ, i < t → t < j → j < l.length →
        ((growSizer l i δ).getD j dfltSizer).sizeHint < (l.getD j dfltSizer).size →
        ((growSizer l i δ).getD t dfltSizer).sizeHint = (l.getD t dfltSizer).minSize)
    ∧ ((((shrinkSizer l i δ).take (i + 1)).map fun s => s.sizeHint).sum
        = ((l.take (i + 1)).map fun s => s.size).sum
          - min δ (min (growLimitAfter l i) (shrinkLimitUpTo l i)))
    ∧ ((((shrinkSizer l i δ).drop (i + 1)).map fun s => s.sizeHint).sum
        = ((l.drop (i + 1)).map fun s => s.size).sum
          + min δ (min (growLimitAfter l i) (shrinkLimitUpTo l i)))
    ∧ (∀ j t : ℕ, j < t → t ≤ i →
        ((shrinkSizer l i δ).getD j dfltSizer).sizeHint < (l.getD j dfltSizer).size →
        ((shrinkSizer l i δ).getD t dfltSizer).sizeHint = (l.getD t dfltSizer).minSize)
    ∧ (∀ j t : ℕ, i < t → t < j → j < l.length →
        (l.getD j dfltSizer).size < ((shrinkSizer l i δ).getD j dfltSizer).sizeHint →
        ((shrinkSizer l i δ).getD t dfltSizer).sizeHint = (l.getD t dfltSizer).maxSize) :=
  ⟨(growSizer_take_sum l i δ hb hp hδ.le hi).1,
   (growSizer_take_sum l i δ hb hp hδ.le hi).2,
   growSizer_left_cascade l i δ hp hi,
   growSizer_right_cascade l i δ hp hi,
   (shrinkSizer_take_sum l i δ hb hp hδ.le hi).1,
   (shrinkSizer_take_sum l i δ hb hp hδ.le hi).2,
   shrinkSizer_left_cascade l i δ hp hi,
   shrinkSizer_right_cascade l i δ hp hi⟩

/-- Witness for claim C4 at a concrete three-sizer state, boundary 1 and
delta 100 (the effective delta is clamped to the right-hand slack 6). -/
theorem claim4_witness :
    ((0 : ℚ) < 100 ∧ 1 < ([(⟨10, 0, 20, 1, 10⟩ : BoxSizer), ⟨10, 0, 12, 1, 10⟩,
        ⟨10, 4, 20, 1, 10⟩]).length)
    ∧ (((growSizer [(⟨10, 0, 20, 1, 10⟩ : BoxSizer), ⟨10, 0, 12, 1, 10⟩,
          ⟨10, 4, 20, 1, 10⟩] 1 100).take 2).map fun s => s.sizeHint).sum
      = (([(⟨10, 0, 20, 1, 10⟩ : BoxSizer), ⟨10, 0, 12, 1, 10⟩,
          ⟨10, 4, 20, 1, 10⟩].take 2).map fun s => s.size).sum
        + min 100 (min (growLimitAt [(⟨10, 0, 20, 1, 10⟩ : BoxSizer), ⟨10, 0, 12, 1, 10⟩,
          ⟨10, 4, 20, 1, 10⟩] 1) (shrinkLimitAt [(⟨10, 0, 20, 1, 10⟩ : BoxSizer),
          ⟨10, 0, 12, 1, 10⟩, ⟨10, 4, 20, 1, 10⟩] 1)) :=
  ⟨⟨by norm_num, by norm_num⟩,
    (claim4_effective_delta [⟨10, 0, 20, 1, 10⟩, ⟨10, 0, 12, 1, 10⟩, ⟨10, 4, 20, 1, 10⟩]
      1 100 (by norm_num) (by norm_num) (by norm_num) (by norm_num)).1⟩

/-- Claim C9: a `setHandlePosition` call whose handle index is out of range,
or whose computed delta (desired position minus current handle offset) is
zero, returns the state completely unchanged: no sizer field is modified and
no update is requested. -/
theorem claim9_noop (st : SplitState) (index : ℕ) (position : ℚ) :
    (st.handles.length ≤ index → setHandlePosition st index position = st)
    ∧ (∀ h : Handle, st.handles[index]? = some h → h.hidden = false →
        position - h.offset = 0 → setHandlePosition st index position = st) := by
  constructor
  · intro hlen
    unfold setHandlePosition
    rw [List.getElem?_eq_none hlen]
  · intro h hget hhid hzero
    unfold setHandlePosition
    rw [hget]
    simp [hhid, hzero]

/-- Witness for claim C9: an out-of-range index and a zero delta on a
concrete one-handle state. -/
theorem claim9_witness :
    ((⟨[⟨3, 0, 9, 1, 3⟩], [⟨false, 7⟩], true, false⟩ : SplitState).handles.length ≤ 5
      ∧ setHandlePosition ⟨[⟨3, 0, 9, 1, 3⟩], [⟨false, 7⟩], true, false⟩ 5 2
        = ⟨[⟨3, 0, 9, 1, 3⟩], [⟨false, 7⟩], true, false⟩)
    ∧ setHandlePosition ⟨[⟨3, 0, 9, 1, 3⟩], [⟨false, 7⟩], true, false⟩ 0 7
      = ⟨[⟨3, 0, 9, 1, 3⟩], [⟨false, 7⟩], true, false⟩ :=
  ⟨⟨by norm_num, (claim9_noop ⟨[⟨3, 0, 9, 1, 3⟩], [⟨false, 7⟩], true, false⟩ 5 2).1
      (by norm_num)⟩,
    (claim9_noop ⟨[⟨3, 0, 9, 1, 3⟩], [⟨false, 7⟩], true, false⟩ 0 7).2
      ⟨false, 7⟩ (by norm_num) (by norm_num) (by norm_num)⟩

/-- Claim C10: `growSizer` and `shrinkSizer` write only `sizeHint`, never
`size`, and hence the sequence returned by `sizes()` is identical before and
after any `setHandlePosition` call. -/
theorem claim10_sizes_untouched (st : SplitState) (index : ℕ) (position : ℚ)
    (l : List BoxSizer) (i : ℕ) (δ : ℚ) :
    (growSizer l i δ).map (fun s => s.size) = l.map (fun s => s.size)
    ∧ (shrinkSizer l i δ).map (fun s => s.size) = l.map (fun s => s.size)
    ∧ (setHandlePosition st index position).sizes = st.sizes := by
  refine ⟨map_size_of_core (growSizer_core l i δ),
    map_size_of_core (shrinkSizer_core l i δ), ?_⟩
  unfold setHandlePosition SplitState.sizes
  cases hget : st.handles[index]? with
  | none => rfl
  | some handle =>
    by_cases hh : handle.hidden
    · simp [hh]
    · by_cases hz : position - handle.offset = 0
      · simp [hh, hz]
      · by_cases hpos : 0 < position - handle.offset
        · simp only [hh, hz, hpos, Bool.false_eq_true, if_false, if_true]
          rw [map_size_of_core (growSizer_core (pinSizers st.sizers) index _),
            pinSizers_size]
        · simp only [hh, hz, hpos, Bool.false_eq_true, if_false]
          rw [map_size_of_core (shrinkSizer_core (pinSizers st.sizers) index _),
            pinSizers_size]

/-! ## Lemmas about the allocation engine -/

theorem stretchSumGrow_nonneg (l : List BoxSizer) : 0 ≤ stretchSumGrow l := by
  apply List.sum_nonneg
  intro q hq
  obtain ⟨s, _, rfl⟩ := List.mem_map.mp hq
  by_cases h : 0 < s.stretch ∧ s.size < s.maxSize <;> simp [h]

theorem stretchSumGrow_zero_iff (l : List BoxSizer) :
    stretchSumGrow l = 0 ↔ activeGrowCount l = 0 := by
  rw [activeGrowCount, List.countP_eq_zero]
  constructor
  · intro h s hs hdec
    have hact : 0 < s.stretch ∧ s.size < s.maxSize := of_decide_eq_true hdec
    have hnn : ∀ q ∈ l.map (fun s =>
        if 0 < s.stretch ∧ s.size < s.maxSize then (s.stretch : ℚ) else 0), 0 ≤ q := by
      intro q hq
      obtain ⟨s', _, rfl⟩ := List.mem_map.mp hq
      by_cases hq2 : 0 < s'.stretch ∧ s'.size < s'.maxSize <;> simp [hq2]
    have hmem : (if 0 < s.stretch ∧ s.size < s.maxSize then (s.stretch : ℚ) else 0)
        ∈ l.map (fun s =>
          if 0 < s.stretch ∧ s.size < s.maxSize then (s.stretch : ℚ) else 0) :=
      List.mem_map_of_mem _ hs
    have hle := List.single_le_sum hnn _ hmem
    rw [if_pos hact] at hle
    have hpos : (0 : ℚ) < s.stretch := by exact_mod_cast hact.1
    rw [stretchSumGrow] at h
    have hle2 : (s.stretch : ℚ) ≤ 0 := h ▸ hle
    linarith
  · intro h
    apply List.sum_eq_zero
    intro q hq
    obtain ⟨s, hs, rfl⟩ := List.mem_map.mp hq
    have hna : ¬ (0 < s.stretch ∧ s.size < s.maxSize) := by simpa using h s hs
    simp [hna]

theorem onePassGrow_conf (surplus ts : ℚ) (l : List BoxSizer) :
    ((onePassGrow surplus ts l).1).map sizerConf = l.map sizerConf := by
  induction l with
  | nil => simp [onePassGrow]
  | cons s rest ih =>
    by_cases ha : 0 < s.stretch ∧ s.size < s.maxSize
    · by_cases hsat : s.maxSize - s.size ≤ surplus * s.stretch / ts
      · simp [onePassGrow, ha, hsat, sizerConf, ih]
      · simp [onePassGrow, ha, hsat, sizerConf, ih]
    · simp [onePassGrow, ha, sizerConf, ih]

theorem onePassGrow_sum (surplus ts : ℚ) (l : List BoxSizer) :
    (((onePassGrow surplus ts l).1).map fun s => s.size).sum
      = ((l.map fun s => s.size).sum) + (onePassGrow surplus ts l).2 := by
  induction l with
  | nil => simp [onePassGrow]
  | cons s rest ih =>
    by_cases ha : 0 < s.stretch ∧ s.size < s.maxSize
    · by_cases hsat : s.maxSize - s.size ≤ surplus * s.stretch / ts
      · simp only [onePassGrow, if_pos ha, if_pos hsat, List.map_cons, List.sum_cons]
        rw [ih]
        ring
      · simp only [onePassGrow, if_pos ha, if_neg hsat, List.map_cons, List.sum_cons]
        rw [ih]
        ring
    · simp only [onePassGrow, if_neg ha, List.map_cons, List.sum_cons]
      rw [ih]
      ring

theorem onePassGrow_bounds (surplus ts : ℚ) (l : List BoxSizer)
    (hs : 0 ≤ surplus) (hts : 0 < ts)
    (hb : ∀ s ∈ l, s.minSize ≤ s.size ∧ s.size ≤ s.maxSize) :
    ∀ s ∈ (onePassGrow surplus ts l).1, s.minSize ≤ s.size ∧ s.size ≤ s.maxSize := by
  induction l with
  | nil => simp [onePassGrow]
  | cons s rest ih =>
    have hbs := hb s (List.mem_cons_self s rest)
    have ihr := ih fun q hq => hb q (List.mem_cons_of_mem _ hq)
    intro q hq
    by_cases ha : 0 < s.stretch ∧ s.size < s.maxSize
    · have hshare : 0 ≤ surplus * s.stretch / ts := by positivity
      by_cases hsat : s.maxSize - s.size ≤ surplus * s.stretch / ts
      · simp only [onePassGrow, if_pos ha, if_pos hsat, List.mem_cons] at hq
        rcases hq with rfl | hq
        · exact ⟨le_trans hbs.1 hbs.2, le_refl _⟩
        · exact ihr q hq
      · simp only [onePassGrow, if_pos ha, if_neg hsat, List.mem_cons] at hq
        rcases hq with rfl | hq
        · have hlt := not_le.mp hsat
          constructor
          · simp only
            linarith [hbs.1]
          · simp only
            linarith
        · exact ihr q hq
    · simp only [onePassGrow, if_neg ha, List.mem_cons] at hq
      rcases hq with rfl | hq
      · exact hbs
      · exact ihr q hq

theorem onePassGrow_consumed (surplus ts : ℚ) (l : List BoxSizer)
    (hs : 0 ≤ surplus) (hts : 0 < ts) :
    0 ≤ (onePassGrow surplus ts l).2
    ∧ (onePassGrow surplus ts l).2 ≤ surplus * stretchSumGrow l / ts := by
  induction l with
  | nil => simp [onePassGrow, stretchSumGrow]
  | cons s rest ih =>
    by_cases ha : 0 < s.stretch ∧ s.size < s.maxSize
    · have hshare : 0 ≤ surplus * s.stretch / ts := by positivity
      have hSSG : stretchSumGrow (s :: rest) = (s.stretch : ℚ) + stretchSumGrow rest := by
        simp [stretchSumGrow, ha]
      have hsplit : surplus * ((s.stretch : ℚ) + stretchSumGrow rest) / ts
          = surplus * s.stretch / ts + surplus * stretchSumGrow rest / ts := by
        ring
      by_cases hsat : s.maxSize - s.size ≤ surplus * s.stretch / ts
      · simp only [onePassGrow, if_pos ha, if_pos hsat]
        rw [hSSG, hsplit]
        constructor
        · have : (0 : ℚ) ≤ s.maxSize - s.size := by linarith [ha.2]
          linarith [ih.1]
        · linarith [ih.2]
      · simp only [onePassGrow, if_pos ha, if_neg hsat]
        rw [hSSG, hsplit]
        constructor
        · linarith [ih.1]
        · linarith [ih.2]
    · have hSSG : stretchSumGrow (s :: rest) = stretchSumGrow rest := by
        simp [stretchSumGrow, ha]
      simp only [onePassGrow, if_neg ha]
      rw [hSSG]
      exact ih

theorem onePassGrow_active_le (surplus ts : ℚ) (l : List BoxSizer) :
    activeGrowCount ((onePassGrow surplus ts l).1) ≤ activeGrowCount l := by
  induction l with
  | nil => simp [onePassGrow, activeGrowCount]
  | cons s rest ih =>
    have ihc := ih
    simp only [activeGrowCount] at ihc
    simp only [activeGrowCount]
    by_cases ha : 0 < s.stretch ∧ s.size < s.maxSize
    · by_cases hsat : s.maxSize - s.size ≤ surplus * s.stretch / ts
      · simp only [onePassGrow, if_pos ha, if_pos hsat]
        rw [List.countP_cons_of_neg _ _ (by simp), List.countP_cons_of_pos _ _ (by simpa using ha)]
        omega
      · simp only [onePassGrow, if_pos ha, if_neg hsat]
        rw [List.countP_cons_of_pos (l := rest) _ (by simpa using ha)]
        by_cases hact : 0 < s.stretch ∧ s.size + surplus * s.stretch / ts < s.maxSize
        · rw [List.countP_cons_of_pos _ _ (by simpa using hact)]
          omega
        · rw [List.countP_cons_of_neg _ _ (by simpa using hact)]
          omega
    · simp only [onePassGrow, if_neg ha]
      rw [List.countP_cons_of_neg _ _ (by simpa using ha),
        List.countP_cons_of_neg _ _ (by simpa using ha)]
      omega

theorem onePassGrow_progress (surplus ts : ℚ) (l : List BoxSizer) :
    (onePassGrow surplus ts l).2 = surplus * stretchSumGrow l / ts
    ∨ activeGrowCount ((onePassGrow surplus ts l).1) < activeGrowCount l := by
  induction l with
  | nil =>
    left
    simp [onePassGrow, stretchSumGrow]
  | cons s rest ih =>
    by_cases ha : 0 < s.stretch ∧ s.size < s.maxSize
    · have hSSG : stretchSumGrow (s :: rest) = (s.stretch : ℚ) + stretchSumGrow rest := by
        simp [stretchSumGrow, ha]
      by_cases hsat : s.maxSize - s.size ≤ surplus * s.stretch / ts
      · right
        have hle := onePassGrow_active_le surplus ts rest
        simp only [activeGrowCount] at hle
        simp only [onePassGrow, if_pos ha, if_pos hsat, activeGrowCount]
        rw [List.countP_cons_of_neg _ _ (by simp), List.countP_cons_of_pos _ _ (by simpa using ha)]
        omega
      · rcases ih with ih | ih
        · left
          simp only [onePassGrow, if_pos ha, if_neg hsat]
          rw [ih, hSSG]
          ring
        · right
          simp only [activeGrowCount] at ih
          simp only [onePassGrow, if_pos ha, if_neg hsat, activeGrowCount]
          rw [List.countP_cons_of_pos (l := rest) _ (by simpa using ha)]
          by_cases hact : 0 < s.stretch ∧ s.size + surplus * s.stretch / ts < s.maxSize
          · rw [List.countP_cons_of_pos _ _ (by simpa using hact)]
            omega
          · rw [List.countP_cons_of_neg _ _ (by simpa using hact)]
            omega
    · have hSSG : stretchSumGrow (s :: rest) = stretchSumGrow rest := by
        simp [stretchSumGrow, ha]
      rcases ih with ih | ih
      · left
        simp only [onePassGrow, if_neg ha]
        rw [ih, hSSG]
      · right
        simp only [activeGrowCount] at ih
        simp only [onePassGrow, if_neg ha, activeGrowCount]
        rw [List.countP_cons_of_neg _ _ (by simpa using ha),
          List.countP_cons_of_neg _ _ (by simpa using ha)]
        omega

theorem distGrow_at_zero (fuel : ℕ) (l : List BoxSizer) :
    (distGrow fuel l 0).2 = 0 := by
  cases fuel <;> simp [distGrow]

theorem distGrow_spec (fuel : ℕ) (l : List BoxSizer) (surplus : ℚ)
    (hb : ∀ s ∈ l, s.minSize ≤ s.size ∧ s.size ≤ s.maxSize) (hs : 0 ≤ surplus) :
    (((distGrow fuel l surplus).1).map sizerConf = l.map sizerConf)
    ∧ ((((distGrow fuel l surplus).1).map fun s => s.size).sum + (distGrow fuel l surplus).2
        = ((l.map fun s => s.size).sum) + surplus)
    ∧ (∀ s ∈ (distGrow fuel l surplus).1, s.minSize ≤ s.size ∧ s.size ≤ s.maxSize)
    ∧ 0 ≤ (distGrow fuel l surplus).2
    ∧ (activeGrowCount l < fuel →
        (distGrow fuel l surplus).2 = 0
        ∨ stretchSumGrow ((distGrow fuel l surplus).1) = 0) := by
  induction fuel generalizing l surplus with
  | zero =>
    refine ⟨rfl, by simp [distGrow], hb, hs, ?_⟩
    intro h
    omega
  | succ n ih =>
    by_cases h0 : surplus ≤ 0
    · have hz : surplus = 0 := le_antisymm h0 hs
      subst hz
      exact ⟨by simp [distGrow], by simp [distGrow], by simpa [distGrow] using hb,
        by simp [distGrow], fun _ => Or.inl (by simp [distGrow])⟩
    · by_cases hts : stretchSumGrow l = 0
      · refine ⟨by simp [distGrow, h0, hts], by simp [distGrow, h0, hts],
          by simpa [distGrow, h0, hts] using hb, by simpa [distGrow, h0, hts] using hs, ?_⟩
        intro _
        right
        simpa [distGrow, h0, hts] using hts
      · have htsp : 0 < stretchSumGrow l := lt_of_le_of_ne (stretchSumGrow_nonneg l)
          (Ne.symm hts)
        have hcons := onePassGrow_consumed surplus (stretchSumGrow l) l hs htsp
        have hself : surplus * stretchSumGrow l / stretchSumGrow l = surplus :=
          mul_div_cancel_right₀ surplus hts
        have hs' : 0 ≤ surplus - (onePassGrow surplus (stretchSumGrow l) l).2 := by
          have := hcons.2
          rw [hself] at this
          linarith
        have hb' := onePassGrow_bounds surplus (stretchSumGrow l) l hs htsp hb
        have hstep : distGrow (n + 1) l surplus
            = distGrow n ((onePassGrow surplus (stretchSumGrow l) l).1)
              (surplus - (onePassGrow surplus (stretchSumGrow l) l).2) := by
          simp [distGrow, h0, hts]
        have ihx := ih ((onePassGrow surplus (stretchSumGrow l) l).1)
          (surplus - (onePassGrow surplus (stretchSumGrow l) l).2) hb' hs'
        refine ⟨?_, ?_, ?_, ?_, ?_⟩
        · rw [hstep, ihx.1, onePassGrow_conf]
        · rw [hstep]
          have hsum := onePassGrow_sum surplus (stretchSumGrow l) l
          have := ihx.2.1
          linarith
        · rw [hstep]
          exact ihx.2.2.1
        · rw [hstep]
          exact ihx.2.2.2.1
        · intro hcount
          rcases onePassGrow_progress surplus (stretchSumGrow l) l with hpr | hpr
          · left
            rw [hself] at hpr
            rw [hstep, hpr]
            have : surplus - surplus = 0 := by ring
            rw [this]
            exact distGrow_at_zero n _
          · have hcount' : activeGrowCount ((onePassGrow surplus (stretchSumGrow l) l).1) < n := by
              have hc0 : activeGrowCount l ≠ 0 := by
                intro hcc
                exact hts ((stretchSumGrow_zero_iff l).mpr hcc)
              omega
            rw [hstep]
            exact ihx.2.2.2.2 hcount'

theorem onePassGrowEq_conf (surplus : ℚ) (cnt : ℕ) (l : List BoxSizer) :
    ((onePassGrowEq surplus cnt l).1).map sizerConf = l.map sizerConf := by
  induction l with
  | nil => simp [onePassGrowEq]
  | cons s rest ih =>
    by_cases ha : s.size < s.maxSize
    · by_cases hsat : s.maxSize - s.size ≤ surplus / cnt
      · simp [onePassGrowEq, ha, hsat, sizerConf, ih]
      · simp [onePassGrowEq, ha, hsat, sizerConf, ih]
    · simp [onePassGrowEq, ha, sizerConf, ih]

theorem onePassGrowEq_sum (surplus : ℚ) (cnt : ℕ) (l : List BoxSizer) :
    (((onePassGrowEq surplus cnt l).1).map fun s => s.size).sum
      = ((l.map fun s => s.size).sum) + (onePassGrowEq surplus cnt l).2 := by
  induction l with
  | nil => simp [onePassGrowEq]
  | cons s rest ih =>
    by_cases ha : s.size < s.maxSize
    · by_cases hsat : s.maxSize - s.size ≤ surplus / cnt
      · simp only [onePassGrowEq, if_pos ha, if_pos hsat, List.map_cons, List.sum_cons]
        rw [ih]
        ring
      · simp only [onePassGrowEq, if_pos ha, if_neg hsat, List.map_cons, List.sum_cons]
        rw [ih]
        ring
    · simp only [onePassGrowEq, if_neg ha, List.map_cons, List.sum_cons]
      rw [ih]
      ring

theorem onePassGrowEq_bounds (surplus : ℚ) (cnt : ℕ) (l : List BoxSizer)
    (hs : 0 ≤ surplus) (hc : 0 < cnt)
    (hb : ∀ s ∈ l, s.minSize ≤ s.size ∧ s.size ≤ s.maxSize) :
    ∀ s ∈ (onePassGrowEq surplus cnt l).1, s.minSize ≤ s.size ∧ s.size ≤ s.maxSize := by
  induction l with
  | nil => simp [onePassGrowEq]
  | cons s rest ih =>
    have hbs := hb s (List.mem_cons_self s rest)
    have ihr := ih fun q hq => hb q (List.mem_cons_of_mem _ hq)
    intro q hq
    have hshare : 0 ≤ surplus / (cnt : ℚ) := by positivity
    by_cases ha : s.size < s.maxSize
    · by_cases hsat : s.maxSize - s.size ≤ surplus / cnt
      · simp only [onePassGrowEq, if_pos ha, if_pos hsat, List.mem_cons] at hq
        rcases hq with rfl | hq
        · exact ⟨le_trans hbs.1 hbs.2, le_refl _⟩
        · exact ihr q hq
      · simp only [onePassGrowEq, if_pos ha, if_neg hsat, List.mem_cons] at hq
        rcases hq with rfl | hq
        · have hlt := not_le.mp hsat
          constructor
          · simp only
            linarith [hbs.1]
          · simp only
            linarith
        · exact ihr q hq
    · simp only [onePassGrowEq, if_neg ha, List.mem_cons] at hq
      rcases hq with rfl | hq
      · exact hbs
      · exact ihr q hq

theorem onePassGrowEq_consumed (surplus : ℚ) (cnt : ℕ) (l : List BoxSizer)
    (hs : 0 ≤ surplus) (hc : 0 < cnt) :
    0 ≤ (onePassGrowEq surplus cnt l).2
    ∧ (onePassGrowEq surplus cnt l).2 ≤ surplus * (countGrowRoom l : ℚ) / cnt := by
  induction l with
  | nil => simp [onePassGrowEq, countGrowRoom]
  | cons s rest ih =>
    have hshare : 0 ≤ surplus / (cnt : ℚ) := by positivity
    by_cases ha : s.size < s.maxSize
    · have hcount : countGrowRoom (s :: rest) = countGrowRoom rest + 1 := by
        simp only [countGrowRoom]
        rw [List.countP_cons_of_pos _ _ (by simpa using ha)]
      have hsplit : surplus * ((countGrowRoom rest : ℚ) + 1) / cnt
          = surplus * (countGrowRoom rest : ℚ) / cnt + surplus / cnt := by
        ring
      by_cases hsat : s.maxSize - s.size ≤ surplus / cnt
      · simp only [onePassGrowEq, if_pos ha, if_pos hsat]
        rw [hcount]
        push_cast
        rw [hsplit]
        constructor
        · have : (0 : ℚ) ≤ s.maxSize - s.size := by linarith
          linarith [ih.1]
        · linarith [ih.2]
      · simp only [onePassGrowEq, if_pos ha, if_neg hsat]
        rw [hcount]
        push_cast
        rw [hsplit]
        constructor
        · linarith [ih.1]
        · linarith [ih.2]
    · have hcount : countGrowRoom (s :: rest) = countGrowRoom rest := by
        simp only [countGrowRoom]
        rw [List.countP_cons_of_neg _ _ (by simpa using ha)]
      simp only [onePassGrowEq, if_neg ha]
      rw [hcount]
      exact ih

theorem onePassGrowEq_room_le (surplus : ℚ) (cnt : ℕ) (l : List BoxSizer) :
    countGrowRoom ((onePassGrowEq surplus cnt l).1) ≤ countGrowRoom l := by
  induction l with
  | nil => simp [onePassGrowEq, countGrowRoom]
  | cons s rest ih =>
    simp only [countGrowRoom] at ih ⊢
    by_cases ha : s.size < s.maxSize
    · by_cases hsat : s.maxSize - s.size ≤ surplus / cnt
      · simp only [onePassGrowEq, if_pos ha, if_pos hsat]
        rw [List.countP_cons_of_neg _ _ (by simp), List.countP_cons_of_pos _ _ (by simpa using ha)]
        omega
      · simp only [onePassGrowEq, if_pos ha, if_neg hsat]
        rw [List.countP_cons_of_pos (l := rest) _ (by simpa using ha)]
        by_cases hact : s.size + surplus / cnt < s.maxSize
        · rw [List.countP_cons_of_pos _ _ (by simpa using hact)]
          omega
        · rw [List.countP_cons_of_neg _ _ (by simpa using hact)]
          omega
    · simp only [onePassGrowEq, if_neg ha]
      rw [List.countP_cons_of_neg _ _ (by simpa using ha),
        List.countP_cons_of_neg _ _ (by simpa using ha)]
      omega

theorem onePassGrowEq_progress (surplus : ℚ) (cnt : ℕ) (l : List BoxSizer) :
    (onePassGrowEq surplus cnt l).2 = surplus * (countGrowRoom l : ℚ) / cnt
    ∨ countGrowRoom ((onePassGrowEq surplus cnt l).1) < countGrowRoom l := by
  induction l with
  | nil =>
    left
    simp [onePassGrowEq, countGrowRoom]
  | cons s rest ih =>
    by_cases ha : s.size < s.maxSize
    · have hcount : countGrowRoom (s :: rest) = countGrowRoom rest + 1 := by
        simp only [countGrowRoom]
        rw [List.countP_cons_of_pos _ _ (by simpa using ha)]
      by_cases hsat : s.maxSize - s.size ≤ surplus / cnt
      · right
        have hle := onePassGrowEq_room_le surplus cnt rest
        simp only [countGrowRoom] at hle ⊢
        simp only [onePassGrowEq, if_pos ha, if_pos hsat]
        rw [List.countP_cons_of_neg _ _ (by simp), List.countP_cons_of_pos _ _ (by simpa using ha)]
        omega
      · rcases ih with ih | ih
        · left
          simp only [onePassGrowEq, if_pos ha, if_neg hsat]
          rw [ih, hcount]
          push_cast
          ring
        · right
          simp only [countGrowRoom] at ih ⊢
          simp only [onePassGrowEq, if_pos ha, if_neg hsat]
          rw [List.countP_cons_of_pos (l := rest) _ (by simpa using ha)]
          by_cases hact : s.size + surplus / cnt < s.maxSize
          · rw [List.countP_cons_of_pos _ _ (by simpa using hact)]
            omega
          · rw [List.countP_cons_of_neg _ _ (by simpa using hact)]
            omega
    · have hcount : countGrowRoom (s :: rest) = countGrowRoom rest := by
        simp only [countGrowRoom]
        rw [List.countP_cons_of_neg _ _ (by simpa using ha)]
      rcases ih with ih | ih
      · left
        simp only [onePassGrowEq, if_neg ha]
        rw [ih, hcount]
      · right
        simp only [countGrowRoom] at ih ⊢
        simp only [onePassGrowEq, if_neg ha]
        rw [List.countP_cons_of_neg _ _ (by simpa using ha),
          List.countP_cons_of_neg _ _ (by simpa using ha)]
        omega

theorem distGrowEq_at_zero (fuel : ℕ) (l : List BoxSizer) :
    (distGrowEq fuel l 0).2 = 0 := by
  cases fuel <;> simp [distGrowEq]

theorem distGrowEq_spec (fuel : ℕ) (l : List BoxSizer) (surplus : ℚ)
    (hb : ∀ s ∈ l, s.minSize ≤ s.size ∧ s.size ≤ s.maxSize) (hs : 0 ≤ surplus) :
    (((distGrowEq fuel l surplus).1).map sizerConf = l.map sizerConf)
    ∧ ((((distGrowEq fuel l surplus).1).map fun s => s.size).sum
          + (distGrowEq fuel l surplus).2
        = ((l.map fun s => s.size).sum) + surplus)
    ∧ (∀ s ∈ (distGrowEq fuel l surplus).1, s.minSize ≤ s.size ∧ s.size ≤ s.maxSize)
    ∧ 0 ≤ (distGrowEq fuel l surplus).2
    ∧ (countGrowRoom l < fuel →
        (distGrowEq fuel l surplus).2 = 0
        ∨ countGrowRoom ((distGrowEq fuel l surplus).1) = 0) := by
  induction fuel generalizing l surplus with
  | zero =>
    refine ⟨rfl, by simp [distGrowEq], hb, hs, ?_⟩
    intro h
    omega
  | succ n ih =>
    by_cases h0 : surplus ≤ 0
    · have hz : surplus = 0 := le_antisymm h0 hs
      subst hz
      exact ⟨by simp [distGrowEq], by simp [distGrowEq], by simpa [distGrowEq] using hb,
        by simp [distGrowEq], fun _ => Or.inl (by simp [distGrowEq])⟩
    · by_cases hcz : countGrowRoom l = 0
      · refine ⟨by simp [distGrowEq, h0, hcz], by simp [distGrowEq, h0, hcz],
          by simpa [distGrowEq, h0, hcz] using hb, by simpa [distGrowEq, h0, hcz] using hs, ?_⟩
        intro _
        right
        simpa [distGrowEq, h0, hcz] using hcz
      · have hcpos : 0 < countGrowRoom l := Nat.pos_of_ne_zero hcz
        have hcq : ((countGrowRoom l : ℚ)) ≠ 0 := by exact_mod_cast hcz
        have hcons := onePassGrowEq_consumed surplus (countGrowRoom l) l hs hcpos
        have hself : surplus * (countGrowRoom l : ℚ) / (countGrowRoom l : ℚ) = surplus :=
          mul_div_cancel_right₀ surplus hcq
        have hs' : 0 ≤ surplus - (onePassGrowEq surplus (countGrowRoom l) l).2 := by
          have := hcons.2
          rw [hself] at this
          linarith
        have hb' := onePassGrowEq_bounds surplus (countGrowRoom l) l hs hcpos hb
        have hstep : distGrowEq (n + 1) l surplus
            = distGrowEq n ((onePassGrowEq surplus (countGrowRoom l) l).1)
              (surplus - (onePassGrowEq surplus (countGrowRoom l) l).2) := by
          simp [distGrowEq, h0, hcz]
        have ihx := ih ((onePassGrowEq surplus (countGrowRoom l) l).1)
          (surplus - (onePassGrowEq surplus (countGrowRoom l) l).2) hb' hs'
        refine ⟨?_, ?_, ?_, ?_, ?_⟩
        · rw [hstep, ihx.1, onePassGrowEq_conf]
        · rw [hstep]
          have hsum := onePassGrowEq_sum surplus (countGrowRoom l) l
          have := ihx.2.1
          linarith
        · rw [hstep]
          exact ihx.2.2.1
        · rw [hstep]
          exact ihx.2.2.2.1
        · intro hcount
          rcases onePassGrowEq_progress surplus (countGrowRoom l) l with hpr | hpr
          · left
            rw [hself] at hpr
            rw [hstep, hpr]
            have hzz : surplus - surplus = 0 := by ring
            rw [hzz]
            exact distGrowEq_at_zero n _
          · have hcount' : countGrowRoom ((onePassGrowEq surplus (countGrowRoom l) l).1) < n := by
              omega
            rw [hstep]
            exact ihx.2.2.2.2 hcount'

theorem stretchSumShrink_nonneg (l : List BoxSizer) : 0 ≤ stretchSumShrink l := by
  apply List.sum_nonneg
  intro q hq
  obtain ⟨s, _, rfl⟩ := List.mem_map.mp hq
  by_cases h : 0 < s.stretch ∧ s.minSize < s.size <;> simp [h]

theorem stretchSumShrink_zero_iff (l : List BoxSizer) :
    stretchSumShrink l = 0 ↔ activeShrinkCount l = 0 := by
  rw [activeShrinkCount, List.countP_eq_zero]
  constructor
  · intro h s hs hdec
    have hact : 0 < s.stretch ∧ s.minSize < s.size := of_decide_eq_true hdec
    have hnn : ∀ q ∈ l.map (fun s =>
        if 0 < s.stretch ∧ s.minSize < s.size then (s.stretch : ℚ) else 0), 0 ≤ q := by
      intro q hq
      obtain ⟨s', _, rfl⟩ := List.mem_map.mp hq
      by_cases hq2 : 0 < s'.stretch ∧ s'.minSize < s'.size <;> simp [hq2]
    have hmem : (if 0 < s.stretch ∧ s.minSize < s.size then (s.stretch : ℚ) else 0)
        ∈ l.map (fun s =>
          if 0 < s.stretch ∧ s.minSize < s.size then (s.stretch : ℚ) else 0) :=
      List.mem_map_of_mem _ hs
    have hle := List.single_le_sum hnn _ hmem
    rw [if_pos hact] at hle
    have hpos : (0 : ℚ) < s.stretch := by exact_mod_cast hact.1
    rw [stretchSumShrink] at h
    have hle2 : (s.stretch : ℚ) ≤ 0 := h ▸ hle
    linarith
  · intro h
    apply List.sum_eq_zero
    intro q hq
    obtain ⟨s, hs, rfl⟩ := List.mem_map.mp hq
    have hna : ¬ (0 < s.stretch ∧ s.minSize < s.size) := by simpa using h s hs
    simp [hna]

theorem onePassShrink_conf (surplus ts : ℚ) (l : List BoxSizer) :
    ((onePassShrink surplus ts l).1).map sizerConf = l.map sizerConf := by
  induction l with
  | nil => simp [onePassShrink]
  | cons s rest ih =>
    by_cases ha : 0 < s.stretch ∧ s.minSize < s.size
    · by_cases hsat : s.size - s.minSize ≤ surplus * s.stretch / ts
      · simp [onePassShrink, ha, hsat, sizerConf, ih]
      · simp [onePassShrink, ha, hsat, sizerConf, ih]
    · simp [onePassShrink, ha, sizerConf, ih]

theorem onePassShrink_sum (surplus ts : ℚ) (l : List BoxSizer) :
    (((onePassShrink surplus ts l).1).map fun s => s.size).sum
      = ((l.map fun s => s.size).sum) - (onePassShrink surplus ts l).2 := by
  induction l with
  | nil => simp [onePassShrink]
  | cons s rest ih =>
    by_cases ha : 0 < s.stretch ∧ s.minSize < s.size
    · by_cases hsat : s.size - s.minSize ≤ surplus * s.stretch / ts
      · simp only [onePassShrink, if_pos ha, if_pos hsat, List.map_cons, List.sum_cons]
        rw [ih]
        ring
      · simp only [onePassShrink, if_pos ha, if_neg hsat, List.map_cons, List.sum_cons]
        rw [ih]
        ring
    · simp only [onePassShrink, if_neg ha, List.map_cons, List.sum_cons]
      rw [ih]
      ring

theorem onePassShrink_bounds (surplus ts : ℚ) (l : List BoxSizer)
    (hs : 0 ≤ surplus) (hts : 0 < ts)
    (hb : ∀ s ∈ l, s.minSize ≤ s.size ∧ s.size ≤ s.maxSize) :
    ∀ s ∈ (onePassShrink surplus ts l).1, s.minSize ≤ s.size ∧ s.size ≤ s.maxSize := by
  induction l with
  | nil => simp [onePassShrink]
  | cons s rest ih =>
    have hbs := hb s (List.mem_cons_self s rest)
    have ihr := ih fun q hq => hb q (List.mem_cons_of_mem _ hq)
    intro q hq
    by_cases ha : 0 < s.stretch ∧ s.minSize < s.size
    · have hshare : 0 ≤ surplus * s.stretch / ts := by positivity
      by_cases hsat : s.size - s.minSize ≤ surplus * s.stretch / ts
      · simp only [onePassShrink, if_pos ha, if_pos hsat, List.mem_cons] at hq
        rcases hq with rfl | hq
        · exact ⟨le_refl _, le_trans hbs.1 hbs.2⟩
        · exact ihr q hq
      · simp only [onePassShrink, if_pos ha, if_neg hsat, List.mem_cons] at hq
        rcases hq with rfl | hq
        · have hlt := not_le.mp hsat
          constructor
          · simp only
            linarith [hbs.1, hbs.2]
          · simp only
            linarith [hbs.1, hbs.2]
        · exact ihr q hq
    · simp only [onePassShrink, if_neg ha, List.mem_cons] at hq
      rcases hq with rfl | hq
      · exact hbs
      · exact ihr q hq

theorem onePassShrink_consumed (surplus ts : ℚ) (l : List BoxSizer)
    (hs : 0 ≤ surplus) (hts : 0 < ts) :
    0 ≤ (onePassShrink surplus ts l).2
    ∧ (onePassShrink surplus ts l).2 ≤ surplus * stretchSumShrink l / ts := by
  induction l with
  | nil => simp [onePassShrink, stretchSumShrink]
  | cons s rest ih =>
    by_cases ha : 0 < s.stretch ∧ s.minSize < s.size
    · have hshare : 0 ≤ surplus * s.stretch / ts := by positivity
      have hSSG : stretchSumShrink (s :: rest) = (s.stretch : ℚ) + stretchSumShrink rest := by
        simp [stretchSumShrink, ha]
      have hsplit : surplus * ((s.stretch : ℚ) + stretchSumShrink rest) / ts
          = surplus * s.stretch / ts + surplus * stretchSumShrink rest / ts := by
        ring
      by_cases hsat : s.size - s.minSize ≤ surplus * s.stretch / ts
      · simp only [onePassShrink, if_pos ha, if_pos hsat]
        rw [hSSG, hsplit]
        constructor
        · have : (0 : ℚ) ≤ s.size - s.minSize := by linarith [ha.2]
          linarith [ih.1]
        · linarith [ih.2]
      · simp only [onePassShrink, if_pos ha, if_neg hsat]
        rw [hSSG, hsplit]
        constructor
        · linarith [ih.1]
        · linarith [ih.2]
    · have hSSG : stretchSumShrink (s :: rest) = stretchSumShrink rest := by
        simp [stretchSumShrink, ha]
      simp only [onePassShrink, if_neg ha]
      rw [hSSG]
      exact ih

theorem onePassShrink_active_le (surplus ts : ℚ) (l : List BoxSizer) :
    activeShrinkCount ((onePassShrink surplus ts l).1) ≤ activeShrinkCount l := by
  induction l with
  | nil => simp [onePassShrink, activeShrinkCount]
  | cons s rest ih =>
    have ihc := ih
    simp only [activeShrinkCount] at ihc
    simp only [activeShrinkCount]
    by_cases ha : 0 < s.stretch ∧ s.minSize < s.size
    · by_cases hsat : s.size - s.minSize ≤ surplus * s.stretch / ts
      · simp only [onePassShrink, if_pos ha, if_pos hsat]
        rw [List.countP_cons_of_neg _ _ (by simp), List.countP_cons_of_pos _ _ (by simpa using ha)]
        omega
      · simp only [onePassShrink, if_pos ha, if_neg hsat]
        rw [List.countP_cons_of_pos (l := rest) _ (by simpa using ha)]
        by_cases hact : 0 < s.stretch ∧ s.minSize < s.size - surplus * s.stretch / ts
        · rw [List.countP_cons_of_pos _ _ (by simpa using hact)]
          omega
        · rw [List.countP_cons_of_neg _ _ (by simpa using hact)]
          omega
    · simp only [onePassShrink, if_neg ha]
      rw [List.countP_cons_of_neg _ _ (by simpa using ha),
        List.countP_cons_of_neg _ _ (by simpa using ha)]
      omega

theorem onePassShrink_progress (surplus ts : ℚ) (l : List BoxSizer) :
    (onePassShrink surplus ts l).2 = surplus * stretchSumShrink l / ts
    ∨ activeShrinkCount ((onePassShrink surplus ts l).1) < activeShrinkCount l := by
  induction l with
  | nil =>
    left
    simp [onePassShrink, stretchSumShrink]
  | cons s rest ih =>
    by_cases ha : 0 < s.stretch ∧ s.minSize < s.size
    · have hSSG : stretchSumShrink (s :: rest) = (s.stretch : ℚ) + stretchSumShrink rest := by
        simp [stretchSumShrink, ha]
      by_cases hsat : s.size - s.minSize ≤ surplus * s.stretch / ts
      · right
        have hle := onePassShrink_active_le surplus ts rest
        simp only [activeShrinkCount] at hle
        simp only [onePassShrink, if_pos ha, if_pos hsat, activeShrinkCount]
        rw [List.countP_cons_of_neg _ _ (by simp), List.countP_cons_of_pos _ _ (by simpa using ha)]
        omega
      · rcases ih with ih | ih
        · left
          simp only [onePassShrink, if_pos ha, if_neg hsat]
          rw [ih, hSSG]
          ring
        · right
          simp only [activeShrinkCount] at ih
          simp only [onePassShrink, if_pos ha, if_neg hsat, activeShrinkCount]
          rw [List.countP_cons_of_pos (l := rest) _ (by simpa using ha)]
          by_cases hact : 0 < s.stretch ∧ s.minSize < s.size - surplus * s.stretch / ts
          · rw [List.countP_cons_of_pos _ _ (by simpa using hact)]
            omega
          · rw [List.countP_cons_of_neg _ _ (by simpa using hact)]
            omega
    · have hSSG : stretchSumShrink (s :: rest) = stretchSumShrink rest := by
        simp [stretchSumShrink, ha]
      rcases ih with ih | ih
      · left
        simp only [onePassShrink, if_neg ha]
        rw [ih, hSSG]
      · right
        simp only [activeShrinkCount] at ih
        simp only [onePassShrink, if_neg ha, activeShrinkCount]
        rw [List.countP_cons_of_neg _ _ (by simpa using ha),
          List.countP_cons_of_neg _ _ (by simpa using ha)]
        omega

theorem distShrink_at_zero (fuel : ℕ) (l : List BoxSizer) :
    (distShrink fuel l 0).2 = 0 := by
  cases fuel <;> simp [distShrink]

theorem distShrink_spec (fuel : ℕ) (l : List BoxSizer) (surplus : ℚ)
    (hb : ∀ s ∈ l, s.minSize ≤ s.size ∧ s.size ≤ s.maxSize) (hs : 0 ≤ surplus) :
    (((distShrink fuel l surplus).1).map sizerConf = l.map sizerConf)
    ∧ ((((distShrink fuel l surplus).1).map fun s => s.size).sum - (distShrink fuel l surplus).2
        = ((l.map fun s => s.size).sum) - surplus)
    ∧ (∀ s ∈ (distShrink fuel l surplus).1, s.minSize ≤ s.size ∧ s.size ≤ s.maxSize)
    ∧ 0 ≤ (distShrink fuel l surplus).2
    ∧ (activeShrinkCount l < fuel →
        (distShrink fuel l surplus).2 = 0
        ∨ stretchSumShrink ((distShrink fuel l surplus).1) = 0) := by
  induction fuel generalizing l surplus with
  | zero =>
    refine ⟨rfl, by simp [distShrink], hb, hs, ?_⟩
    intro h
    omega
  | succ n ih =>
    by_cases h0 : surplus ≤ 0
    · have hz : surplus = 0 := le_antisymm h0 hs
      subst hz
      exact ⟨by simp [distShrink], by simp [distShrink], by simpa [distShrink] using hb,
        by simp [distShrink], fun _ => Or.inl (by simp [distShrink])⟩
    · by_cases hts : stretchSumShrink l = 0
      · refine ⟨by simp [distShrink, h0, hts], by simp [distShrink, h0, hts],
          by simpa [distShrink, h0, hts] using hb, by simpa [distShrink, h0, hts] using hs, ?_⟩
        intro _
        right
        simpa [distShrink, h0, hts] using hts
      · have htsp : 0 < stretchSumShrink l := lt_of_le_of_ne (stretchSumShrink_nonneg l)
          (Ne.symm hts)
        have hcons := onePassShrink_consumed surplus (stretchSumShrink l) l hs htsp
        have hself : surplus * stretchSumShrink l / stretchSumShrink l = surplus :=
          mul_div_cancel_right₀ surplus hts
        have hs' : 0 ≤ surplus - (onePassShrink surplus (stretchSumShrink l) l).2 := by
          have := hcons.2
          rw [hself] at this
          linarith
        have hb' := onePassShrink_bounds surplus (stretchSumShrink l) l hs htsp hb
        have hstep : distShrink (n + 1) l surplus
            = distShrink n ((onePassShrink surplus (stretchSumShrink l) l).1)
              (surplus - (onePassShrink surplus (stretchSumShrink l) l).2) := by
          simp [distShrink, h0, hts]
        have ihx := ih ((onePassShrink surplus (stretchSumShrink l) l).1)
          (surplus - (onePassShrink surplus (stretchSumShrink l) l).2) hb' hs'
        refine ⟨?_, ?_, ?_, ?_, ?_⟩
        · rw [hstep, ihx.1, onePassShrink_conf]
        · rw [hstep]
          have hsum := onePassShrink_sum surplus (stretchSumShrink l) l
          have := ihx.2.1
          linarith
        · rw [hstep]
          exact ihx.2.2.1
        · rw [hstep]
          exact ihx.2.2.2.1
        · intro hcount
          rcases onePassShrink_progress surplus (stretchSumShrink l) l with hpr | hpr
          · left
            rw [hself] at hpr
            rw [hstep, hpr]
            have : surplus - surplus = 0 := by ring
            rw [this]
            exact distShrink_at_zero n _
          · have hcount' : activeShrinkCount ((onePassShrink surplus (stretchSumShrink l) l).1) < n := by
              have hc0 : activeShrinkCount l ≠ 0 := by
                intro hcc
                exact hts ((stretchSumShrink_zero_iff l).mpr hcc)
              omega
            rw [hstep]
            exact ihx.2.2.2.2 hcount'

theorem onePassShrinkEq_conf (surplus : ℚ) (cnt : ℕ) (l : List BoxSizer) :
    ((onePassShrinkEq surplus cnt l).1).map sizerConf = l.map sizerConf := by
  induction l with
  | nil => simp [onePassShrinkEq]
  | cons s rest ih =>
    by_cases ha : s.minSize < s.size
    · by_cases hsat : s.size - s.minSize ≤ surplus / cnt
      · simp [onePassShrinkEq, ha, hsat, sizerConf, ih]
      · simp [onePassShrinkEq, ha, hsat, sizerConf, ih]
    · simp [onePassShrinkEq, ha, sizerConf, ih]

theorem onePassShrinkEq_sum (surplus : ℚ) (cnt : ℕ) (l : List BoxSizer) :
    (((onePassShrinkEq surplus cnt l).1).map fun s => s.size).sum
      = ((l.map fun s => s.size).sum) - (onePassShrinkEq surplus cnt l).2 := by
  induction l with
  | nil => simp [onePassShrinkEq]
  | cons s rest ih =>
    by_cases ha : s.minSize < s.size
    · by_cases hsat : s.size - s.minSize ≤ surplus / cnt
      · simp only [onePassShrinkEq, if_pos ha, if_pos hsat, List.map_cons, List.sum_cons]
        rw [ih]
        ring
      · simp only [onePassShrinkEq, if_pos ha, if_neg hsat, List.map_cons, List.sum_cons]
        rw [ih]
        ring
    · simp only [onePassShrinkEq, if_neg ha, List.map_cons, List.sum_cons]
      rw [ih]
      ring

theorem onePassShrinkEq_bounds (surplus : ℚ) (cnt : ℕ) (l : List BoxSizer)
    (hs : 0 ≤ surplus) (hc : 0 < cnt)
    (hb : ∀ s ∈ l, s.minSize ≤ s.size ∧ s.size ≤ s.maxSize) :
    ∀ s ∈ (onePassShrinkEq surplus cnt l).1, s.minSize ≤ s.size ∧ s.size ≤ s.maxSize := by
  induction l with
  | nil => simp [onePassShrinkEq]
  | cons s rest ih =>
    have hbs := hb s (List.mem_cons_self s rest)
    have ihr := ih fun q hq => hb q (List.mem_cons_of_mem _ hq)
    intro q hq
    have hshare : 0 ≤ surplus / (cnt : ℚ) := by positivity
    by_cases ha : s.minSize < s.size
    · by_cases hsat : s.size - s.minSize ≤ surplus / cnt
      · simp only [onePassShrinkEq, if_pos ha, if_pos hsat, List.mem_cons] at hq
        rcases hq with rfl | hq
        · exact ⟨le_refl _, le_trans hbs.1 hbs.2⟩
        · exact ihr q hq
      · simp only [onePassShrinkEq, if_pos ha, if_neg hsat, List.mem_cons] at hq
        rcases hq with rfl | hq
        · have hlt := not_le.mp hsat
          constructor
          · simp only
            linarith [hbs.1, hbs.2]
          · simp only
            linarith [hbs.1, hbs.2]
        · exact ihr q hq
    · simp only [onePassShrinkEq, if_neg ha, List.mem_cons] at hq
      rcases hq with rfl | hq
      · exact hbs
      · exact ihr q hq

theorem onePassShrinkEq_consumed (surplus : ℚ) (cnt : ℕ) (l : List BoxSizer)
    (hs : 0 ≤ surplus) (hc : 0 < cnt) :
    0 ≤ (onePassShrinkEq surplus cnt l).2
    ∧ (onePassShrinkEq surplus cnt l).2 ≤ surplus * (countShrinkRoom l : ℚ) / cnt := by
  induction l with
  | nil => simp [onePassShrinkEq, countShrinkRoom]
  | cons s rest ih =>
    have hshare : 0 ≤ surplus / (cnt : ℚ) := by positivity
    by_cases ha : s.minSize < s.size
    · have hcount : countShrinkRoom (s :: rest) = countShrinkRoom rest + 1 := by
        simp only [countShrinkRoom]
        rw [List.countP_cons_of_pos _ _ (by simpa using ha)]
      have hsplit : surplus * ((countShrinkRoom rest : ℚ) + 1) / cnt
          = surplus * (countShrinkRoom rest : ℚ) / cnt + surplus / cnt := by
        ring
      by_cases hsat : s.size - s.minSize ≤ surplus / cnt
      · simp only [onePassShrinkEq, if_pos ha, if_pos hsat]
        rw [hcount]
        push_cast
        rw [hsplit]
        constructor
        · have : (0 : ℚ) ≤ s.size - s.minSize := by linarith
          linarith [ih.1]
        · linarith [ih.2]
      · simp only [onePassShrinkEq, if_pos ha, if_neg hsat]
        rw [hcount]
        push_cast
        rw [hsplit]
        constructor
        · linarith [ih.1]
        · linarith [ih.2]
    · have hcount : countShrinkRoom (s :: rest) = countShrinkRoom rest := by
        simp only [countShrinkRoom]
        rw [List.countP_cons_of_neg _ _ (by simpa using ha)]
      simp only [onePassShrinkEq, if_neg ha]
      rw [hcount]
      exact ih

theorem onePassShrinkEq_room_le (surplus : ℚ) (cnt : ℕ) (l : List BoxSizer) :
    countShrinkRoom ((onePassShrinkEq surplus cnt l).1) ≤ countShrinkRoom l := by
  induction l with
  | nil => simp [onePassShrinkEq, countShrinkRoom]
  | cons s rest ih =>
    simp only [countShrinkRoom] at ih ⊢
    by_cases ha : s.minSize < s.size
    · by_cases hsat : s.size - s.minSize ≤ surplus / cnt
      · simp only [onePassShrinkEq, if_pos ha, if_pos hsat]
        rw [List.countP_cons_of_neg _ _ (by simp), List.countP_cons_of_pos _ _ (by simpa using ha)]
        omega
      · simp only [onePassShrinkEq, if_pos ha, if_neg hsat]
        rw [List.countP_cons_of_pos (l := rest) _ (by simpa using ha)]
        by_cases hact : s.minSize < s.size - surplus / cnt
        · rw [List.countP_cons_of_pos _ _ (by simpa using hact)]
          omega
        · rw [List.countP_cons_of_neg _ _ (by simpa using hact)]
          omega
    · simp only [onePassShrinkEq, if_neg ha]
      rw [List.countP_cons_of_neg _ _ (by simpa using ha),
        List.countP_cons_of_neg _ _ (by simpa using ha)]
      omega

theorem onePassShrinkEq_progress (surplus : ℚ) (cnt : ℕ) (l : List BoxSizer) :
    (onePassShrinkEq surplus cnt l).2 = surplus * (countShrinkRoom l : ℚ) / cnt
    ∨ countShrinkRoom ((onePassShrinkEq surplus cnt l).1) < countShrinkRoom l := by
  induction l with
  | nil =>
    left
    simp [onePassShrinkEq, countShrinkRoom]
  | cons s rest ih =>
    by_cases ha : s.minSize < s.size
    · have hcount : countShrinkRoom (s :: rest) = countShrinkRoom rest + 1 := by
        simp only [countShrinkRoom]
        rw [List.countP_cons_of_pos _ _ (by simpa using ha)]
      by_cases hsat : s.size - s.minSize ≤ surplus / cnt
      · right
        have hle := onePassShrinkEq_room_le surplus cnt rest
        simp only [countShrinkRoom] at hle ⊢
        simp only [onePassShrinkEq, if_pos ha, if_pos hsat]
        rw [List.countP_cons_of_neg _ _ (by simp), List.countP_cons_of_pos _ _ (by simpa using ha)]
        omega
      · rcases ih with ih | ih
        · left
          simp only [onePassShrinkEq, if_pos ha, if_neg hsat]
          rw [ih, hcount]
          push_cast
          ring
        · right
          simp only [countShrinkRoom] at ih ⊢
          simp only [onePassShrinkEq, if_pos ha, if_neg hsat]
          rw [List.countP_cons_of_pos (l := rest) _ (by simpa using ha)]
          by_cases hact : s.minSize < s.size - surplus / cnt
          · rw [List.countP_cons_of_pos _ _ (by simpa using hact)]
            omega
          · rw [List.countP_cons_of_neg _ _ (by simpa using hact)]
            omega
    · have hcount : countShrinkRoom (s :: rest) = countShrinkRoom rest := by
        simp only [countShrinkRoom]
        rw [List.countP_cons_of_neg _ _ (by simpa using ha)]
      rcases ih with ih | ih
      · left
        simp only [onePassShrinkEq, if_neg ha]
        rw [ih, hcount]
      · right
        simp only [countShrinkRoom] at ih ⊢
        simp only [onePassShrinkEq, if_neg ha]
        rw [List.countP_cons_of_neg _ _ (by simpa using ha),
          List.countP_cons_of_neg _ _ (by simpa using ha)]
        omega

theorem distShrinkEq_at_zero (fuel : ℕ) (l : List BoxSizer) :
    (distShrinkEq fuel l 0).2 = 0 := by
  cases fuel <;> simp [distShrinkEq]

theorem distShrinkEq_spec (fuel : ℕ) (l : List BoxSizer) (surplus : ℚ)
    (hb : ∀ s ∈ l, s.minSize ≤ s.size ∧ s.size ≤ s.maxSize) (hs : 0 ≤ surplus) :
    (((distShrinkEq fuel l surplus).1).map sizerConf = l.map sizerConf)
    ∧ ((((distShrinkEq fuel l surplus).1).map fun s => s.size).sum
          - (distShrinkEq fuel l surplus).2
        = ((l.map fun s => s.size).sum) - surplus)
    ∧ (∀ s ∈ (distShrinkEq fuel l surplus).1, s.minSize ≤ s.size ∧ s.size ≤ s.maxSize)
    ∧ 0 ≤ (distShrinkEq fuel l surplus).2
    ∧ (countShrinkRoom l < fuel →
        (distShrinkEq fuel l surplus).2 = 0
        ∨ countShrinkRoom ((distShrinkEq fuel l surplus).1) = 0) := by
  induction fuel generalizing l surplus with
  | zero =>
    refine ⟨rfl, by simp [distShrinkEq], hb, hs, ?_⟩
    intro h
    omega
  | succ n ih =>
    by_cases h0 : surplus ≤ 0
    · have hz : surplus = 0 := le_antisymm h0 hs
      subst hz
      exact ⟨by simp [distShrinkEq], by simp [distShrinkEq], by simpa [distShrinkEq] using hb,
        by simp [distShrinkEq], fun _ => Or.inl (by simp [distShrinkEq])⟩
    · by_cases hcz : countShrinkRoom l = 0
      · refine ⟨by simp [distShrinkEq, h0, hcz], by simp [distShrinkEq, h0, hcz],
          by simpa [distShrinkEq, h0, hcz] using hb, by simpa [distShrinkEq, h0, hcz] using hs, ?_⟩
        intro _
        right
        simpa [distShrinkEq, h0, hcz] using hcz
      · have hcpos : 0 < countShrinkRoom l := Nat.pos_of_ne_zero hcz
        have hcq : ((countShrinkRoom l : ℚ)) ≠ 0 := by exact_mod_cast hcz
        have hcons := onePassShrinkEq_consumed surplus (countShrinkRoom l) l hs hcpos
        have hself : surplus * (countShrinkRoom l : ℚ) / (countShrinkRoom l : ℚ) = surplus :=
          mul_div_cancel_right₀ surplus hcq
        have hs' : 0 ≤ surplus - (onePassShrinkEq surplus (countShrinkRoom l) l).2 := by
          have := hcons.2
          rw [hself] at this
          linarith
        have hb' := onePassShrinkEq_bounds surplus (countShrinkRoom l) l hs hcpos hb
        have hstep : distShrinkEq (n + 1) l surplus
            = distShrinkEq n ((onePassShrinkEq surplus (countShrinkRoom l) l).1)
              (surplus - (onePassShrinkEq surplus (countShrinkRoom l) l).2) := by
          simp [distShrinkEq, h0, hcz]
        have ihx := ih ((onePassShrinkEq surplus (countShrinkRoom l) l).1)
          (surplus - (onePassShrinkEq surplus (countShrinkRoom l) l).2) hb' hs'
        refine ⟨?_, ?_, ?_, ?_, ?_⟩
        · rw [hstep, ihx.1, onePassShrinkEq_conf]
        · rw [hstep]
          have hsum := onePassShrinkEq_sum surplus (countShrinkRoom l) l
          have := ihx.2.1
          linarith
        · rw [hstep]
          exact ihx.2.2.1
        · rw [hstep]
          exact ihx.2.2.2.1
        · intro hcount
          rcases onePassShrinkEq_progress surplus (countShrinkRoom l) l with hpr | hpr
          · left
            rw [hself] at hpr
            rw [hstep, hpr]
            have hzz : surplus - surplus = 0 := by ring
            rw [hzz]
            exact distShrinkEq_at_zero n _
          · have hcount' : countShrinkRoom ((onePassShrinkEq surplus (countShrinkRoom l) l).1) < n := by
              omega
            rw [hstep]
            exact ihx.2.2.2.2 hcount'


theorem map_min_of_conf {l₁ l₂ : List BoxSizer}
    (h : l₁.map sizerConf = l₂.map sizerConf) :
    l₁.map (fun s => s.minSize) = l₂.map (fun s => s.minSize) := by
  have h₂ := congrArg (List.map fun p : ℚ × ℚ × ℚ × ℕ => p.2.1) h
  simpa [List.map_map, Function.comp, sizerConf] using h₂

theorem map_max_of_conf {l₁ l₂ : List BoxSizer}
    (h : l₁.map sizerConf = l₂.map sizerConf) :
    l₁.map (fun s => s.maxSize) = l₂.map (fun s => s.maxSize) := by
  have h₂ := congrArg (List.map fun p : ℚ × ℚ × ℚ × ℕ => p.2.2.1) h
  simpa [List.map_map, Function.comp, sizerConf] using h₂

theorem clampHint_min (l : List BoxSizer) :
    (l.map clampHint).map (fun s => s.minSize) = l.map fun s => s.minSize := by
  simp [List.map_map, Function.comp, clampHint]

theorem clampHint_max (l : List BoxSizer) :
    (l.map clampHint).map (fun s => s.maxSize) = l.map fun s => s.maxSize := by
  simp [List.map_map, Function.comp, clampHint]

theorem clampHint_bounds (l : List BoxSizer) (hwf : ∀ s ∈ l, s.minSize ≤ s.maxSize) :
    ∀ s ∈ l.map clampHint, s.minSize ≤ s.size ∧ s.size ≤ s.maxSize := by
  intro s hs
  obtain ⟨s₀, hs₀, rfl⟩ := List.mem_map.mp hs
  constructor
  · exact le_max_left _ _
  · exact max_le (hwf s₀ hs₀) (le_trans (min_le_right _ _) (le_refl _))

theorem sum_map_sub_minmax (l : List BoxSizer) :
    (l.map fun s => s.maxSize - s.minSize).sum
      = (l.map fun s => s.maxSize).sum - (l.map fun s => s.minSize).sum := by
  induction l with
  | nil => simp
  | cons s rest ih =>
    simp only [List.map_cons, List.sum_cons, ih]
    ring

theorem map_min_eq_map_max (l : List BoxSizer) (hwf : ∀ s ∈ l, s.minSize ≤ s.maxSize)
    (h : (l.map fun s => s.maxSize).sum ≤ (l.map fun s => s.minSize).sum) :
    l.map (fun s => s.minSize) = l.map fun s => s.maxSize := by
  apply List.map_congr_left
  intro s hs
  have hnn : ∀ q ∈ l.map (fun s => s.maxSize - s.minSize), 0 ≤ q := by
    intro q hq
    obtain ⟨s', hs', rfl⟩ := List.mem_map.mp hq
    have := hwf s' hs'
    linarith
  have hle := List.single_le_sum hnn _ (List.mem_map_of_mem (fun s => s.maxSize - s.minSize) hs)
  rw [sum_map_sub_minmax] at hle
  have := hwf s hs
  linarith

theorem size_eq_max_of_no_room (l : List BoxSizer)
    (hb : ∀ s ∈ l, s.minSize ≤ s.size ∧ s.size ≤ s.maxSize)
    (h : countGrowRoom l = 0) :
    l.map (fun s => s.size) = l.map fun s => s.maxSize := by
  apply List.map_congr_left
  intro s hs
  have hn : ¬ s.size < s.maxSize := by
    simpa using (List.countP_eq_zero.mp h) s hs
  exact le_antisymm (hb s hs).2 (not_lt.mp hn)

theorem size_eq_min_of_no_slack (l : List BoxSizer)
    (hb : ∀ s ∈ l, s.minSize ≤ s.size ∧ s.size ≤ s.maxSize)
    (h : countShrinkRoom l = 0) :
    l.map (fun s => s.size) = l.map fun s => s.minSize := by
  apply List.map_congr_left
  intro s hs
  have hn : ¬ s.minSize < s.size := by
    simpa using (List.countP_eq_zero.mp h) s hs
  exact le_antisymm (not_lt.mp hn) (hb s hs).1

theorem boxCalc_below (l : List BoxSizer) (space : ℚ)
    (h : space ≤ (l.map fun s => s.minSize).sum) :
    (boxCalc l space).map (fun s => s.size) = l.map fun s => s.minSize := by
  simp [boxCalc, h, List.map_map, Function.comp]

theorem boxCalc_above (l : List BoxSizer) (space : ℚ)
    (hwf : ∀ s ∈ l, s.minSize ≤ s.maxSize)
    (h : (l.map fun s => s.maxSize).sum ≤ space) :
    (boxCalc l space).map (fun s => s.size) = l.map fun s => s.maxSize := by
  by_cases h1 : space ≤ (l.map fun s => s.minSize).sum
  · rw [boxCalc_below l space h1]
    exact map_min_eq_map_max l hwf (le_trans h h1)
  · simp [boxCalc, h1, h, List.map_map, Function.comp]

theorem boxCalc_bounds (l : List BoxSizer) (space : ℚ)
    (hwf : ∀ s ∈ l, s.minSize ≤ s.maxSize) :
    ∀ s ∈ boxCalc l space, s.minSize ≤ s.size ∧ s.size ≤ s.maxSize := by
  intro s hs
  by_cases h1 : space ≤ (l.map fun s => s.minSize).sum
  · simp only [boxCalc, if_pos h1] at hs
    obtain ⟨s₀, hs₀, rfl⟩ := List.mem_map.mp hs
    exact ⟨le_refl _, hwf s₀ hs₀⟩
  · by_cases h2 : (l.map fun s => s.maxSize).sum ≤ space
    · simp only [boxCalc, if_neg h1, if_pos h2] at hs
      obtain ⟨s₀, hs₀, rfl⟩ := List.mem_map.mp hs
      exact ⟨hwf s₀ hs₀, le_refl _⟩
    · have hclampb := clampHint_bounds l hwf
      by_cases h3 : space = ((l.map clampHint).map fun s => s.size).sum
      · simp only [boxCalc, if_neg h1, if_neg h2, if_pos h3] at hs
        exact hclampb s hs
      · by_cases h4 : ((l.map clampHint).map fun s => s.size).sum < space
        · simp only [boxCalc, if_neg h1, if_neg h2, if_neg h3, if_pos h4] at hs
          have hs1 : 0 ≤ space - ((l.map clampHint).map fun s => s.size).sum := by linarith
          have spec1 := distGrow_spec (l.length + 1) (l.map clampHint)
            (space - ((l.map clampHint).map fun s => s.size).sum) hclampb hs1
          have spec2 := distGrowEq_spec (l.length + 1)
            ((distGrow (l.length + 1) (l.map clampHint)
              (space - ((l.map clampHint).map fun s => s.size).sum)).1)
            ((distGrow (l.length + 1) (l.map clampHint)
              (space - ((l.map clampHint).map fun s => s.size).sum)).2)
            spec1.2.2.1 spec1.2.2.2.1
          exact spec2.2.2.1 s hs
        · simp only [boxCalc, if_neg h1, if_neg h2, if_neg h3, if_neg h4] at hs
          have hs1 : 0 ≤ ((l.map clampHint).map fun s => s.size).sum - space := by
            have := lt_of_le_of_ne (not_lt.mp h4) (fun he => h3 he)
            linarith
          have spec1 := distShrink_spec (l.length + 1) (l.map clampHint)
            (((l.map clampHint).map fun s => s.size).sum - space) hclampb hs1
          have spec2 := distShrinkEq_spec (l.length + 1)
            ((distShrink (l.length + 1) (l.map clampHint)
              (((l.map clampHint).map fun s => s.size).sum - space)).1)
            ((distShrink (l.length + 1) (l.map clampHint)
              (((l.map clampHint).map fun s => s.size).sum - space)).2)
            spec1.2.2.1 spec1.2.2.2.1
          exact spec2.2.2.1 s hs

theorem boxCalc_exact (l : List BoxSizer) (space : ℚ)
    (hwf : ∀ s ∈ l, s.minSize ≤ s.maxSize)
    (h1 : (l.map fun s => s.minSize).sum ≤ space)
    (h2 : space ≤ (l.map fun s => s.maxSize).sum) :
    ((boxCalc l space).map fun s => s.size).sum = space := by
  by_cases hA : space ≤ (l.map fun s => s.minSize).sum
  · rw [boxCalc_below l space hA]
    linarith
  · by_cases hB : (l.map fun s => s.maxSize).sum ≤ space
    · rw [boxCalc_above l space hwf hB]
      linarith
    · have hclampb := clampHint_bounds l hwf
      by_cases h3 : space = ((l.map clampHint).map fun s => s.size).sum
      · simp only [boxCalc, if_neg hA, if_neg hB, if_pos h3]
        exact h3.symm
      · by_cases h4 : ((l.map clampHint).map fun s => s.size).sum < space
        · simp only [boxCalc, if_neg hA, if_neg hB, if_neg h3, if_pos h4]
          have hs1 : 0 ≤ space - ((l.map clampHint).map fun s => s.size).sum := by linarith
          have spec1 := distGrow_spec (l.length + 1) (l.map clampHint)
            (space - ((l.map clampHint).map fun s => s.size).sum) hclampb hs1
          set r1 := distGrow (l.length + 1) (l.map clampHint)
            (space - ((l.map clampHint).map fun s => s.size).sum) with hr1
          have spec2 := distGrowEq_spec (l.length + 1) r1.1 r1.2
            spec1.2.2.1 spec1.2.2.2.1
          set r2 := distGrowEq (l.length + 1) r1.1 r1.2 with hr2
          have hlen1 : r1.1.length = l.length := by
            have := congrArg List.length spec1.1
            simpa using this
          have hroom : countGrowRoom r1.1 < l.length + 1 := by
            have := List.countP_le_length
              (fun s => decide (s.size < s.maxSize)) (l := r1.1)
            rw [countGrowRoom]
            omega
          have hcons : (r2.1.map fun s => s.size).sum + r2.2 = space := by
            have e1 := spec1.2.1
            have e2 := spec2.2.1
            linarith
          rcases spec2.2.2.2.2 hroom with hz | hroom0
          · rw [← hcons, hz]
            ring
          · exfalso
            have hmax : r2.1.map (fun s => s.maxSize) = l.map fun s => s.maxSize := by
              rw [map_max_of_conf spec2.1, map_max_of_conf spec1.1, clampHint_max]
            have hsz := size_eq_max_of_no_room r2.1 spec2.2.2.1 hroom0
            have : (r2.1.map fun s => s.size).sum = (l.map fun s => s.maxSize).sum := by
              rw [hsz, hmax]
            have hnn := spec2.2.2.2.1
            have hcontra : (l.map fun s => s.maxSize).sum ≤ space := by linarith
            exact hB hcontra
        · simp only [boxCalc, if_neg hA, if_neg hB, if_neg h3, if_neg h4]
          have hs1 : 0 ≤ ((l.map clampHint).map fun s => s.size).sum - space := by
            have := lt_of_le_of_ne (not_lt.mp h4) (fun he => h3 he)
            linarith
          have spec1 := distShrink_spec (l.length + 1) (l.map clampHint)
            (((l.map clampHint).map fun s => s.size).sum - space) hclampb hs1
          set r1 := distShrink (l.length + 1) (l.map clampHint)
            (((l.map clampHint).map fun s => s.size).sum - space) with hr1
          have spec2 := distShrinkEq_spec (l.length + 1) r1.1 r1.2
            spec1.2.2.1 spec1.2.2.2.1
          set r2 := distShrinkEq (l.length + 1) r1.1 r1.2 with hr2
          have hroom : countShrinkRoom r1.1 < l.length + 1 := by
            have hlen1 : r1.1.length = l.length := by
              have := congrArg List.length spec1.1
              simpa using this
            have := List.countP_le_length
              (fun s => decide (s.minSize < s.size)) (l := r1.1)
            rw [countShrinkRoom]
            omega
          have hcons : (r2.1.map fun s => s.size).sum - r2.2 = space := by
            have e1 := spec1.2.1
            have e2 := spec2.2.1
            linarith
          rcases spec2.2.2.2.2 hroom with hz | hroom0
          · rw [← hcons, hz]
            ring
          · exfalso
            have hmin : r2.1.map (fun s => s.minSize) = l.map fun s => s.minSize := by
              rw [map_min_of_conf spec2.1, map_min_of_conf spec1.1, clampHint_min]
            have hsz := size_eq_min_of_no_slack r2.1 spec2.2.2.1 hroom0
            have : (r2.1.map fun s => s.size).sum = (l.map fun s => s.minSize).sum := by
              rw [hsz, hmin]
            have hnn := spec2.2.2.2.1
            have hcontra : space ≤ (l.map fun s => s.minSize).sum := by linarith
            exact hA hcontra

/-- Claim C2 (spec-modelled allocation engine): after an allocation pass,
every sizer satisfies `minSize ≤ size ≤ maxSize`; whenever
`Σ minSize ≤ availableSpace ≤ Σ maxSize` the resulting sizes sum exactly to
the available space (and, through the `_update` wrapper, the sizes plus the
fixed inter-element spacing equal the available extent exactly); below
`Σ minSize` every size saturates at `minSize`, above `Σ maxSize` every size
saturates at `maxSize`. -/
theorem claim2_allocation (l : List BoxSizer) (space : ℚ)
    (hwf : ∀ s ∈ l, s.minSize ≤ s.maxSize) :
    (∀ s ∈ boxCalc l space, s.minSize ≤ s.size ∧ s.size ≤ s.maxSize)
    ∧ ((l.map fun s => s.minSize).sum ≤ space →
        space ≤ (l.map fun s => s.maxSize).sum →
        ((boxCalc l space).map fun s => s.size).sum = space)
    ∧ (space ≤ (l.map fun s => s.minSize).sum →
        (boxCalc l space).map (fun s => s.size) = l.map fun s => s.minSize)
    ∧ ((l.map fun s => s.maxSize).sum ≤ space →
        (boxCalc l space).map (fun s => s.size) = l.map fun s => s.maxSize)
    ∧ (∀ available fixed : ℚ, 0 ≤ fixed → fixed ≤ available →
        (l.map fun s => s.minSize).sum ≤ available - fixed →
        available - fixed ≤ (l.map fun s => s.maxSize).sum →
        ((updateSizes l available fixed).map fun s => s.size).sum + fixed = available) := by
  refine ⟨boxCalc_bounds l space hwf, boxCalc_exact l space hwf,
    boxCalc_below l space, boxCalc_above l space hwf, ?_⟩
  intro available fixed hf hfa hmin hmax
  have hnn : (0 : ℚ) ≤ available - fixed := by linarith
  have : updateSizes l available fixed = boxCalc l (available - fixed) := by
    rw [updateSizes, max_eq_right hnn]
  rw [this, boxCalc_exact l (available - fixed) hwf hmin hmax]
  ring

/-- Witness for claim C2: three stretchy sizers with `minSize = 0`,
`maxSize = 200` and zero hints share the available space 300 exactly. -/
theorem claim2_witness :
    ((∀ s ∈ [(⟨0, 0, 200, 1, 0⟩ : BoxSizer), ⟨0, 0, 200, 1, 0⟩, ⟨0, 0, 200, 1, 0⟩],
        s.minSize ≤ s.maxSize)
      ∧ (([(⟨0, 0, 200, 1, 0⟩ : BoxSizer), ⟨0, 0, 200, 1, 0⟩,
          ⟨0, 0, 200, 1, 0⟩].map fun s => s.minSize).sum ≤ (300 : ℚ))
      ∧ ((300 : ℚ) ≤ ([(⟨0, 0, 200, 1, 0⟩ : BoxSizer), ⟨0, 0, 200, 1, 0⟩,
          ⟨0, 0, 200, 1, 0⟩].map fun s => s.maxSize).sum))
    ∧ ((boxCalc [(⟨0, 0, 200, 1, 0⟩ : BoxSizer), ⟨0, 0, 200, 1, 0⟩, ⟨0, 0, 200, 1, 0⟩]
        300).map fun s => s.size).sum = 300 :=
  ⟨⟨by norm_num, by norm_num, by norm_num⟩,
    (claim2_allocation [⟨0, 0, 200, 1, 0⟩, ⟨0, 0, 200, 1, 0⟩, ⟨0, 0, 200, 1, 0⟩] 300
      (by norm_num)).2.1 (by norm_num) (by norm_num)⟩

/-! ## The claim about handle visibility after a fit pass -/

theorem lvi_none (ch : List Bool) (h : lastVisibleIdx ch = none) :
    ∀ m : ℕ, m < ch.length → ch.getD m false = true := by
  induction ch with
  | nil => intro m hm; simp at hm
  | cons b rest ih =>
    intro m hm
    cases hr : lastVisibleIdx rest with
    | some j => simp [lastVisibleIdx, hr] at h
    | none =>
      have hb : b = true := by
        by_contra hb
        simp [lastVisibleIdx, hr, hb] at h
      cases m with
      | zero => simpa using hb
      | succ mm =>
        simp only [List.getD_cons_succ]
        exact ih hr mm (by simpa using Nat.lt_of_succ_lt_succ hm)

theorem lvi_some (ch : List Bool) (j : ℕ) (h : lastVisibleIdx ch = some j) :
    j < ch.length ∧ ch.getD j false = false ∧
      ∀ m : ℕ, j < m → m < ch.length → ch.getD m false = true := by
  induction ch generalizing j with
  | nil => simp [lastVisibleIdx] at h
  | cons b rest ih =>
    cases hr : lastVisibleIdx rest with
    | some jr =>
      have hj : j = jr + 1 := by
        simp [lastVisibleIdx, hr] at h
        omega
      subst hj
      obtain ⟨h1, h2, h3⟩ := ih jr hr
      refine ⟨by simpa using Nat.succ_lt_succ h1, by simpa using h2, ?_⟩
      intro m hm hml
      cases m with
      | zero => omega
      | succ mm =>
        simp only [List.getD_cons_succ]
        exact h3 mm (by omega) (by simpa using Nat.lt_of_succ_lt_succ hml)
    | none =>
      have hb : b = false ∧ j = 0 := by
        by_cases hbv : b = true
        · simp [lastVisibleIdx, hr, hbv] at h
        · simp only [Bool.not_eq_true] at hbv
          simp [lastVisibleIdx, hr, hbv] at h
          exact ⟨hbv, h.symm⟩
      obtain ⟨hbf, hj⟩ := hb
      subst hj
      refine ⟨by simp, by simpa using hbf, ?_⟩
      intro m hm hml
      cases m with
      | zero => omega
      | succ mm =>
        simp only [List.getD_cons_succ]
        exact lvi_none rest hr mm (by simpa using Nat.lt_of_succ_lt_succ hml)

theorem getD_set_bool (ch : List Bool) (j i : ℕ) (hi : i < ch.length) :
    (ch.set j true).getD i false = if j = i then true else ch.getD i false := by
  rw [List.getD_eq_getElem _ false (by simpa using hi), List.getElem_set]
  by_cases hij : j = i
  · simp [hij]
  · simp only [hij, if_false]
    rw [List.getD_eq_getElem _ false hi]

/-- Claim C8: after the fit pass's handle-visibility recomputation, a handle
is hidden if and only if its child widget is hidden or that child is the
last visible child in index order (every child after it is hidden); every
other handle is visible. -/
theorem claim8_handle_hidden (ch : List Bool) (i : ℕ) (hi : i < ch.length) :
    (fitHandleHidden ch).getD i false = true ↔
      (ch.getD i false = true
        ∨ ∀ m : ℕ, i < m → m < ch.length → ch.getD m false = true) := by
  cases hl : lastVisibleIdx ch with
  | none =>
    have hall := lvi_none ch hl
    simp only [fitHandleHidden, hl]
    constructor
    · intro h
      exact Or.inl h
    · intro _
      exact hall i hi
  | some j =>
    obtain ⟨hjl, hjf, hafter⟩ := lvi_some ch j hl
    simp only [fitHandleHidden, hl]
    rw [getD_set_bool ch j i hi]
    by_cases hij : j = i
    · subst hij
      exact iff_of_true (by simp) (Or.inr fun m hm hml => hafter m hm hml)
    · simp only [hij, if_false]
      constructor
      · intro h
        exact Or.inl h
      · intro h
        rcases h with h | h
        · exact h
        · rcases Nat.lt_or_ge i j with hij2 | hij2
          · exact absurd hjf (by rw [h j hij2 hjl]; simp)
          · exact hafter i (by omega) hi

/-- Witness for claim C8 on the concrete hidden-pattern
`[false, true, false, true]` (the child at index 2 is the last visible). -/
theorem claim8_witness :
    2 < ([false, true, false, true] : List Bool).length
    ∧ ((fitHandleHidden [false, true, false, true]).getD 2 false = true ↔
        (([false, true, false, true] : List Bool).getD 2 false = true
          ∨ ∀ m : ℕ, 2 < m → m < ([false, true, false, true] : List Bool).length →
              ([false, true, false, true] : List Bool).getD m false = true)) :=
  ⟨by decide, claim8_handle_hidden [false, true, false, true] 2 (by decide)⟩

/-! ## Lemmas about the widget lifecycle machine -/

theorem updW_same (w : World) (x : ℕ) (f : WidgetSt → WidgetSt) :
    (updW w x f) x = f (w x) := by
  simp [updW]

theorem updW_other (w : World) (x y : ℕ) (f : WidgetSt → WidgetSt) (h : y ≠ x) :
    (updW w x f) y = w y := by
  simp [updW, h]

theorem agree_refl (w : World) : agreeExceptVis w w := fun _ =>
  ⟨rfl, rfl, rfl, rfl, rfl, rfl⟩

theorem agree_trans {w₁ w₂ w₃ : World} (h1 : agreeExceptVis w₁ w₂)
    (h2 : agreeExceptVis w₂ w₃) : agreeExceptVis w₁ w₃ := by
  intro y
  obtain ⟨a1, b1, c1, d1, e1, f1⟩ := h1 y
  obtain ⟨a2, b2, c2, d2, e2, f2⟩ := h2 y
  exact ⟨a2.trans a1, b2.trans b1, c2.trans c1, d2.trans d1, e2.trans e1, f2.trans f1⟩

theorem rel_foldl {α : Type} (r : World → World → Prop)
    (htrans : ∀ w₁ w₂ w₃, r w₁ w₂ → r w₂ w₃ → r w₁ w₃)
    (step : World → α → World) (h : ∀ acc c, r acc (step acc c))
    (hrefl : ∀ w, r w w) :
    ∀ (cs : List α) (acc : World), r acc (cs.foldl step acc) := by
  intro cs
  induction cs with
  | nil => intro acc; exact hrefl acc
  | cons c rest ih =>
    intro acc
    exact htrans _ _ _ (h acc c) (ih (step acc c))

theorem deliver_agree (fuel : ℕ) (w : World) (x : ℕ) (m : VisMsg) :
    agreeExceptVis w (deliver fuel w x m) := by
  induction fuel generalizing w x m with
  | zero => exact agree_refl w
  | succ n ih =>
    have hupd : ∀ (w' : World) (y : ℕ) (f : WidgetSt → WidgetSt),
        (∀ s, (f s).parent = s.parent ∧ (f s).layout = s.layout ∧
          (f s).disposed = s.disposed ∧ (f s).hidden = s.hidden ∧
          (f s).node = s.node ∧ (f s).metaData = s.metaData) →
        agreeExceptVis w' (updW w' y f) := by
      intro w' y f hf z
      by_cases hz : z = y
      · subst hz
        rw [updW_same]
        exact hf (w' z)
      · rw [updW_other _ _ _ _ hz]
        exact ⟨rfl, rfl, rfl, rfl, rfl, rfl⟩
    have hfold : ∀ (step : World → ℕ → World),
        (∀ acc c, agreeExceptVis acc (step acc c)) →
        ∀ (cs : List ℕ) (acc : World), agreeExceptVis acc (cs.foldl step acc) := by
      intro step hstep cs
      induction cs with
      | nil => intro acc; exact agree_refl acc
      | cons c rest ihc =>
        intro acc
        exact agree_trans (hstep acc c) (ihc (step acc c))
    cases m with
    | afterShow =>
      simp only [deliver]
      exact agree_trans
        (hupd w x (fun s => { s with visible := true })
          (fun s => ⟨rfl, rfl, rfl, rfl, rfl, rfl⟩))
        (hfold _ (fun acc c => by
          by_cases hc : (acc c).hidden = true
          · simp only [if_pos hc]
            exact agree_refl acc
          · simp only [if_neg hc]
            exact ih acc c .afterShow) _ _)
    | beforeHide =>
      simp only [deliver]
      exact agree_trans
        (hfold _ (fun acc c => by
          by_cases hc : (acc c).hidden = true
          · simp only [if_pos hc]
            exact agree_refl acc
          · simp only [if_neg hc]
            exact ih acc c .beforeHide) _ _)
        (hupd _ x (fun s => { s with visible := false })
          (fun s => ⟨rfl, rfl, rfl, rfl, rfl, rfl⟩))
    | afterAttach =>
      simp only [deliver]
      exact agree_trans
        (hupd w x (fun s =>
            { s with visible := s.visible || (!(w x).hidden && parentVisible w x),
                     attached := true })
          (fun s => ⟨rfl, rfl, rfl, rfl, rfl, rfl⟩))
        (hfold _ (fun acc c => ih acc c .afterAttach) _ _)
    | beforeDetach =>
      simp only [deliver]
      exact agree_trans
        (hfold _ (fun acc c => ih acc c .beforeDetach) _ _)
        (hupd _ x (fun s => { s with visible := false, attached := false })
          (fun s => ⟨rfl, rfl, rfl, rfl, rfl, rfl⟩))

theorem disposeMono_refl (w : World) : disposeMono w w := fun _ =>
  ⟨Or.inl rfl, id, id, Or.inl rfl, rfl, id, id⟩

theorem disposeMono_trans {w₁ w₂ w₃ : World} (h1 : disposeMono w₁ w₂)
    (h2 : disposeMono w₂ w₃) : disposeMono w₁ w₃ := by
  intro y
  obtain ⟨p1, d1, a1, l1, h1y, n1, m1⟩ := h1 y
  obtain ⟨p2, d2, a2, l2, h2y, n2, m2⟩ := h2 y
  refine ⟨?_, fun h => d2 (d1 h), fun h => a1 (a2 h), ?_, h2y.trans h1y,
    fun h => n1 (n2 h), fun h => m1 (m2 h)⟩
  · rcases p2 with p2 | p2
    · rcases p1 with p1 | p1
      · exact Or.inl (p2.trans p1)
      · exact Or.inr (p2.trans p1)
    · exact Or.inr p2
  · rcases l2 with l2 | l2
    · rcases l1 with l1 | l1
      · exact Or.inl (l2.trans l1)
      · exact Or.inr (l2.trans l1)
    · exact Or.inr l2

theorem disposeMono_updW (w : World) (x : ℕ) (f : WidgetSt → WidgetSt)
    (hf : ∀ s : WidgetSt,
      ((f s).parent = s.parent ∨ (f s).parent = none)
      ∧ (s.disposed = true → (f s).disposed = true)
      ∧ ((f s).attached = true → s.attached = true)
      ∧ ((f s).layout = s.layout ∨ (f s).layout = none)
      ∧ (f s).hidden = s.hidden
      ∧ ((f s).node = true → s.node = true)
      ∧ ((f s).metaData = true → s.metaData = true)) :
    disposeMono w (updW w x f) := by
  intro y
  by_cases hy : y = x
  · subst hy
    rw [updW_same]
    exact hf (w y)
  · rw [updW_other _ _ _ _ hy]
    exact ⟨Or.inl rfl, id, id, Or.inl rfl, rfl, id, id⟩

theorem deliver_detach_attached (fuel : ℕ) (w : World) (x : ℕ) :
    ∀ y, ((deliver fuel w x .beforeDetach) y).attached = true → (w y).attached = true := by
  induction fuel generalizing w x with
  | zero => exact fun y h => h
  | succ n ih =>
    intro y hy
    simp only [deliver] at hy
    have hfold : ∀ (cs : List ℕ) (acc : World),
        ((cs.foldl (fun acc c => deliver n acc c .beforeDetach) acc) y).attached = true →
        (acc y).attached = true := by
      intro cs
      induction cs with
      | nil => exact fun acc h => h
      | cons c rest ihc => exact fun acc h => ih _ c y (ihc _ h)
    by_cases hyx : y = x
    · subst hyx
      rw [updW_same] at hy
      simp at hy
    · rw [updW_other _ _ _ _ hyx] at hy
      exact hfold _ _ hy

theorem deliver_detach_mono (fuel : ℕ) (w : World) (x : ℕ) :
    disposeMono w (deliver fuel w x .beforeDetach) := by
  have ha := deliver_agree fuel w x .beforeDetach
  have hat := deliver_detach_attached fuel w x
  intro y
  obtain ⟨hp, hl, hd, hh, hn, hm⟩ := ha y
  exact ⟨Or.inl hp, fun h => hd.trans h, hat y, Or.inl hl, hh,
    fun h => hn.symm.trans h ▸ rfl, fun h => hm.symm.trans h ▸ rfl⟩

theorem disposeFlag_mono (w : World) (x : ℕ) : disposeMono w (disposeFlag w x) :=
  disposeMono_updW w x _ fun s => ⟨Or.inl rfl, fun _ => rfl, id, Or.inl rfl, rfl, id, id⟩

theorem disposeDetach_mono (fuel : ℕ) (w : World) (x : ℕ) :
    disposeMono w (disposeDetach fuel w x) := by
  unfold disposeDetach
  cases hp : (w x).parent with
  | some p =>
    exact disposeMono_updW w x _ fun s => ⟨Or.inr rfl, id, id, Or.inl rfl, rfl, id, id⟩
  | none =>
    by_cases hatt : (w x).attached = true
    · simp only [if_pos hatt]
      exact deliver_detach_mono fuel w x
    · simp only [if_neg hatt]
      exact disposeMono_refl w

theorem disposeRelease_mono (w : World) (x : ℕ) : disposeMono w (disposeRelease w x) :=
  disposeMono_updW w x _ fun s =>
    ⟨Or.inl rfl, id, id, Or.inl rfl, rfl, fun h => by simp at h, fun h => by simp at h⟩

theorem disposeW_succ (n : ℕ) (w : World) (x : ℕ) (hd : (w x).disposed = false) :
    disposeW (n + 1) w x
      = disposeRelease (disposeKids n (disposeDetach n (disposeFlag w x) x) x) x := by
  simp only [disposeW, disposeFlag, disposeDetach, disposeKids, disposeRelease]
  rw [if_neg (by simp [hd])]

theorem disposeW_mono : ∀ (fuel : ℕ) (w : World) (x : ℕ),
    disposeMono w (disposeW fuel w x) := by
  intro fuel
  induction fuel with
  | zero => exact fun w x => disposeMono_refl w
  | succ n ih =>
    intro w x
    by_cases hd : (w x).disposed = true
    · simp only [disposeW, if_pos hd]
      exact disposeMono_refl w
    · have hd' : (w x).disposed = false := by simpa using hd
      rw [disposeW_succ n w x hd']
      refine disposeMono_trans (disposeFlag_mono w x)
        (disposeMono_trans (disposeDetach_mono n _ x)
          (disposeMono_trans ?_ (disposeRelease_mono _ x)))
      unfold disposeKids
      cases hl : ((disposeDetach n (disposeFlag w x) x) x).layout with
      | none => exact disposeMono_refl _
      | some cs =>
        refine disposeMono_trans
          (rel_foldl disposeMono (fun _ _ _ => disposeMono_trans)
            _ (fun acc c => disposeMono_trans
              (disposeMono_updW acc c (fun s => { s with parent := none })
                fun s => ⟨Or.inr rfl, id, id, Or.inl rfl, rfl, id, id⟩)
              (ih _ c)) disposeMono_refl cs _)
          (disposeMono_updW _ x (fun s => { s with layout := none })
            fun s => ⟨Or.inl rfl, id, id, Or.inr rfl, rfl, id, id⟩)

theorem disposeKids_mono (fuel : ℕ) (w : World) (x : ℕ) :
    disposeMono w (disposeKids fuel w x) := by
  unfold disposeKids
  cases hl : (w x).layout with
  | none => exact disposeMono_refl w
  | some cs =>
    refine disposeMono_trans
      (rel_foldl disposeMono (fun _ _ _ => disposeMono_trans)
        _ (fun acc c => disposeMono_trans
          (disposeMono_updW acc c (fun s => { s with parent := none })
            fun s => ⟨Or.inr rfl, id, id, Or.inl rfl, rfl, id, id⟩)
          (disposeW_mono fuel _ c)) disposeMono_refl cs _)
      (disposeMono_updW _ x (fun s => { s with layout := none })
        fun s => ⟨Or.inl rfl, id, id, Or.inr rfl, rfl, id, id⟩)

theorem disposeW_disposed (fuel : ℕ) (hf : 1 ≤ fuel) (w : World) (x : ℕ) :
    ((disposeW fuel w x) x).disposed = true := by
  obtain ⟨n, rfl⟩ : ∃ n, fuel = n + 1 := ⟨fuel - 1, by omega⟩
  by_cases hd : (w x).disposed = true
  · simpa only [disposeW, if_pos hd] using hd
  · have hd' : (w x).disposed = false := by simpa using hd
    rw [disposeW_succ n w x hd']
    have h1 : ((disposeFlag w x) x).disposed = true := by
      simp [disposeFlag, updW_same]
    have h2 := ((disposeDetach_mono n (disposeFlag w x) x) x).2.1 h1
    have h3 := ((disposeKids_mono n (disposeDetach n (disposeFlag w x) x) x) x).2.1 h2
    exact ((disposeRelease_mono _ x) x).2.1 h3

theorem disposeW_noop (fuel : ℕ) (w : World) (x : ℕ) (hd : (w x).disposed = true) :
    disposeW fuel w x = w := by
  cases fuel with
  | zero => rfl
  | succ n => simp only [disposeW, if_pos hd]

theorem disposeDetach_layout (fuel : ℕ) (w : World) (x : ℕ) :
    ∀ y, ((disposeDetach fuel w x) y).layout = (w y).layout := by
  intro y
  unfold disposeDetach
  cases hp : (w x).parent with
  | some p =>
    show ((updW w x fun s => { s with parent := none }) y).layout = (w y).layout
    by_cases hy : y = x
    · subst hy
      rw [updW_same]
    · rw [updW_other _ _ _ _ hy]
  | none =>
    show ((if (w x).attached = true then deliver fuel w x .beforeDetach else w) y).layout
        = (w y).layout
    by_cases hatt : (w x).attached = true
    · simp only [if_pos hatt]
      exact ((deliver_agree fuel w x .beforeDetach) y).2.1
    · simp only [if_neg hatt]

theorem disposeDetach_parent_cleared (fuel : ℕ) (w : World) (x : ℕ) (p : ℕ)
    (hp : (w x).parent = some p) :
    ((disposeDetach fuel w x) x).parent = none := by
  simp only [disposeDetach, hp, updW_same]

theorem deliver_detach_att_x (n : ℕ) (w : World) (x : ℕ) :
    ((deliver (n + 1) w x .beforeDetach) x).attached = false := by
  simp [deliver, updW_same]

theorem kids_foldl_facts (n : ℕ) (hn : 1 ≤ n) (cs : List ℕ) :
    ∀ (acc : World), ∀ c ∈ cs,
      ((cs.foldl
        (fun acc c => disposeW n (updW acc c fun s => { s with parent := none }) c)
        acc) c).parent = none
      ∧ ((cs.foldl
        (fun acc c => disposeW n (updW acc c fun s => { s with parent := none }) c)
        acc) c).disposed = true := by
  induction cs with
  | nil =>
    intro acc c hc
    simp at hc
  | cons c0 rest ih =>
    intro acc c hc
    simp only [List.foldl_cons]
    rcases List.mem_cons.mp hc with rfl | hc
    · have hpar : ((disposeW n (updW acc c fun s => { s with parent := none }) c) c).parent
          = none := by
        rcases ((disposeW_mono n (updW acc c fun s => { s with parent := none }) c) c).1
          with h | h
        · rw [h, updW_same]
        · exact h
      have hdis : ((disposeW n (updW acc c fun s => { s with parent := none }) c) c).disposed
          = true := disposeW_disposed n hn _ c
      have hmono2 : disposeMono
          (disposeW n (updW acc c fun s => { s with parent := none }) c)
          (rest.foldl
            (fun acc c => disposeW n (updW acc c fun s => { s with parent := none }) c)
            (disposeW n (updW acc c fun s => { s with parent := none }) c)) :=
        rel_foldl disposeMono (fun _ _ _ => disposeMono_trans) _
          (fun acc2 c2 => disposeMono_trans
            (disposeMono_updW acc2 c2 (fun s => { s with parent := none })
              fun s => ⟨Or.inr rfl, id, id, Or.inl rfl, rfl, id, id⟩)
            (disposeW_mono n _ c2)) disposeMono_refl rest _
      constructor
      · rcases (hmono2 c).1 with h | h
        · rw [h]
          exact hpar
        · exact h
      · exact (hmono2 c).2.1 hdis
    · exact ih _ c hc

/-- Claim C7: disposal is idempotent and cascading.  The first `dispose`
call sets the Disposed flag, unparents the widget (when it has a parent) or
detaches it (when it is an attached root), disposes the owned layout — which
leaves every child of the layout without a parent reference and disposed —
releases the attached metadata and releases the node reference; every
subsequent `dispose` call (with any fuel) is a no-op. -/
theorem claim7_dispose (fuel : ℕ) (w : World) (x : ℕ) (cs : List ℕ)
    (hfe : 2 ≤ fuel) (hl : (w x).layout = some cs) (hnd : (w x).disposed = false) :
    ((disposeW fuel w x) x).disposed = true
    ∧ ((disposeW fuel w x) x).layout = none
    ∧ ((disposeW fuel w x) x).node = false
    ∧ ((disposeW fuel w x) x).metaData = false
    ∧ ((w x).parent ≠ none → ((disposeW fuel w x) x).parent = none)
    ∧ ((w x).parent = none → (w x).attached = true →
        ((disposeW fuel w x) x).attached = false)
    ∧ (∀ c ∈ cs, ((disposeW fuel w x) c).parent = none
        ∧ ((disposeW fuel w x) c).disposed = true)
    ∧ (∀ fuel2 : ℕ, disposeW fuel2 (disposeW fuel w x) x = disposeW fuel w x) := by
  have hdisp : ((disposeW fuel w x) x).disposed = true :=
    disposeW_disposed fuel (by omega) w x
  obtain ⟨n, rfl⟩ : ∃ n, fuel = n + 2 := ⟨fuel - 2, by omega⟩
  have hstep : disposeW (n + 2) w x
      = disposeRelease (disposeKids (n + 1) (disposeDetach (n + 1) (disposeFlag w x) x) x) x :=
    disposeW_succ (n + 1) w x hnd
  have hw1x : (disposeFlag w x) x = { w x with disposed := true } := by
    rw [disposeFlag, updW_same]
  have hl2 : ((disposeDetach (n + 1) (disposeFlag w x) x) x).layout = some cs := by
    rw [disposeDetach_layout, hw1x]
    exact hl
  have hkids : disposeKids (n + 1) (disposeDetach (n + 1) (disposeFlag w x) x) x
      = updW (cs.foldl
          (fun acc c => disposeW (n + 1) (updW acc c fun s => { s with parent := none }) c)
          (disposeDetach (n + 1) (disposeFlag w x) x)) x
          fun s => { s with layout := none } := by
    simp only [disposeKids, hl2]
  rw [hkids] at hstep
  set w4 := cs.foldl
    (fun acc c => disposeW (n + 1) (updW acc c fun s => { s with parent := none }) c)
    (disposeDetach (n + 1) (disposeFlag w x) x) with hw4
  have hmono24 : disposeMono (disposeDetach (n + 1) (disposeFlag w x) x) w4 :=
    rel_foldl disposeMono (fun _ _ _ => disposeMono_trans) _
      (fun acc2 c2 => disposeMono_trans
        (disposeMono_updW acc2 c2 (fun s => { s with parent := none })
          fun s => ⟨Or.inr rfl, id, id, Or.inl rfl, rfl, id, id⟩)
        (disposeW_mono (n + 1) _ c2)) disposeMono_refl cs _
  have hFx : (disposeRelease (updW w4 x fun s => { s with layout := none }) x) x
      = { w4 x with layout := none, node := false, metaData := false } := by
    rw [disposeRelease, updW_same, updW_same]
  have hFy : ∀ y, y ≠ x →
      (disposeRelease (updW w4 x fun s => { s with layout := none }) x) y = w4 y := by
    intro y hy
    rw [disposeRelease, updW_other _ _ _ _ hy, updW_other _ _ _ _ hy]
  refine ⟨hstep ▸ hdisp, ?_, ?_, ?_, ?_, ?_, ?_, ?_⟩
  · rw [hstep, hFx]
  · rw [hstep, hFx]
  · rw [hstep, hFx]
  · intro hpar
    obtain ⟨p, hp⟩ := Option.ne_none_iff_exists'.mp hpar
    have hp1 : ((disposeFlag w x) x).parent = some p := by
      rw [hw1x]
      exact hp
    have hp2 : ((disposeDetach (n + 1) (disposeFlag w x) x) x).parent = none :=
      disposeDetach_parent_cleared (n + 1) _ x p hp1
    have hp4 : (w4 x).parent = none := by
      rcases (hmono24 x).1 with h | h
      · rw [h]
        exact hp2
      · exact h
    rw [hstep, hFx]
    exact hp4
  · intro hpar hatt
    have hp1 : ((disposeFlag w x) x).parent = none := by
      rw [hw1x]
      exact hpar
    have ha1 : ((disposeFlag w x) x).attached = true := by
      rw [hw1x]
      exact hatt
    have ha2 : ((disposeDetach (n + 1) (disposeFlag w x) x) x).attached = false := by
      simp only [disposeDetach, hp1, if_pos ha1]
      exact deliver_detach_att_x n _ x
    have ha4 : (w4 x).attached = false := by
      cases hb : (w4 x).attached with
      | false => rfl
      | true =>
        have := (hmono24 x).2.2.1 hb
        rw [ha2] at this
        exact this.symm ▸ rfl
    rw [hstep, hFx]
    exact ha4
  · intro c hc
    have hk := kids_foldl_facts (n + 1) (by omega) cs
      (disposeDetach (n + 1) (disposeFlag w x) x) c hc
    rw [hstep]
    by_cases hcx : c = x
    · subst hcx
      rw [hFx]
      exact ⟨hk.1, hk.2⟩
    · rw [hFy c hcx]
      exact hk
  · intro fuel2
    exact disposeW_noop fuel2 _ x hdisp

theorem updW_updW (w : World) (x : ℕ) (f g : WidgetSt → WidgetSt) :
    updW (updW w x f) x g = updW w x (fun s => g (f s)) := by
  funext y
  by_cases hy : y = x <;> simp [updW, hy]

theorem deliver_leaf (n : ℕ) (w : World) (x : ℕ) (hlay : (w x).layout = none) :
    deliver (n + 1) w x .afterShow = updW w x (fun s => { s with visible := true })
    ∧ deliver (n + 1) w x .beforeHide = updW w x (fun s => { s with visible := false })
    ∧ deliver (n + 1) w x .afterAttach = updW w x (fun s =>
        { s with visible := s.visible || (!(w x).hidden && parentVisible w x),
                 attached := true })
    ∧ deliver (n + 1) w x .beforeDetach = updW w x (fun s =>
        { s with visible := false, attached := false }) := by
  have hupd : ∀ f : WidgetSt → WidgetSt, (∀ s, (f s).layout = s.layout) →
      childrenOf (updW w x f) x = [] := by
    intro f hfl
    rw [childrenOf, updW_same, hfl, hlay]
    rfl
  have hw : childrenOf w x = [] := by
    rw [childrenOf, hlay]
    rfl
  refine ⟨?_, ?_, ?_, ?_⟩
  · simp only [deliver]
    rw [hupd (fun s => { s with visible := true }) (fun s => rfl), List.foldl_nil]
  · simp only [deliver]
    rw [hw, List.foldl_nil]
  · simp only [deliver]
    rw [hupd (fun s =>
      { s with visible := s.visible || (!(w x).hidden && parentVisible w x),
               attached := true }) (fun s => rfl), List.foldl_nil]
  · simp only [deliver]
    rw [hw, List.foldl_nil]

theorem disposeW_root_cases (fuel : ℕ) (w : World) (x : ℕ)
    (hpar : (w x).parent = none) (hlay : (w x).layout = none) :
    disposeW fuel w x = w
    ∨ disposeW fuel w x
        = updW w x (fun s => { s with disposed := true, node := false, metaData := false })
    ∨ disposeW fuel w x
        = updW w x (fun s =>
            { s with disposed := true, visible := false, attached := false,
                     node := false, metaData := false }) := by
  cases fuel with
  | zero => exact Or.inl rfl
  | succ k =>
    by_cases hd : (w x).disposed = true
    · exact Or.inl (disposeW_noop (k + 1) w x hd)
    · have hd' : (w x).disposed = false := by simpa using hd
      rw [disposeW_succ k w x hd']
      have hx1 : (disposeFlag w x) x = { w x with disposed := true } := by
        rw [disposeFlag, updW_same]
      have hpar1 : ((disposeFlag w x) x).parent = none := by
        rw [hx1]
        exact hpar
      have hlay1 : ((disposeFlag w x) x).layout = none := by
        rw [hx1]
        exact hlay
      have hdet : disposeDetach k (disposeFlag w x) x
          = if ((disposeFlag w x) x).attached = true
            then deliver k (disposeFlag w x) x .beforeDetach
            else disposeFlag w x := by
        simp only [disposeDetach, hpar1]
      by_cases hatt : ((disposeFlag w x) x).attached = true
      · rw [hdet, if_pos hatt]
        cases k with
        | zero =>
          right
          left
          show disposeRelease (disposeKids 0 (disposeFlag w x) x) x = _
          simp only [disposeKids, hlay1]
          rw [disposeRelease, disposeFlag, updW_updW]
        | succ k2 =>
          right
          right
          rw [(deliver_leaf k2 _ x hlay1).2.2.2]
          have hlay2 : ((updW (disposeFlag w x) x fun s =>
              { s with visible := false, attached := false }) x).layout = none := by
            rw [updW_same]
            exact hlay1
          simp only [disposeKids, hlay2]
          rw [disposeRelease, disposeFlag, updW_updW, updW_updW]
      · rw [hdet, if_neg hatt]
        right
        left
        simp only [disposeKids, hlay1]
        rw [disposeRelease, disposeFlag, updW_updW]

theorem claim7_witness :
    (2 ≤ 3 ∧ (wC7 0).layout = some [1, 2] ∧ (wC7 0).disposed = false)
    ∧ ((disposeW 3 wC7 0) 0).disposed = true
    ∧ ∀ c ∈ [1, 2], ((disposeW 3 wC7 0) c).parent = none
        ∧ ((disposeW 3 wC7 0) c).disposed = true := by
  refine ⟨⟨by decide, rfl, rfl⟩, ?_, ?_⟩
  · exact (claim7_dispose 3 wC7 0 [1, 2] (by decide) rfl rfl).1
  · exact (claim7_dispose 3 wC7 0 [1, 2] (by decide) rfl rfl).2.2.2.2.2.2.1

/-! ## The visibility invariant under the public operations -/

theorem rootsInv_updW (w : World) (x : ℕ) (f : WidgetSt → WidgetSt)
    (hinv : rootsInv w)
    (hf : (f (w x)).parent = none ∧ (f (w x)).layout = none ∧
      ((f (w x)).visible = true → (f (w x)).attached = true ∧ (f (w x)).hidden = false)) :
    rootsInv (updW w x f) := by
  intro y
  by_cases hy : y = x
  · subst hy
    rw [updW_same]
    exact hf
  · rw [updW_other w x y f hy]
    exact hinv y

theorem rootsInv_step (fuel : ℕ) (hfu : 1 ≤ fuel) (w : World) (op : WidgetOp)
    (hop : op.isReparent = false) (hinv : rootsInv w) :
    rootsInv (applyOp fuel w op) := by
  obtain ⟨k, rfl⟩ : ∃ k, fuel = k + 1 := ⟨fuel - 1, by omega⟩
  cases op with
  | reparent x v => simp [WidgetOp.isReparent] at hop
  | attach x =>
    show rootsInv (attachW (k + 1) w x)
    rw [attachW, if_neg (by simp [(hinv x).1])]
    by_cases hatt : (w x).attached = true
    · rw [if_pos hatt]
      exact hinv
    · rw [if_neg hatt, (deliver_leaf k w x (hinv x).2.1).2.2.1]
      refine rootsInv_updW w x _ hinv ⟨(hinv x).1, (hinv x).2.1, fun hv => ⟨rfl, ?_⟩⟩
      have hv' : ((w x).visible || (!(w x).hidden && parentVisible w x)) = true := hv
      show (w x).hidden = false
      cases hvv : (w x).visible with
      | true => exact ((hinv x).2.2 hvv).2
      | false =>
        rw [hvv, Bool.false_or, Bool.and_eq_true, Bool.not_eq_true'] at hv'
        exact hv'.1
  | detach x =>
    show rootsInv (detachW (k + 1) w x)
    rw [detachW, if_neg (by simp [(hinv x).1])]
    by_cases hatt : (w x).attached = false
    · rw [if_pos hatt]
      exact hinv
    · rw [if_neg hatt, (deliver_leaf k w x (hinv x).2.1).2.2.2]
      refine rootsInv_updW w x _ hinv ⟨(hinv x).1, (hinv x).2.1, fun hv => ?_⟩
      exact Bool.noConfusion (show false = true from hv)
  | showOp x =>
    show rootsInv (showW (k + 1) w x)
    simp only [showW]
    by_cases hh : (w x).hidden = false
    · rw [if_pos hh]
      exact hinv
    · rw [if_neg hh]
      have hinv1 : rootsInv (updW w x fun s => { s with hidden := false }) :=
        rootsInv_updW w x _ hinv ⟨(hinv x).1, (hinv x).2.1,
          fun hv => ⟨((hinv x).2.2 hv).1, rfl⟩⟩
      have hx1 : (updW w x fun s => { s with hidden := false }) x
          = { w x with hidden := false } := updW_same w x _
      have hpv : parentVisible (updW w x fun s => { s with hidden := false }) x
          = true := by
        rw [parentVisible, (hinv1 x).1]
      by_cases hatt : ((updW w x fun s => { s with hidden := false }) x).attached = true
      · have hcond : (((updW w x fun s => { s with hidden := false }) x).attached
            && parentVisible (updW w x fun s => { s with hidden := false }) x) = true := by
          rw [hatt, hpv]
          rfl
        rw [if_pos hcond, (deliver_leaf k _ x (hinv1 x).2.1).1]
        refine rootsInv_updW _ x _ hinv1 ⟨(hinv1 x).1, (hinv1 x).2.1, fun _ => ⟨?_, ?_⟩⟩
        · show ((updW w x fun s => { s with hidden := false }) x).attached = true
          exact hatt
        · show ((updW w x fun s => { s with hidden := false }) x).hidden = false
          rw [hx1]
      · have hcond : ¬((((updW w x fun s => { s with hidden := false }) x).attached
            && parentVisible (updW w x fun s => { s with hidden := false }) x) = true) := by
          simp only [Bool.and_eq_true]
          intro hc
          exact hatt hc.1
        rw [if_neg hcond]
        exact hinv1
  | hideOp x =>
    show rootsInv (hideW (k + 1) w x)
    simp only [hideW]
    by_cases hh : (w x).hidden = true
    · rw [if_pos hh]
      exact hinv
    · rw [if_neg hh]
      have hpv : parentVisible w x = true := by
        rw [parentVisible, (hinv x).1]
      by_cases hatt : (w x).attached = true
      · have hcond : ((w x).attached && parentVisible w x) = true := by
          rw [hatt, hpv]
          rfl
        rw [if_pos hcond, (deliver_leaf k w x (hinv x).2.1).2.1, updW_updW]
        refine rootsInv_updW w x _ hinv ⟨(hinv x).1, (hinv x).2.1, fun hv => ?_⟩
        exact Bool.noConfusion (show false = true from hv)
      · have hcond : ¬(((w x).attached && parentVisible w x) = true) := by
          simp only [Bool.and_eq_true]
          intro hc
          exact hatt hc.1
        rw [if_neg hcond]
        refine rootsInv_updW w x _ hinv ⟨(hinv x).1, (hinv x).2.1, fun hv => ?_⟩
        have hvv : (w x).visible = true := hv
        exact absurd ((hinv x).2.2 hvv).1 hatt
  | dispose x =>
    show rootsInv (disposeW (k + 1) w x)
    rcases disposeW_root_cases (k + 1) w x (hinv x).1 (hinv x).2.1 with h | h | h
    · rw [h]
      exact hinv
    · rw [h]
      refine rootsInv_updW w x _ hinv ⟨(hinv x).1, (hinv x).2.1, fun hv => ?_⟩
      have hvv : (w x).visible = true := hv
      exact ⟨((hinv x).2.2 hvv).1, ((hinv x).2.2 hvv).2⟩
    · rw [h]
      refine rootsInv_updW w x _ hinv ⟨(hinv x).1, (hinv x).2.1, fun hv => ?_⟩
      exact Bool.noConfusion (show false = true from hv)

theorem rootsInv_runOps (fuel : ℕ) (hfu : 1 ≤ fuel) :
    ∀ ops : List WidgetOp, (∀ op ∈ ops, op.isReparent = false) →
      ∀ w : World, rootsInv w → rootsInv (runOps fuel w ops) := by
  intro ops
  induction ops with
  | nil =>
    intro _ w hinv
    exact hinv
  | cons op rest ih =>
    intro hops w hinv
    simp only [runOps, List.foldl_cons]
    exact ih (fun o ho => hops o (List.mem_cons_of_mem op ho)) _
      (rootsInv_step fuel hfu w op (hops op (List.mem_cons_self op rest)) hinv)

theorem rootsInv_init : rootsInv initWorld := by
  intro x
  refine ⟨rfl, rfl, fun hv => ?_⟩
  exact Bool.noConfusion (show false = true from hv)

/-- Claim C5 counterexample: after hiding widget 1, attaching widget 0
(which makes it visible), and then reparenting widget 0 under the hidden
widget 1 through the raw `parent` setter, widget 0 still has its Visible
flag set even though its parent is explicitly hidden — the base-class
parent setter performs no visibility bookkeeping, so the claimed invariant
fails on states reachable through `reparent`. -/
theorem claim5_counterexample :
    ((runOps 3 initWorld opsC5) 0).visible = true
    ∧ ((runOps 3 initWorld opsC5) 1).hidden = true
    ∧ ((runOps 3 initWorld opsC5) 0).parent = some 1
    ∧ hasHiddenAncestor 3 (runOps 3 initWorld opsC5) 0 = true := by
  refine ⟨?_, ?_, ?_, ?_⟩ <;> rfl

/-- Claim C5 (amended): in every state reachable from freshly constructed
widgets through the public operations attach, detach, show, hide and
dispose — excluding raw parent reassignment, whose base-class setter does
no visibility bookkeeping — a widget whose Visible flag is set is also
Attached, is not explicitly Hidden, and has no explicitly hidden ancestor
(with at least one unit of message-delivery fuel). -/
theorem claim5_amended (fuel : ℕ) (hfu : 1 ≤ fuel) (ops : List WidgetOp)
    (hops : ∀ op ∈ ops, op.isReparent = false) (x : ℕ)
    (hvis : ((runOps fuel initWorld ops) x).visible = true) :
    ((runOps fuel initWorld ops) x).attached = true
    ∧ ((runOps fuel initWorld ops) x).hidden = false
    ∧ ∀ fuel2 : ℕ, hasHiddenAncestor fuel2 (runOps fuel initWorld ops) x = false := by
  have hinv := rootsInv_runOps fuel hfu ops hops initWorld rootsInv_init
  refine ⟨((hinv x).2.2 hvis).1, ((hinv x).2.2 hvis).2, fun fuel2 => ?_⟩
  cases fuel2 with
  | zero => rfl
  | succ k =>
    show (match ((runOps fuel initWorld ops) x).parent with
      | none => false
      | some p => ((runOps fuel initWorld ops) p).hidden
          || hasHiddenAncestor k (runOps fuel initWorld ops) p) = false
    rw [(hinv x).1]

theorem claim5_witness :
    (1 ≤ 1 ∧ (∀ op ∈ [WidgetOp.attach 0], op.isReparent = false)
      ∧ ((runOps 1 initWorld [WidgetOp.attach 0]) 0).visible = true)
    ∧ ((runOps 1 initWorld [WidgetOp.attach 0]) 0).attached = true := by
  refine ⟨⟨by decide, by decide, rfl⟩, ?_⟩
  exact (claim5_amended 1 (by decide) [WidgetOp.attach 0] (by decide) 0 rfl).1

/-! ## The parent setter -/

/-- Claim C6: the `parent` setter is a no-op when the value equals the
current parent; it errors without any state change when the value is the
widget itself or one of its descendants; otherwise it sets the parent
reference with no other state change, errors nothing, and its observable
operations occur in exactly this order: `child-removed` to the old parent
(when one exists and is not disposed), the reassignment, `child-added` to
the new parent (when one exists and is not disposed), and `parent-changed`
to the widget; a `child-removed` (resp. `child-added`) notice is never sent
to a disposed old (resp. new) parent. -/
theorem claim6_parent_setter (fuel : ℕ) (w : World) (x : ℕ) (value : Option ℕ) :
    ((w x).parent = value → setParentR fuel w x value = (w, [], false))
    ∧ (∀ u, value = some u → (w x).parent ≠ value → containsW fuel w x u = true →
        setParentR fuel w x value = (w, [], true))
    ∧ ((w x).parent ≠ value →
        (∀ u, value = some u → containsW fuel w x u = false) →
        (setParentR fuel w x value).2.2 = false
        ∧ (setParentR fuel w x value).1 = updW w x (fun s => { s with parent := value })
        ∧ (∀ p u, (w x).parent = some p → (w p).disposed = false →
            value = some u → (w u).disposed = false →
            (setParentR fuel w x value).2.1
              = [WEvent.childRemoved p x, WEvent.reassigned x,
                 WEvent.childAdded u x, WEvent.parentChanged x])
        ∧ (∀ u, (w x).parent = none → value = some u → (w u).disposed = false →
            (setParentR fuel w x value).2.1
              = [WEvent.reassigned x, WEvent.childAdded u x, WEvent.parentChanged x])
        ∧ (∀ p, (w x).parent = some p → (w p).disposed = false → value = none →
            (setParentR fuel w x value).2.1
              = [WEvent.childRemoved p x, WEvent.reassigned x, WEvent.parentChanged x])
        ∧ ((w x).parent = none → value = none →
            (setParentR fuel w x value).2.1
              = [WEvent.reassigned x, WEvent.parentChanged x])
        ∧ (∀ p, (w x).parent = some p → (w p).disposed = true →
            WEvent.childRemoved p x ∉ (setParentR fuel w x value).2.1)
        ∧ (∀ u, value = some u → (w u).disposed = true →
            WEvent.childAdded u x ∉ (setParentR fuel w x value).2.1)) := by
  have hud : ∀ u, ((updW w x fun s => { s with parent := value }) u).disposed
      = (w u).disposed := by
    intro u
    by_cases hu : u = x
    · subst hu
      rw [updW_same]
    · rw [updW_other w x u _ hu]
  refine ⟨?_, ?_, ?_⟩
  · intro h
    simp only [setParentR]
    rw [if_pos h]
  · intro u hv hne hcont
    subst hv
    simp only [setParentR]
    rw [if_neg hne, if_pos (show cycleGuard fuel w x (some u) = true from hcont)]
  · intro hne hnc
    have hcond : cycleGuard fuel w x value = false := by
      cases value with
      | none => rfl
      | some u => exact hnc u rfl
    simp only [setParentR]
    rw [if_neg hne, if_neg (by rw [hcond]; exact Bool.false_ne_true)]
    refine ⟨rfl, rfl, ?_, ?_, ?_, ?_, ?_, ?_⟩
    · intro p u hp hpd hv hud'
      subst hv
      simp [hp, hpd, hud, hud']
    · intro u hp hv hud'
      subst hv
      simp [hp, hud, hud']
    · intro p hp hpd hv
      subst hv
      simp [hp, hpd]
    · intro hp hv
      subst hv
      simp [hp]
    · intro p hp hpd
      cases value with
      | none => simp [hp, hpd]
      | some u =>
        by_cases hw : (w u).disposed = false
        · simp [hp, hpd, hud, hw]
        · simp [hp, hpd, hud, hw]
    · intro u hv hud'
      subst hv
      cases hp : (w x).parent with
      | none => simp [hp, hud, hud']
      | some p =>
        by_cases hpd : (w p).disposed = false
        · simp [hp, hpd, hud, hud']
        · simp [hp, hpd, hud, hud']

theorem claim6_witness :
    ((wC6 1).parent = some 0 ∧ (wC6 1).parent ≠ some 2
      ∧ (∀ u, (some 2 : Option ℕ) = some u → containsW 3 wC6 1 u = false)
      ∧ (wC6 0).disposed = false ∧ (wC6 2).disposed = false)
    ∧ (setParentR 3 wC6 1 (some 2)).2.1
        = [WEvent.childRemoved 0 1, WEvent.reassigned 1,
           WEvent.childAdded 2 1, WEvent.parentChanged 1] := by
  refine ⟨⟨rfl, by decide, ?_, rfl, rfl⟩, ?_⟩
  · intro u hu
    cases hu
    rfl
  · exact ((claim6_parent_setter 3 wC6 1 (some 2)).2.2 (by decide)
      (fun u hu => by cases hu; rfl)).2.2.1 0 2 rfl rfl rfl rfl

end SplitVerify
